import Mathlib

/-!
# t9njson: paragraph keys that survive edits

A shallow embedding of `diff.go` (package `t9njson`) and theorems about it.

Go strings are byte sequences: a string is a `List Nat` of byte values.
Go maps are association lists kept in ascending key order.
A run-time panic of the Go code (index out of range, nil dereference) is `none`.
The two calls into `diffmatchpatch` are inputs of the model:
`DiffBisect(prevText, newText, deadline)` is the edit script `diff`, and
`DiffLevenshtein(DiffBisect(oldLine, newLine, deadline))` is the function `dist`.
-/

set_option autoImplicit false
set_option linter.dupNamespace false

namespace T9n

/-! ## Strings -/

/-- A Go string: its bytes. -/
abbrev Str := List Nat

/-- UTF-8 encoding of a code point; Go's `string(r)` for an integer `r`. -/
def utf8 (c : Nat) : Str :=
  if c < 128 then [c]
  else if c < 2048 then [192 + c / 64, 128 + c % 64]
  else if c < 65536 then [224 + c / 4096, 128 + c / 64 % 64, 128 + c % 64]
  else [240 + c / 262144, 128 + c / 4096 % 64, 128 + c / 64 % 64, 128 + c % 64]

/-- UTF-8 bytes of a list of characters. -/
def bytesOf : List Char → Str
  | [] => []
  | c :: cs => utf8 c.toNat ++ bytesOf cs

/-- The Go string written as the literal `s`. -/
def bytes (s : String) : Str := bytesOf s.data

/-- Byte-lexicographic `a < b`, the order of Go's `<` on strings and of `sort.Strings`. -/
def strLt : Str → Str → Bool
  | _, [] => false
  | [], _ :: _ => true
  | a :: as, b :: bs => if a < b then true else if b < a then false else strLt as bs

/-- Go `strings.HasPrefix(s, p)`. -/
def startsWith : Str → Str → Bool
  | _, [] => true
  | [], _ :: _ => false
  | a :: s, b :: p => a == b && startsWith s p

/-- Go `strings.HasSuffix(s, p)`. -/
def endsWith (s p : Str) : Bool := startsWith s.reverse p.reverse

/-- Go `strings.TrimPrefix(s, p)`. -/
def trimStart (s p : Str) : Str := if startsWith s p then s.drop p.length else s

/-- Go `strings.TrimSuffix(s, p)`. -/
def trimEnd (s p : Str) : Str := if endsWith s p then s.take (s.length - p.length) else s

/-- Go `strings.Contains(s, sub)`. -/
def containsStr : Str → Str → Bool
  | [], sub => sub.isEmpty
  | c :: s, sub => startsWith (c :: s) sub || containsStr s sub

/-- Go `strings.Split(s, sep)` for a non-empty `sep`, scanning left to right;
`skip` counts the bytes of a matched separator still to be passed over. -/
def splitGo (sep : Str) : Str → Nat → List Str
  | [], _ => [[]]
  | _ :: s, skip + 1 => splitGo sep s skip
  | c :: s, 0 =>
    if startsWith (c :: s) sep then [] :: splitGo sep s (sep.length - 1)
    else
      match splitGo sep s 0 with
      | p :: ps => (c :: p) :: ps
      | [] => [[c]]

/-- Go `strings.Split(s, sep)`, `sep` non-empty. -/
def split (s sep : Str) : List Str := splitGo sep s 0

/-- Go `strings.ReplaceAll(s, old, new)` for a non-empty `old`. -/
def replaceGo (old new : Str) : Str → Nat → Str
  | [], _ => []
  | _ :: s, skip + 1 => replaceGo old new s skip
  | c :: s, 0 =>
    if startsWith (c :: s) old then new ++ replaceGo old new s (old.length - 1)
    else c :: replaceGo old new s 0

/-- Go `strings.ReplaceAll(s, old, new)`, `old` non-empty. -/
def replaceAll (s old new : Str) : Str := replaceGo old new s 0

/-- The table `asciiSpace` of the source: tab, newline, vertical tab, form feed,
carriage return, space. -/
def asciiSpace (c : Nat) : Bool :=
  c == 9 || c == 10 || c == 11 || c == 12 || c == 13 || c == 32

/-- Strips one white-space rune (`unicode.IsSpace`) from the front, if there is one:
the ASCII ones, U+0085, U+00A0, U+1680, U+2000..U+200A, U+2028, U+2029, U+202F,
U+205F, U+3000 in their UTF-8 encoding. -/
def dropSpace : Str → Option Str
  | [] => none
  | c :: s =>
    if asciiSpace c then some s
    else
      match c, s with
      | 194, d :: r => if d == 133 || d == 160 then some r else none
      | 225, 154 :: 128 :: r => some r
      | 226, 128 :: d :: r =>
        if (128 ≤ d && d ≤ 138) || d == 168 || d == 169 || d == 175 then some r else none
      | 226, 129 :: 159 :: r => some r
      | 227, 128 :: 128 :: r => some r
      | _, _ => none

/-- Strips one white-space rune from the end, given the string reversed. -/
def dropSpaceRev : Str → Option Str
  | [] => none
  | c :: s =>
    if asciiSpace c then some s
    else
      match c, s with
      | 133, 194 :: r => some r
      | 160, 194 :: r => some r
      | 128, 154 :: 225 :: r => some r
      | 159, 129 :: 226 :: r => some r
      | 128, 128 :: 227 :: r => some r
      | d, 128 :: 226 :: r =>
        if (128 ≤ d && d ≤ 138) || d == 168 || d == 169 || d == 175 then some r else none
      | _, _ => none

/-- Repeats `f` while it succeeds, at most `fuel` times. -/
def stripWhile (f : Str → Option Str) : Nat → Str → Str
  | 0, s => s
  | fuel + 1, s =>
    match f s with
    | none => s
    | some r => stripWhile f fuel r

/-- Go `strings.TrimLeftFunc(s, unicode.IsSpace)`. -/
def trimLeftSpace (s : Str) : Str := stripWhile dropSpace s.length s

/-- Go `strings.TrimRightFunc(s, unicode.IsSpace)`. -/
def trimRightSpace (s : Str) : Str := (stripWhile dropSpaceRev s.length s.reverse).reverse

/-- Go `strings.TrimSpace(s)`, which equals `strings.TrimFunc(s, unicode.IsSpace)`. -/
def trimSpace (s : Str) : Str := trimRightSpace (trimLeftSpace s)

/-- The loop of `trimSpaceSuffix` over the reversed string: ASCII white space is
dropped from the end; at a byte `>= utf8.RuneSelf` the rest is handed to
`strings.TrimFunc`, which trims both ends. -/
def trimSpaceSuffixRev : Str → Str
  | [] => []
  | c :: r =>
    if c ≥ 128 then trimSpace (c :: r).reverse
    else if asciiSpace c then trimSpaceSuffixRev r
    else (c :: r).reverse

/-- Source `trimSpaceSuffix`. -/
def trimSpaceSuffix (s : Str) : Str := trimSpaceSuffixRev s.reverse

/-- Byte length of the UTF-8 sequence that starts `s`, 1 for an invalid or short one
(the decoding rules of Go's `unicode/utf8`). -/
def runeWidth : Str → Nat
  | [] => 0
  | [_] => 1
  | c :: c1 :: rest =>
    let cont (b : Nat) : Bool := 128 ≤ b && b ≤ 191
    if 194 ≤ c ∧ c ≤ 223 then (if cont c1 then 2 else 1)
    else if 224 ≤ c ∧ c ≤ 239 then
      let lo := if c = 224 then 160 else 128
      let hi := if c = 237 then 159 else 191
      match rest with
      | c2 :: _ => if lo ≤ c1 ∧ c1 ≤ hi ∧ cont c2 then 3 else 1
      | [] => 1
    else if 240 ≤ c ∧ c ≤ 244 then
      let lo := if c = 240 then 144 else 128
      let hi := if c = 244 then 143 else 191
      match rest with
      | c2 :: c3 :: _ => if lo ≤ c1 ∧ c1 ≤ hi ∧ cont c2 ∧ cont c3 then 4 else 1
      | _ => 1
    else 1

/-- Counts runes; `skip` is the number of bytes of the current rune still to pass. -/
def runeCountGo : Str → Nat → Nat
  | [], _ => 0
  | _ :: s, skip + 1 => runeCountGo s skip
  | c :: s, 0 => 1 + runeCountGo s (runeWidth (c :: s) - 1)

/-- Go `utf8.RuneCountInString(s)`. -/
def runeCount (s : Str) : Nat := runeCountGo s 0

/-- Decimal digits of `n`, least significant first; `fuel` bounds the number of digits. -/
def digitsRev : Nat → Nat → Str
  | 0, _ => []
  | fuel + 1, n => (48 + n % 10) :: (if n / 10 = 0 then [] else digitsRev fuel (n / 10))

/-- Go `strconv.Itoa(n)` for `n >= 0`. -/
def itoa (n : Nat) : Str := (digitsRev (n + 1) n).reverse

/-- Go `fmt.Sprintf("%0wd", n)` for `n >= 0`: decimal, padded with zeros to width `w`. -/
def padZero (w n : Nat) : Str := List.replicate (w - (itoa n).length) 48 ++ itoa n

/-- Insertion into an ascending list. -/
def insertSorted (k : Str) : List Str → List Str
  | [] => [k]
  | x :: xs => if strLt x k then x :: insertSorted k xs else k :: x :: xs

/-- Go `sort.Strings`: the strings in ascending byte order. -/
def sortStrings : List Str → List Str
  | [] => []
  | x :: xs => insertSorted x (sortStrings xs)

/-! ## Maps -/

/-- A Go `map[string]string`. -/
abbrev GoMap := List (Str × Str)

/-- Go `m[k]`: the value stored, the empty string when absent. -/
def GoMap.get : GoMap → Str → Str
  | [], _ => []
  | (k', v) :: m, k => if k' = k then v else GoMap.get m k

/-- Whether `k` is a key of `m`. -/
def GoMap.has : GoMap → Str → Bool
  | [], _ => false
  | (k', _) :: m, k => k' = k || GoMap.has m k

/-- Go `m[k] = v`. -/
def GoMap.set : GoMap → Str → Str → GoMap
  | [], k, v => [(k, v)]
  | (k', v') :: m, k, v =>
    if k' = k then (k, v) :: m
    else if strLt k k' then (k, v) :: (k', v') :: m
    else (k', v') :: GoMap.set m k v

/-- Source `getKeys`: the keys of the map, sorted. -/
def getKeys (doc : GoMap) : List Str := sortStrings (doc.map Prod.fst)

/-- Source `MapToText`. -/
def MapToText (d : GoMap) : Str :=
  (getKeys d).foldl (fun s k => s ++ (d.get k ++ [10, 10])) []

/-- The key `fmt.Sprintf("%s:%0"+strconv.Itoa(lastLineLen)+"d", path, lastNewLine)`. -/
def lineKey (path : Str) (lastLineLen lastNewLine : Nat) : Str :=
  path ++ 58 :: padZero lastLineLen lastNewLine

/-- Loop state of `TextToMap`. -/
structure TextState where
  doc : GoMap
  curLine : Str
  lastNewLine : Nat

/-- One iteration of the loop of `TextToMap`, at line index `i`. -/
def textStep (path : Str) (lastLineLen : Nat) (st : TextState) (i : Nat) (line : Str) :
    TextState :=
  let lastNewLine :=
    if st.curLine = [] ∧ trimSpace line ≠ [] then i else st.lastNewLine
  let key := lineKey path lastLineLen lastNewLine
  if trimSpace line = [] then
    if st.curLine = [] then
      ⟨st.doc.set key (st.doc.get key ++ [10]), st.curLine, lastNewLine⟩
    else
      ⟨st.doc.set key (trimSpace st.curLine), [], lastNewLine⟩
  else
    ⟨st.doc, st.curLine ++ (line ++ [10]), lastNewLine⟩

/-- The loop of `TextToMap` over the lines from index `i` on. -/
def textLoop (path : Str) (lastLineLen : Nat) : TextState → Nat → List Str → TextState
  | st, _, [] => st
  | st, i, line :: rest =>
    textLoop path lastLineLen (textStep path lastLineLen st i line) (i + 1) rest

/-- Source `TextToMap`. -/
def TextToMap (text path : Str) : GoMap :=
  let lines := split text [10]
  let lastLineLen := (itoa lines.length).length
  let st := textLoop path lastLineLen ⟨[], [], 0⟩ 0 lines
  if st.curLine ≠ [] then st.doc.set (lineKey path lastLineLen st.lastNewLine) st.curLine
  else st.doc

/-! ## The trie of keys -/

/-- Source `lexTree`: `tree` maps a byte (as a rune) to the subtree. The field `used`
of the source is written by `Add` and never read; it is left out. -/
inductive lexTree where
  | mk (isLeaf : Bool) (tree : List (Nat × lexTree)) (maxDepth : Nat) : lexTree

namespace lexTree

/-- Field `isLeaf`. -/
def isLeaf : lexTree → Bool
  | mk l _ _ => l

/-- Field `tree`. -/
def tree : lexTree → List (Nat × lexTree)
  | mk _ cs _ => cs

/-- Field `maxDepth`. -/
def maxDepth : lexTree → Nat
  | mk _ _ d => d

/-- The zero value `lexTree{}`. -/
def empty : lexTree := mk false [] 0

/-- Map read `tree[c]`; `none` is the nil pointer. -/
def lookup : List (Nat × lexTree) → Nat → Option lexTree
  | [], _ => none
  | (c', n) :: rest, c => if c' = c then some n else lookup rest c

/-- Map write `tree[c] = n`. -/
def store : List (Nat × lexTree) → Nat → lexTree → List (Nat × lexTree)
  | [], c, n => [(c, n)]
  | (c', n') :: rest, c, n => if c' = c then (c, n) :: rest else (c', n') :: store rest c n

/-- Source `lexTree.add`: the updated node and the returned depth. -/
def add : lexTree → Str → lexTree × Nat
  | mk _ cs md, [] => (mk true cs md, 0)
  | mk l cs md, c :: s =>
    let r := add ((lookup cs c).getD empty) s
    (mk l (store cs c r.1) (max md (r.2 + 1)), max md (r.2 + 1))

/-- Source `lexTree.Add`. -/
def Add (t : lexTree) (s : Str) : lexTree := (t.add s).1

/-- The body of the candidate loop of `findNewBetween` for the byte `i`;
the state is `(minDepth, minDepthI)`, `mean - i` and `i - mean` are `uint8`. -/
def pickStep (cs : List (Nat × lexTree)) (mean : Nat) (st : Int × Nat) (i : Nat) : Int × Nat :=
  if i < 48 then st
  else
    match lookup cs i with
    | none =>
      if st.1 > 0 then (0, i)
      else
        let dif : Nat := max ((mean + 256 - i) % 256) ((i + 256 - mean) % 256)
        if (dif : Int) > st.1 then (-(dif : Int), i) else st
    | some n =>
      if (n.maxDepth : Int) < st.1 then ((n.maxDepth : Int), i) else st

/-- The candidate loop `for i := prev[0]; i < next[0]; i++`: the final `minDepthI`. -/
def pick (cs : List (Nat × lexTree)) (p0 n0 : Nat) : Nat :=
  ((List.range' p0 (n0 - p0)).foldl (pickStep cs (n0 / 2 + p0 / 2)) ((100000 : Int), p0)).2

mutual
/-- Source `lexTree.findNewBetween`: the new key and the trie after the call
(the call adds a one-rune key to the node where it stops). -/
def findNewBetween : lexTree → Str → Str → Option (Str × lexTree)
  | mk l cs md, prev, next =>
    let prev := if prev = [] then [47] else prev
    let next := if next = [] then [123] else next
    let p0 := prev.headD 0
    let n0 := next.headD 0
    if p0 = n0 then
      match descend cs p0 prev.tail next.tail with
      | none => none
      | some (r, cs') => some (utf8 p0 ++ r, mk l cs' md)
    else
      let i := pick cs p0 n0
      match lookup cs i with
      | none => some (utf8 i, Add (mk l cs md) (utf8 i))
      | some _ =>
        match descend cs i (if p0 = i then prev.tail else []) [] with
        | none => none
        | some (r, cs') => some (utf8 i ++ r, mk l cs' md)
/-- The call `t.tree[c].findNewBetween(prev, next)` with the subtree updated in place;
`none` when `t.tree[c]` is nil. -/
def descend : List (Nat × lexTree) → Nat → Str → Str → Option (Str × List (Nat × lexTree))
  | [], _, _, _ => none
  | (c', n) :: rest, c, prev, next =>
    if c' = c then
      match findNewBetween n prev next with
      | none => none
      | some (r, n') => some (r, (c', n') :: rest)
    else
      match descend rest c prev next with
      | none => none
      | some (r, rest') => some (r, (c', n) :: rest')
end

/-- Whether the path spelled by `s` exists below `t`. -/
def hasPath : lexTree → Str → Bool
  | _, [] => true
  | t, c :: s =>
    match lookup t.tree c with
    | none => false
    | some n => hasPath n s

/-- Whether `s` is a key stored in `t`: its path ends in a node marked `isLeaf`. -/
def contains : lexTree → Str → Bool
  | t, [] => t.isLeaf
  | t, c :: s =>
    match lookup t.tree c with
    | none => false
    | some n => contains n s

end lexTree

/-! ## The reconciler -/

/-- The operations of `diffmatchpatch`. -/
inductive Operation where
  | DiffDelete
  | DiffInsert
  | DiffEqual
deriving DecidableEq

/-- A span `diffmatchpatch.Diff`; the field `Type` of the source is `Op` here. -/
structure Diff where
  Op : Operation
  Text : Str
deriving DecidableEq

/-- The separator of paragraphs, two newlines. -/
def sep : Str := [10, 10]

/-- The text of a span with every newline + carriage return replaced by a newline. -/
def cleanText (d : Diff) : Str := replaceAll d.Text [10, 13] [10]

/-- The coalescing loop: `op` and `text` are the operation of `diff[cf]` and the text
gathered from `diff[cf:j]`; the end of the list is the closing span of type 3, which
differs from every operation. -/
def unifyGo : Operation → Str → List Diff → List Diff
  | op, text, [] => [⟨op, text⟩]
  | op, text, d :: ds =>
    if op ≠ d.Op then ⟨op, text⟩ :: unifyGo d.Op (cleanText d) ds
    else unifyGo op (text ++ cleanText d) ds

/-- The list `diffUnified`; reading `diff[0]` of an empty script panics. -/
def diffUnified : List Diff → Option (List Diff)
  | [] => none
  | d :: ds => some (unifyGo d.Op (cleanText d) ds)

/-- One iteration of the loop that moves a newline down the road, at index `i`. -/
def rebalanceStep (diff : List Diff) (i : Nat) : List Diff :=
  if i < 2 then diff
  else
    match diff.get? i, diff.get? (i - 1), diff.get? (i - 2) with
    | some d, some d1, some d2 =>
      if d.Op = Operation.DiffEqual ∧ d1.Op = Operation.DiffInsert ∧
          d2.Op = Operation.DiffEqual ∧ startsWith d.Text [10] ∧ endsWith d1.Text [10] ∧
          endsWith d2.Text [10] then
        ((diff.set i ⟨d.Op, 10 :: d.Text⟩).set (i - 1)
          ⟨d1.Op, 10 :: trimEnd d1.Text [10]⟩).set (i - 2) ⟨d2.Op, trimEnd d2.Text [10]⟩
      else diff
    | _, _, _ => diff

/-- The loop that moves a newline from the end of an insertion to the next paragraph. -/
def rebalance (diff : List Diff) : List Diff :=
  (List.range diff.length).foldl rebalanceStep diff

/-- The pieces of one span as spans: `"\n\n"` is put back after every piece but the
last. -/
def cutPieces (op : Operation) : List Str → List Diff
  | [] => []
  | [sc] => [⟨op, sc⟩]
  | sc :: rest => ⟨op, sc ++ sep⟩ :: cutPieces op rest

/-- The statement `diffSepByLines[len(diffSepByLines)-1].Text += sc`. -/
def appendLast : List Diff → Str → List Diff
  | [], _ => []
  | [d], sc => [⟨d.Op, d.Text ++ sc⟩]
  | d :: ds, sc => d :: appendLast ds sc

/-- The body of the re-cutting loop for the span `d`; `before` is `diff[j-1]`, absent
when `j = 0`. -/
def recutStep (before : Option Diff) (out : List Diff) (d : Diff) : List Diff :=
  match before, split d.Text sep with
  | some p, sc :: rest =>
    if d.Op = p.Op ∧ ¬ endsWith p.Text sep then appendLast out sc ++ cutPieces d.Op rest
    else out ++ cutPieces d.Op (sc :: rest)
  | _, pieces => out ++ cutPieces d.Op pieces

/-- The re-cutting loop over the spans that remain. -/
def recutGo : Option Diff → List Diff → List Diff → List Diff
  | _, out, [] => out
  | before, out, d :: ds => recutGo (some d) (recutStep before out d) ds

/-- The list `diffSepByLines` for the rebalanced spans `diff`. -/
def diffSepByLines (diff : List Diff) : List Diff := recutGo none [] diff

/-- The three normalisation passes of the reconciler in a row. -/
def normalize (diff : List Diff) : Option (List Diff) :=
  (diffUnified diff).map fun u => diffSepByLines (rebalance u)

/-- Source `diffLine`. -/
structure diffLine where
  Key : Str
  PreviousKey : Str
  NextKey : Str
  OldLine : Str
  NewLine : Str
deriving DecidableEq

/-- The variables of the inner loop of the walk. -/
structure Acc where
  newLine : Str
  oldLineLeft : Str
  oldLineRight : Str
  correctLine : Bool
  diffI : Nat

/-- The body of the `switch` of the inner loop for the span `d`, and `diffI++`. -/
def accStep (a : Acc) (d : Diff) : Acc :=
  match d.Op with
  | Operation.DiffEqual =>
    ⟨a.newLine ++ d.Text, a.oldLineLeft ++ d.Text, trimStart a.oldLineRight d.Text,
      a.correctLine && startsWith a.oldLineRight d.Text, a.diffI + 1⟩
  | Operation.DiffInsert =>
    ⟨a.newLine ++ d.Text, a.oldLineLeft ++ d.Text, a.oldLineRight, a.correctLine, a.diffI + 1⟩
  | Operation.DiffDelete =>
    ⟨a.newLine, a.oldLineLeft, trimStart a.oldLineRight d.Text,
      a.correctLine && startsWith a.oldLineRight d.Text, a.diffI + 1⟩

/-- The inner loop of the walk over the spans from `diffI` on: it stops after a span
that contains `"\n\n"` and at the end of the spans. -/
def accumulate : List Diff → Acc → Acc
  | [], a => a
  | d :: rest, a =>
    if containsStr d.Text sep then accStep a d
    else
      match rest with
      | [] => accStep a d
      | _ :: _ => accumulate rest (accStep a d)

/-- Whether `d.DiffBisect(text1, text2, deadline)` of go-diff panics. Its `diffBisect`
takes the rune counts `len1`, `len2` of the texts, sets `maxD = (len1 + len2 + 1) / 2`,
makes the slices `v1`, `v2` of `2 * maxD` cells and writes `v1[maxD + 1]` before its
loop: an index out of range when the texts have at most 2 runes together. -/
def bisectPanics (text1 text2 : Str) : Bool :=
  let maxD := (runeCount text1 + runeCount text2 + 1) / 2
  decide (¬ (maxD + 1 < 2 * maxD))

/-- The classification of a paragraph: `oldText` is `docPrevVersion[k]`, `oldLine` and
`newLine` the two reconstructed texts, `i` the index of the key `k`. `none` is the
panic of `d.DiffBisect(oldLine, newLine, deadline)`; `dist oldLine newLine` is the
distance when the call returns. -/
def classify (dist : Str → Str → Nat) (i : Nat) (k previousKey nextKey oldText
    oldLine newLine : Str) : Option (List diffLine) :=
  if bisectPanics oldLine newLine then none
  else
    let updateDistance := dist oldLine newLine
    let oldLineLen := runeCount oldLine
    let newLineLen := runeCount newLine
    if updateDistance <
        max oldLineLen newLineLen - min oldLineLen newLineLen + max oldLineLen newLineLen / 2
        ∨ i = 0 then
      some [⟨k, previousKey, nextKey, oldText,
        if trimSpace (replaceAll oldText [10, 13] [10]) = trimSpace newLine then oldText
        else newLine⟩]
    else
      some [⟨k, previousKey, nextKey, oldText, []⟩, ⟨[], previousKey, nextKey, [], newLine⟩]

/-- The variables that live across the iterations of the walk. -/
structure WalkState where
  diffI : Nat
  lines : List diffLine
  leftoverDiffNs : Str
  leftoverTextNs : Str

/-- How one iteration of the walk ends. -/
inductive Outcome where
  | next (st : WalkState)
  | stop (st : WalkState)
  | panic

/-- The part of an iteration of the walk after the three exact matches failed. -/
def walkGeneral (docPrevVersion : GoMap) (spans : List Diff) (dist : Str → Str → Nat)
    (i : Nat) (k previousKey nextKey : Str) (st : WalkState) : Outcome :=
  let oldLine := st.leftoverTextNs ++ docPrevVersion.get k
  let a := accumulate (spans.drop st.diffI) ⟨st.leftoverDiffNs, [], oldLine ++ sep, true, st.diffI⟩
  let newLine := trimEnd a.newLine sep
  let endTextNs := trimStart a.oldLineRight (trimSpaceSuffix a.oldLineRight)
  let endDiffNs := trimStart newLine (trimSpaceSuffix newLine)
  let st1 : WalkState :=
    ⟨a.diffI, st.lines, trimStart endDiffNs endTextNs, trimStart endTextNs endDiffNs⟩
  if a.correctLine = false ∨ trimSpace a.oldLineRight ≠ [] ∨
      trimSpace newLine ≠ trimSpace a.oldLineLeft then
    Outcome.stop st1
  else
    match classify dist i k previousKey nextKey (docPrevVersion.get k) oldLine newLine with
    | none => Outcome.panic
    | some ls => Outcome.next ⟨st1.diffI, st.lines ++ ls, st1.leftoverDiffNs, st1.leftoverTextNs⟩

/-- One iteration of the walk over the old keys, for the key `k` at index `i`.
The statement `i--` of the source changes the loop variable of a `range` loop, which
the next iteration overwrites: it has no effect. -/
def walkStep (docPrevVersion : GoMap) (spans : List Diff) (dist : Str → Str → Nat)
    (i : Nat) (k previousKey nextKey : Str) (st : WalkState) : Outcome :=
  match spans.get? st.diffI with
  | none => Outcome.panic
  | some d =>
    if endsWith d.Text sep ∧ d.Op = Operation.DiffInsert then
      Outcome.next ⟨st.diffI + 1, st.lines ++ [⟨[], previousKey, k, [], trimEnd d.Text sep⟩],
        st.leftoverDiffNs, st.leftoverTextNs⟩
    else if docPrevVersion.get k ++ sep = d.Text ∧ d.Op = Operation.DiffEqual then
      Outcome.next ⟨st.diffI + 1,
        st.lines ++ [⟨k, previousKey, nextKey, docPrevVersion.get k, docPrevVersion.get k⟩],
        st.leftoverDiffNs, st.leftoverTextNs⟩
    else if docPrevVersion.get k ++ sep = d.Text ∧ d.Op = Operation.DiffDelete then
      Outcome.next ⟨st.diffI + 1,
        st.lines ++ [⟨k, previousKey, nextKey, docPrevVersion.get k, []⟩],
        st.leftoverDiffNs, st.leftoverTextNs⟩
    else walkGeneral docPrevVersion spans dist i k previousKey nextKey st

/-- The key `docPrevKeys[i]`. -/
def keyAt (docPrevKeys : List Str) (i : Nat) : Str :=
  match docPrevKeys.get? i with
  | some k => k
  | none => []

/-- The walk `for i := range docPrevKeys` from index `i` on; `rest` is
`docPrevKeys[i:]`. The result is `lines`. -/
def walkLoop (docPrevVersion : GoMap) (spans : List Diff) (dist : Str → Str → Nat)
    (docPrevKeys : List Str) : Nat → List Str → WalkState → Option (List diffLine)
  | _, [], st => some st.lines
  | i, k :: rest, st =>
    let previousKey := if i > 0 then keyAt docPrevKeys (i - 1) else []
    let nextKey := if i < docPrevKeys.length - 1 then keyAt docPrevKeys (i + 1) else []
    match walkStep docPrevVersion spans dist i k previousKey nextKey st with
    | Outcome.panic => none
    | Outcome.stop st1 => some st1.lines
    | Outcome.next st1 => walkLoop docPrevVersion spans dist docPrevKeys (i + 1) rest st1

/-- The list `lines` of the walk over all old keys. -/
def walk (docPrevVersion : GoMap) (spans : List Diff) (dist : Str → Str → Nat) :
    Option (List diffLine) :=
  walkLoop docPrevVersion spans dist (getKeys docPrevVersion) 0 (getKeys docPrevVersion)
    ⟨0, [], [], []⟩

/-- The keys of the lines that have one, each once: the set `uKeys`. -/
def lineKeys : List diffLine → List Str
  | [] => []
  | l :: rest =>
    if l.Key ≠ [] ∧ ¬ l.Key ∈ lineKeys rest then l.Key :: lineKeys rest else lineKeys rest

/-- The trie after the two seeding loops: the keys of the lines, then the old
`usedKeys`. -/
def seedTree (lines : List diffLine) (usedKeys : List Str) : lexTree :=
  usedKeys.foldl lexTree.Add
    (lines.foldl (fun t l => if l.Key ≠ [] then t.Add l.Key else t) lexTree.empty)

/-- The last loop of the reconciler: it fills `docNew` and appends the new keys to
`usedKeys`. `none` is a panic inside `findNewBetween`. -/
def emitLoop : lexTree → List Str → GoMap → List diffLine → Option (GoMap × List Str)
  | _, usedKeys, docNew, [] => some (docNew, usedKeys)
  | lTree, usedKeys, docNew, l :: rest =>
    if l.NewLine = [] then emitLoop lTree usedKeys docNew rest
    else if l.Key = [] then
      if l.PreviousKey = [] then some (docNew, usedKeys)
      else
        match lTree.findNewBetween l.PreviousKey l.NextKey with
        | none => none
        | some (key, lTree1) =>
          emitLoop (lTree1.Add key) (usedKeys ++ [key]) (docNew.set key l.NewLine) rest
    else emitLoop lTree usedKeys (docNew.set l.Key l.NewLine) rest

/-- Source `Doc`. -/
structure Doc where
  Doc : GoMap
  UsedKeys : List Str
deriving DecidableEq

/-- The lines 415 to 450 of the source: from `lines` and the old `usedKeys` to the
result. -/
def emit (lines : List diffLine) (usedKeys : List Str) : Option Doc :=
  (emitLoop (seedTree lines usedKeys) (lineKeys lines) [] lines).map
    fun r => ⟨r.1, sortStrings r.2⟩

/-- The variable `keysPrefix`: the part before the first `":"` of a key of the old
snapshot (the first one here, Go takes any), `path` when the snapshot is empty. -/
def keysPrefix (path : Str) : GoMap → Str
  | [] => path
  | (k, _) :: _ => (split k [58]).headD []

/-- The branch without history (lines 204 to 211): the old snapshot is empty here, so
`keysPrefix` is `path`. -/
def noHistory (newText path : Str) (docPrevVersion : GoMap) (usedKeys : List Str) : Doc :=
  let docNew := TextToMap newText (keysPrefix path docPrevVersion)
  ⟨docNew, sortStrings (usedKeys ++ docNew.map Prod.fst)⟩

/-- Source `WithPreservedKeysAndOrder`. `bisect` stands for the script that
`d.DiffBisect` returns and `dist old new` for the value of
`d.DiffLevenshtein(d.DiffBisect(old, new, deadline))`, both when `DiffBisect` does not
panic (`bisectPanics`); `docPrevVersion = none` is the nil map. `none` as result is a
panic. -/
def WithPreservedKeysAndOrder (bisect : Str → Str → List Diff) (dist : Str → Str → Nat)
    (newText path : Str) (docPrevVersion : Option GoMap) (usedKeys : List Str) :
    Option Doc :=
  match docPrevVersion with
  | none => some (noHistory newText path [] usedKeys)
  | some prev =>
    if prev.length = 0 ∧ usedKeys.length = 0 then some (noHistory newText path prev usedKeys)
    else if bisectPanics (MapToText prev) newText then none
    else
      match normalize (bisect (MapToText prev) newText) with
      | none => none
      | some spans =>
        match walk prev spans dist with
        | none => none
        | some lines => emit lines usedKeys

/-! ## Notions used in the statements -/

/-- Every byte of the string is below 128. -/
def isAscii (s : Str) : Bool := s.all (fun x => decide (x < 128))

/-- The byte the candidate loop may end on: the first byte of `prev`, or a byte of
the range that is not below `'0'`. -/
def Cand (p0 n0 j : Nat) : Prop := j = p0 ∨ (p0 ≤ j ∧ j < n0 ∧ 48 ≤ j)

/-- The recursive call of `findNewBetween` into the subtree of the byte `c`, with the
result put back into the node. -/
def intoChild (l : Bool) (cs : List (Nat × lexTree)) (md : Nat) (c : Nat) (prev next : Str) :
    Option (Str × lexTree) :=
  match lexTree.lookup cs c with
  | none => none
  | some ch =>
    match lexTree.findNewBetween ch prev next with
    | none => none
    | some (r, ch') => some (utf8 c ++ r, lexTree.mk l (lexTree.store cs c ch') md)

/-- A list of keys in strictly ascending byte order. -/
def Ascending (ks : List Str) : Prop := List.Pairwise (fun a b => strLt a b = true) ks

/-- Whether `b` continues `a` with a byte below `'0'`, the lowest byte a new key may
take. -/
def extendsBelowFloor (a b : Str) : Bool :=
  startsWith b a &&
    (match b.drop a.length with
     | c :: _ => decide (c < 48)
     | [] => false)

/-- The map with `path` put in front of every key. -/
def GoMap.withPath (path : Str) (m : GoMap) : GoMap := m.map fun kv => (path ++ kv.1, kv.2)

/-- The number of lines with a non-empty `NewLine`: the lines the last loop does not
skip. -/
def live (lines : List diffLine) : Nat :=
  (lines.filter fun l => decide (l.NewLine ≠ [])).length

/-- Every line without a key (a pending insertion) has ASCII brackets. -/
def asciiBrackets (lines : List diffLine) : Prop :=
  ∀ l ∈ lines, l.Key = [] → isAscii l.PreviousKey = true ∧ isAscii l.NextKey = true

/-- The variables of the inner loop of the walk when it ends, for the key `k` in the
state `st`: what `walkGeneral` tests. -/
def walkAcc (docPrevVersion : GoMap) (spans : List Diff) (k : Str) (st : WalkState) : Acc :=
  accumulate (spans.drop st.diffI)
    ⟨st.leftoverDiffNs, [], st.leftoverTextNs ++ docPrevVersion.get k ++ sep, true, st.diffI⟩

/-- The height of a node as seen from its children: 0 without children, otherwise 1 +
the largest `maxDepth` of a child. -/
def localHeight : List (Nat × lexTree) → Nat
  | [] => 0
  | (_, n) :: rest => max (n.maxDepth + 1) (localHeight rest)

/-- The node at the end of the path spelled by `s`, if the path exists. -/
def nodeAt : lexTree → Str → Option lexTree
  | t, [] => some t
  | t, c :: s =>
    match lexTree.lookup t.tree c with
    | none => none
    | some n => nodeAt n s

/-- Every node of the trie records the height of its subtree. -/
def heightsRecorded (t : lexTree) : Prop :=
  ∀ x n, nodeAt t x = some n → n.maxDepth = localHeight n.tree

/-- The number written by decimal digits, least significant first. -/
def leVal : Str → Nat
  | [] => 0
  | d :: ds => (d - 48) + 10 * leVal ds

/-- The number written by a string of decimal digits. -/
def decVal (s : Str) : Nat := leVal s.reverse

/-- Every byte is a decimal digit `'0'..'9'`. -/
def isDigits (s : Str) : Prop := ∀ d ∈ s, 48 ≤ d ∧ d ≤ 57

/-- The texts of the spans whose operation `keep` accepts, one after the other. -/
def side (keep : Operation → Bool) : List Diff → Str
  | [] => []
  | d :: ds => (if keep d.Op = true then d.Text else []) ++ side keep ds

/-- The old text of an edit script: its Equal and Delete spans in order. -/
def oldSide (spans : List Diff) : Str :=
  side (fun op => decide (op ≠ Operation.DiffInsert)) spans

/-- The new text of an edit script: its Equal and Insert spans in order. -/
def newSide (spans : List Diff) : Str :=
  side (fun op => decide (op ≠ Operation.DiffDelete)) spans

/-- Neighbouring spans have different operations. -/
def alternating (ops : List Operation) : Prop := List.Chain' (fun a b => a ≠ b) ops

/-- The order `sort.Strings` leaves: no string is followed by a smaller one. -/
def NonDescending (ks : List Str) : Prop := List.Pairwise (fun a b => strLt b a = false) ks

/-- The state of the walk after the iterations for the keys `keys`, the first of them
at index `i`, when each of these iterations goes on to the next key; `none` when one of
them stops the walk or panics. -/
def walkTo (docPrevVersion : GoMap) (spans : List Diff) (dist : Str → Str → Nat)
    (docPrevKeys : List Str) : Nat → List Str → WalkState → Option WalkState
  | _, [], st => some st
  | i, k :: rest, st =>
    let previousKey := if i > 0 then keyAt docPrevKeys (i - 1) else []
    let nextKey := if i < docPrevKeys.length - 1 then keyAt docPrevKeys (i + 1) else []
    match walkStep docPrevVersion spans dist i k previousKey nextKey st with
    | Outcome.next st1 => walkTo docPrevVersion spans dist docPrevKeys (i + 1) rest st1
    | _ => none

/-- Whether the line at index `i` is blank, that is empty after trimming white space;
true beyond the last line. -/
def blankAt : List Str → Nat → Bool
  | [], _ => true
  | l :: _, 0 => decide (trimSpace l = [])
  | _ :: rest, i + 1 => blankAt rest i

/-- A paragraph, a maximal run of non-blank lines, starts at the line index `i`: the
line is not blank, and it is the first line or the line before it is blank. -/
def paragraphStart (lines : List Str) (i : Nat) : Bool :=
  !blankAt lines i && (i == 0 || blankAt lines (i - 1))

/-- The buffer of the paragraph at the head of `lines`: the lines up to the first
blank one, each followed by a newline. -/
def paragraphBuffer : List Str → Str
  | [] => []
  | l :: rest => if trimSpace l = [] then [] else l ++ 10 :: paragraphBuffer rest

/-- The state of the loop of `TextToMap` after the lines `pre`, in terms of the
paragraphs of `pre`. -/
structure SegInv (path : Str) (w : Nat) (pre : List Str) (st : TextState) : Prop where
  between : st.curLine = [] → pre.length = 0 ∨ blankAt pre (pre.length - 1) = true
  inside : st.curLine ≠ [] → blankAt pre (pre.length - 1) = false ∧ pre.length ≠ 0 ∧
    paragraphStart pre st.lastNewLine = true ∧
    (∀ l ∈ pre.drop st.lastNewLine, trimSpace l ≠ []) ∧
    st.curLine = paragraphBuffer (pre.drop st.lastNewLine)
  last : st.lastNewLine = 0 ∨ paragraphStart pre st.lastNewLine = true
  stored : ∀ s, paragraphStart pre s = true →
    (st.curLine ≠ [] ∧ s = st.lastNewLine) ∨
    (st.doc.has (lineKey path w s) = true ∧ (∃ l ∈ pre.drop s, trimSpace l = []) ∧
      ∃ m, st.doc.get (lineKey path w s) =
        trimSpace (paragraphBuffer (pre.drop s)) ++ List.replicate m 10)
  keys : ∀ k ∈ st.doc.map Prod.fst, ∃ n, k = lineKey path w n ∧
    (n = 0 ∨ paragraphStart pre n = true)

/-! # Theorems -/

open lexTree Operation

/-! ## Order and prefixes -/

theorem strLt_nil_cons (c : Nat) (s : Str) : strLt [] (c :: s) = true := rfl

theorem strLt_cons_same (x : Nat) (a b : Str) : strLt (x :: a) (x :: b) = strLt a b := by
  cases b <;> cases a <;> simp [strLt]

theorem strLt_cons_lt {x y : Nat} (a b : Str) (h : x < y) : strLt (x :: a) (y :: b) = true := by
  simp [strLt, h]

theorem utf8_ascii {c : Nat} (h : c < 128) : utf8 c = [c] := by
  simp [utf8, h]

/-! ## The trie -/

theorem lookup_sizeOf {cs : List (Nat × lexTree)} {c : Nat} {ch : lexTree}
    (h : lookup cs c = some ch) : sizeOf ch < sizeOf cs := by
  induction cs with
  | nil => simp [lookup] at h
  | cons hd tl ih =>
    obtain ⟨c', n'⟩ := hd
    by_cases hc : c' = c
    · simp [lookup, hc] at h
      subst h
      simp
      omega
    · simp [lookup, hc] at h
      have := ih h
      simp
      omega

theorem descend_eq (cs : List (Nat × lexTree)) (c : Nat) (p n : Str) :
    descend cs c p n =
      match lookup cs c with
      | none => none
      | some ch =>
        match findNewBetween ch p n with
        | none => none
        | some (r, ch') => some (r, store cs c ch') := by
  induction cs with
  | nil => simp [descend, lookup]
  | cons hd tl ih =>
    obtain ⟨c', n'⟩ := hd
    by_cases h : c' = c
    · subst h
      simp only [descend, lookup, store, if_true]
    · simp only [descend, lookup, store, if_neg h, ih]
      cases hl : lookup tl c with
      | none => simp
      | some ch => cases hf : findNewBetween ch p n <;> simp [hf]

theorem pickStep_cand (cs : List (Nat × lexTree)) (mean p0 n0 : Nat) (st : Int × Nat) (i : Nat)
    (hi : p0 ≤ i ∧ i < n0) (hst : Cand p0 n0 st.2) :
    Cand p0 n0 (pickStep cs mean st i).2 := by
  unfold pickStep
  by_cases h48 : i < 48
  · simp [h48, hst]
  · have hc : Cand p0 n0 i := Or.inr ⟨hi.1, hi.2, by omega⟩
    simp only [h48, if_false]
    cases lookup cs i with
    | none =>
      simp only []
      split
      · exact hc
      · split
        · exact hc
        · exact hst
    | some n =>
      simp only []
      split
      · exact hc
      · exact hst

theorem foldl_pickStep_cand (cs : List (Nat × lexTree)) (mean p0 n0 : Nat) (xs : List Nat)
    (hxs : ∀ x ∈ xs, p0 ≤ x ∧ x < n0) (st : Int × Nat) (hst : Cand p0 n0 st.2) :
    Cand p0 n0 (xs.foldl (pickStep cs mean) st).2 := by
  induction xs generalizing st with
  | nil => simpa using hst
  | cons x xs ih =>
    simp only [List.foldl_cons]
    apply ih
    · intro y hy
      exact hxs y (List.mem_cons_of_mem _ hy)
    · exact pickStep_cand cs mean p0 n0 st x (hxs x (List.mem_cons_self _ _)) hst

theorem pick_cand (cs : List (Nat × lexTree)) (p0 n0 : Nat) : Cand p0 n0 (pick cs p0 n0) := by
  unfold pick
  apply foldl_pickStep_cand
  · intro x hx
    rw [List.mem_range'_1] at hx
    omega
  · exact Or.inl rfl

theorem findNewBetween_unfold (l : Bool) (cs : List (Nat × lexTree)) (md : Nat)
    (prev next P N : Str) (hP : P = if prev = [] then [47] else prev)
    (hN : N = if next = [] then [123] else next) :
    findNewBetween (mk l cs md) prev next =
      if P.headD 0 = N.headD 0 then intoChild l cs md (P.headD 0) P.tail N.tail
      else
        match lookup cs (pick cs (P.headD 0) (N.headD 0)) with
        | none =>
          some (utf8 (pick cs (P.headD 0) (N.headD 0)),
            Add (mk l cs md) (utf8 (pick cs (P.headD 0) (N.headD 0))))
        | some _ =>
          intoChild l cs md (pick cs (P.headD 0) (N.headD 0))
            (if P.headD 0 = pick cs (P.headD 0) (N.headD 0) then P.tail else []) [] := by
  rw [findNewBetween]
  simp only [descend_eq, ← hP, ← hN, intoChild]
  by_cases h : P.headD 0 = N.headD 0
  · simp only [h, if_true]
    cases hl : lookup cs (N.headD 0) with
    | none => rfl
    | some ch =>
      simp only []
      cases hf : findNewBetween ch P.tail N.tail <;> simp only [hf]
  · simp only [h, if_false]
    cases hl : lookup cs (pick cs (P.headD 0) (N.headD 0)) with
    | none => rfl
    | some ch =>
      simp only []
      cases hf : findNewBetween ch
        (if List.headD P 0 = pick cs (List.headD P 0) (List.headD N 0) then P.tail else []) []
        <;> simp only [hf]

theorem isAscii_cons {x : Nat} {s : Str} (h : isAscii (x :: s) = true) :
    x < 128 ∧ isAscii s = true := by
  simpa [isAscii] using h

theorem sizeOf_pos (t : lexTree) : 0 < sizeOf t := by
  cases t
  simp

theorem hasPath_cons {l : Bool} {cs : List (Nat × lexTree)} {md x : Nat} {q : Str}
    (h : hasPath (mk l cs md) (x :: q) = true) :
    ∃ ch, lookup cs x = some ch ∧ hasPath ch q = true := by
  simp only [hasPath, lexTree.tree] at h
  cases hl : lookup cs x with
  | none => simp [hl] at h
  | some ch => exact ⟨ch, rfl, by simpa [hl] using h⟩

theorem strLt_nil_utf8_append (c : Nat) (r : Str) : strLt [] (utf8 c ++ r) = true := by
  unfold utf8
  split
  · rfl
  · split
    · rfl
    · split <;> rfl

theorem findNewBetween_above (n : Nat) : ∀ (t : lexTree) (q : Str), sizeOf t ≤ n →
    isAscii q = true → hasPath t q = true →
    ∃ r t', findNewBetween t q [] = some (r, t') ∧ strLt q r = true := by
  induction n with
  | zero =>
    intro t q hs
    have := sizeOf_pos t
    omega
  | succ n ih =>
    intro t q hs hq hp
    obtain ⟨l, cs, md⟩ := t
    have hchild : ∀ {c : Nat} {ch : lexTree}, lookup cs c = some ch → sizeOf ch ≤ n := by
      intro c ch hl
      have h1 := lookup_sizeOf hl
      simp at hs
      omega
    cases q with
    | nil =>
      rw [findNewBetween_unfold l cs md [] [] [47] [123] rfl rfl]
      simp only [List.headD_cons, List.tail_cons, ite_self]
      rw [if_neg (by decide)]
      cases hl : lookup cs (pick cs 47 123) with
      | none => exact ⟨_, _, rfl, by simpa using strLt_nil_utf8_append _ []⟩
      | some ch =>
        obtain ⟨r, t', hr, _⟩ := ih ch [] (hchild hl) rfl rfl
        exact ⟨utf8 (pick cs 47 123) ++ r, mk l (store cs (pick cs 47 123) t') md,
          by simp only [intoChild, hl, hr], strLt_nil_utf8_append _ _⟩
    | cons x q' =>
      obtain ⟨hx, hq'⟩ := isAscii_cons hq
      obtain ⟨cx, hcx, hpx⟩ := hasPath_cons hp
      rw [findNewBetween_unfold l cs md (x :: q') [] (x :: q') [123] rfl rfl]
      simp only [List.headD_cons, List.tail_cons]
      by_cases h123 : x = 123
      · subst h123
        obtain ⟨r, t', hr, hlt⟩ := ih cx q' (hchild hcx) hq' hpx
        refine ⟨utf8 123 ++ r, mk l (store cs 123 t') md,
          by simp only [if_true, intoChild, hcx, hr], ?_⟩
        rw [utf8_ascii (by decide), List.singleton_append, strLt_cons_same]
        exact hlt
      · rw [if_neg h123]
        have hc := pick_cand cs x 123
        cases hl : lookup cs (pick cs x 123) with
        | none =>
          have hne : pick cs x 123 ≠ x := by
            intro he
            rw [he, hcx] at hl
            cases hl
          have hlt : x < pick cs x 123 ∧ pick cs x 123 < 123 := by
            rcases hc with h | h
            · exact absurd h hne
            · omega
          refine ⟨_, _, rfl, ?_⟩
          rw [utf8_ascii (by omega)]
          exact strLt_cons_lt _ _ hlt.1
        | some ch =>
          by_cases hxi : x = pick cs x 123
          · rw [← hxi] at hl ⊢
            rw [hcx] at hl
            cases hl
            obtain ⟨r, t', hr, hlt⟩ := ih cx q' (hchild hcx) hq' hpx
            refine ⟨utf8 x ++ r, mk l (store cs x t') md,
              by simp only [if_true, intoChild, hcx, hr], ?_⟩
            rw [utf8_ascii hx, List.singleton_append, strLt_cons_same]
            exact hlt
          · have hlt : x < pick cs x 123 ∧ pick cs x 123 < 123 := by
              rcases hc with h | h
              · exact absurd h.symm hxi
              · omega
            obtain ⟨r, t', hr, _⟩ := ih ch [] (hchild hl) rfl rfl
            refine ⟨utf8 (pick cs x 123) ++ r, mk l (store cs (pick cs x 123) t') md,
              by simp only [if_neg hxi, intoChild, hl, hr], ?_⟩
            rw [utf8_ascii (by omega), List.singleton_append]
            exact strLt_cons_lt _ _ hlt.1

theorem contains_hasPath : ∀ (s : Str) (t : lexTree), contains t s = true → hasPath t s = true := by
  intro s
  induction s with
  | nil => intro t _; rfl
  | cons c s ih =>
    intro t h
    simp only [contains] at h
    simp only [hasPath]
    cases hl : lookup t.tree c with
    | none => simp [hl] at h
    | some n =>
      simp only [hl] at h ⊢
      exact ih n h

theorem findNewBetween_inside : ∀ (a : Str) (t : lexTree) (b : Str),
    isAscii a = true → isAscii b = true → hasPath t a = true → strLt a b = true →
    (∀ c rest, b = a ++ c :: rest → 48 ≤ c) →
    ∃ k t', findNewBetween t a b = some (k, t') ∧ strLt a k = true ∧ strLt k b = true := by
  intro a
  induction a with
  | nil =>
    intro t b _ hb _ hlt hfloor
    obtain ⟨l, cs, md⟩ := t
    cases b with
    | nil => simp [strLt] at hlt
    | cons c rest =>
      have hc48 : 48 ≤ c := hfloor c rest rfl
      have hc128 := (isAscii_cons hb).1
      rw [findNewBetween_unfold l cs md [] (c :: rest) [47] (c :: rest) rfl rfl]
      simp only [List.headD_cons, List.tail_cons, ite_self]
      rw [if_neg (by omega)]
      have hcand := pick_cand cs 47 c
      have hi : pick cs 47 c < c := by
        rcases hcand with h | h <;> omega
      cases hl : lookup cs (pick cs 47 c) with
      | none =>
        refine ⟨_, _, rfl, ?_, ?_⟩
        · simpa using strLt_nil_utf8_append (pick cs 47 c) []
        · rw [utf8_ascii (by omega)]
          exact strLt_cons_lt _ _ hi
      | some ch =>
        obtain ⟨r, t', hr, _⟩ := findNewBetween_above (sizeOf ch) ch [] (le_refl _) rfl rfl
        refine ⟨utf8 (pick cs 47 c) ++ r, mk l (store cs (pick cs 47 c) t') md,
          by simp only [intoChild, hl, hr], strLt_nil_utf8_append _ _, ?_⟩
        rw [utf8_ascii (by omega), List.singleton_append]
        exact strLt_cons_lt _ _ hi
  | cons x a' ih =>
    intro t b ha hb hp hlt hfloor
    obtain ⟨l, cs, md⟩ := t
    obtain ⟨hx, ha'⟩ := isAscii_cons ha
    obtain ⟨cx, hcx, hpx⟩ := hasPath_cons hp
    cases b with
    | nil => simp [strLt] at hlt
    | cons y b' =>
      obtain ⟨hy, hb'⟩ := isAscii_cons hb
      rw [findNewBetween_unfold l cs md (x :: a') (y :: b') (x :: a') (y :: b') rfl rfl]
      simp only [List.headD_cons, List.tail_cons]
      by_cases hxy : x = y
      · subst hxy
        rw [strLt_cons_same] at hlt
        obtain ⟨k, t', hk, h1, h2⟩ := ih cx b' ha' hb' hpx hlt (by
          intro c rest hbe
          exact hfloor c rest (by rw [hbe]; rfl))
        refine ⟨utf8 x ++ k, mk l (store cs x t') md,
          by simp only [if_true, intoChild, hcx, hk], ?_, ?_⟩
        · rw [utf8_ascii hx, List.singleton_append, strLt_cons_same]
          exact h1
        · rw [utf8_ascii hx, List.singleton_append, strLt_cons_same]
          exact h2
      · rw [if_neg hxy]
        have hxy' : x < y := by
          simp only [strLt] at hlt
          by_contra hge
          have : y < x := by omega
          simp [hge, this] at hlt
        have hcand := pick_cand cs x y
        have hi : x ≤ pick cs x y ∧ pick cs x y < y := by
          rcases hcand with h | h <;> omega
        cases hl : lookup cs (pick cs x y) with
        | none =>
          have hne : pick cs x y ≠ x := by
            intro he
            rw [he, hcx] at hl
            cases hl
          refine ⟨_, _, rfl, ?_, ?_⟩
          · rw [utf8_ascii (by omega)]
            exact strLt_cons_lt _ _ (by omega)
          · rw [utf8_ascii (by omega)]
            exact strLt_cons_lt _ _ hi.2
        | some ch =>
          by_cases hxi : x = pick cs x y
          · rw [← hxi] at hl ⊢
            rw [hcx] at hl
            cases hl
            obtain ⟨r, t', hr, hlt'⟩ := findNewBetween_above (sizeOf cx) cx a' (le_refl _) ha' hpx
            refine ⟨utf8 x ++ r, mk l (store cs x t') md,
              by simp only [if_true, intoChild, hcx, hr], ?_, ?_⟩
            · rw [utf8_ascii hx, List.singleton_append, strLt_cons_same]
              exact hlt'
            · rw [utf8_ascii hx, List.singleton_append]
              exact strLt_cons_lt _ _ hxy'
          · obtain ⟨r, t', hr, _⟩ := findNewBetween_above (sizeOf ch) ch [] (le_refl _) rfl rfl
            refine ⟨utf8 (pick cs x y) ++ r, mk l (store cs (pick cs x y) t') md,
              by simp only [if_neg hxi, intoChild, hl, hr], ?_, ?_⟩
            · rw [utf8_ascii (by omega), List.singleton_append]
              exact strLt_cons_lt _ _ (by omega)
            · rw [utf8_ascii (by omega), List.singleton_append]
              exact strLt_cons_lt _ _ hi.2

theorem lookup_store (cs : List (Nat × lexTree)) (c : Nat) (n : lexTree) (c' : Nat) :
    lookup (store cs c n) c' = if c' = c then some n else lookup cs c' := by
  induction cs with
  | nil =>
    by_cases h : c' = c
    · simp [store, lookup, h]
    · have h' : ¬ c = c' := fun e => h e.symm
      simp [store, lookup, h, h']
  | cons hd tl ih =>
    obtain ⟨d, m⟩ := hd
    by_cases hd : d = c
    · subst hd
      by_cases h : c' = d
      · simp [store, lookup, h]
      · have h' : ¬ d = c' := fun e => h e.symm
        simp [store, lookup, h, h']
    · by_cases h : c' = c
      · subst h
        simp [store, lookup, hd, ih]
      · by_cases h2 : d = c'
        · subst h2
          simp [store, lookup, hd]
        · simp [store, lookup, hd, h2, ih, h]

theorem add_tree (l : Bool) (cs : List (Nat × lexTree)) (md c : Nat) (s : Str) :
    (add (mk l cs md) (c :: s)).1.tree =
      store cs c (add ((lookup cs c).getD empty) s).1 := by
  simp [add, lexTree.tree]

theorem hasPath_add_mono : ∀ (s : Str) (t : lexTree) (x : Str),
    hasPath t x = true → hasPath (t.add s).1 x = true := by
  intro s
  induction s with
  | nil =>
    intro t x h
    obtain ⟨l, cs, md⟩ := t
    cases x with
    | nil => rfl
    | cons c x' => simpa [add, hasPath, lexTree.tree] using h
  | cons c s ih =>
    intro t x h
    obtain ⟨l, cs, md⟩ := t
    cases x with
    | nil => rfl
    | cons c' x' =>
      obtain ⟨ch, hch, hp⟩ := hasPath_cons h
      simp only [hasPath, add_tree, lookup_store]
      by_cases hc : c' = c
      · subst hc
        simp only [if_true, hch, Option.getD_some]
        exact ih ch x' hp
      · simp only [if_neg hc, hch]
        exact hp

theorem hasPath_Add_mono (s : Str) (t : lexTree) (x : Str) (h : hasPath t x = true) :
    hasPath (t.Add s) x = true := hasPath_add_mono s t x h

theorem hasPath_add_self : ∀ (s : Str) (t : lexTree), hasPath (t.add s).1 s = true := by
  intro s
  induction s with
  | nil => intro t; rfl
  | cons c s ih =>
    intro t
    obtain ⟨l, cs, md⟩ := t
    simp only [hasPath, add_tree, lookup_store, if_true]
    exact ih _

theorem hasPath_Add_self (s : Str) (t : lexTree) : hasPath (t.Add s) s = true :=
  hasPath_add_self s t

theorem isAscii_tail {s : Str} (h : isAscii s = true) : isAscii s.tail = true := by
  cases s with
  | nil => rfl
  | cons x s => exact (isAscii_cons h).2

theorem isAscii_headD {s : Str} {d : Nat} (h : isAscii s = true) (hd : d < 128) :
    s.headD d < 128 := by
  cases s with
  | nil => simpa using hd
  | cons x s => simpa using (isAscii_cons h).1

theorem isAscii_ite {s : Str} {d : Nat} (h : isAscii s = true) (hd : d < 128) :
    isAscii (if s = [] then [d] else s) = true := by
  split
  · simp [isAscii, hd]
  · exact h

theorem isAscii_cons_iff (x : Nat) (s : Str) :
    isAscii (x :: s) = true ↔ x < 128 ∧ isAscii s = true := by
  simp [isAscii]

/-- What a successful call of `findNewBetween` with ASCII brackets guarantees. -/
theorem findNewBetween_fresh (n : Nat) : ∀ (t : lexTree) (prev next key : Str) (t' : lexTree),
    sizeOf t ≤ n → isAscii prev = true → isAscii next = true →
    findNewBetween t prev next = some (key, t') →
    hasPath t key = false ∧ hasPath t' key = true ∧ isAscii key = true ∧ key ≠ [] ∧
      ∀ x, hasPath t x = true → hasPath t' x = true := by
  induction n with
  | zero =>
    intro t _ _ _ _ hs
    have := sizeOf_pos t
    omega
  | succ n ih =>
    intro t prev next key t' hs hprev hnext hres
    obtain ⟨l, cs, md⟩ := t
    have hchild : ∀ {c : Nat} {ch : lexTree}, lookup cs c = some ch → sizeOf ch ≤ n := by
      intro c ch hl
      have h1 := lookup_sizeOf hl
      simp at hs
      omega
    have hP := isAscii_ite hprev (show 47 < 128 by decide)
    have hN := isAscii_ite hnext (show 123 < 128 by decide)
    -- what a successful recursive call into the subtree of `c` gives
    have hinto : ∀ (c : Nat) (p q : Str), c < 128 → isAscii p = true → isAscii q = true →
        intoChild l cs md c p q = some (key, t') →
        hasPath (mk l cs md) key = false ∧ hasPath t' key = true ∧ isAscii key = true ∧
          key ≠ [] ∧ ∀ x, hasPath (mk l cs md) x = true → hasPath t' x = true := by
      intro c p q hc hp hq hi
      unfold intoChild at hi
      cases hl : lookup cs c with
      | none => simp [hl] at hi
      | some ch =>
        simp only [hl] at hi
        cases hf : findNewBetween ch p q with
        | none => simp [hf] at hi
        | some res =>
          obtain ⟨r, ch'⟩ := res
          simp only [hf, Option.some.injEq, Prod.mk.injEq] at hi
          obtain ⟨hk, ht⟩ := hi
          obtain ⟨h1, h2, h3, _, h5⟩ := ih ch p q r ch' (hchild hl) hp hq hf
          subst hk
          subst ht
          rw [utf8_ascii hc, List.singleton_append]
          refine ⟨?_, ?_, ?_, by simp, ?_⟩
          · simp only [hasPath, lexTree.tree, hl]
            exact h1
          · simp only [hasPath, lexTree.tree, lookup_store, if_true]
            exact h2
          · rw [isAscii_cons_iff]
            exact ⟨hc, h3⟩
          · intro x hx
            cases x with
            | nil => rfl
            | cons c' x' =>
              obtain ⟨cx, hcx, hpx⟩ := hasPath_cons hx
              simp only [hasPath, lexTree.tree, lookup_store]
              by_cases hcc : c' = c
              · subst hcc
                rw [hl] at hcx
                cases hcx
                simp only [if_true]
                exact h5 x' hpx
              · simp only [if_neg hcc, hcx]
                exact hpx
    generalize hPd : (if prev = [] then [47] else prev) = P at hP
    generalize hNd : (if next = [] then [123] else next) = N at hN
    rw [findNewBetween_unfold l cs md prev next P N hPd.symm hNd.symm] at hres
    have hp0 := isAscii_headD (d := 0) hP (by decide)
    have hn0 := isAscii_headD (d := 0) hN (by decide)
    by_cases hsame : P.headD 0 = N.headD 0
    · rw [if_pos hsame] at hres
      exact hinto _ _ _ hp0 (isAscii_tail hP) (isAscii_tail hN) hres
    · rw [if_neg hsame] at hres
      have hcand := pick_cand cs (P.headD 0) (N.headD 0)
      have hi : pick cs (P.headD 0) (N.headD 0) < 128 := by
        rcases hcand with h | h <;> omega
      generalize pick cs (P.headD 0) (N.headD 0) = i at hres hi
      cases hl : lookup cs i with
      | none =>
        rw [hl] at hres
        simp only [Option.some.injEq, Prod.mk.injEq] at hres
        obtain ⟨hk, ht⟩ := hres
        subst hk
        subst ht
        rw [utf8_ascii hi]
        refine ⟨?_, hasPath_Add_self _ _, by simp [isAscii, hi], by simp, ?_⟩
        · simp [hasPath, lexTree.tree, hl]
        · intro x hx
          exact hasPath_Add_mono _ _ _ hx
      | some ch =>
        rw [hl] at hres
        refine hinto _ _ _ hi ?_ (by rfl) hres
        split
        · exact isAscii_tail hP
        · rfl

/-! ## The byte order -/

theorem strLt_irrefl : ∀ a : Str, strLt a a = false := by
  intro a
  induction a with
  | nil => rfl
  | cons x a ih => rw [strLt_cons_same]; exact ih

theorem strLt_cons_cons (x y : Nat) (a b : Str) :
    strLt (x :: a) (y :: b) = if x < y then true else if y < x then false else strLt a b := by
  simp [strLt]

theorem strLt_trans : ∀ a b c : Str, strLt a b = true → strLt b c = true → strLt a c = true := by
  intro a
  induction a with
  | nil =>
    intro b c hab hbc
    cases c with
    | nil => cases b <;> simp [strLt] at hbc
    | cons z c => rfl
  | cons x a ih =>
    intro b c hab hbc
    cases b with
    | nil => simp [strLt] at hab
    | cons y b =>
      cases c with
      | nil => simp [strLt] at hbc
      | cons z c =>
        rw [strLt_cons_cons] at hab hbc ⊢
        by_cases hxy : x < y
        · by_cases hyz : y < z
          · simp [show x < z by omega]
          · by_cases hzy : z < y
            · simp [hyz, hzy] at hbc
            · have : y = z := by omega
              subst this
              simp [hxy]
        · by_cases hyx : y < x
          · simp [hxy, hyx] at hab
          · have hxy' : x = y := by omega
            subst hxy'
            simp only [hxy, if_false] at hab
            by_cases hxz : x < z
            · simp [hxz]
            · by_cases hzx : z < x
              · simp [hxz, hzx] at hbc
              · simp only [hxz, hzx, if_false] at hbc ⊢
                exact ih b c hab hbc

theorem strLt_asymm (a b : Str) (h : strLt a b = true) : strLt b a = false := by
  cases hba : strLt b a with
  | false => rfl
  | true =>
    have := strLt_trans a b a h hba
    rw [strLt_irrefl] at this
    cases this

theorem strLt_total : ∀ a b : Str, a ≠ b → strLt a b = false → strLt b a = true := by
  intro a
  induction a with
  | nil =>
    intro b hne h
    cases b with
    | nil => exact absurd rfl hne
    | cons y b => simp [strLt] at h
  | cons x a ih =>
    intro b hne h
    cases b with
    | nil => rfl
    | cons y b =>
      rw [strLt_cons_cons] at h ⊢
      by_cases hxy : x < y
      · simp [hxy] at h
      · by_cases hyx : y < x
        · simp [hyx]
        · have hxy' : x = y := by omega
          subst hxy'
          simp only [hxy, if_false] at h ⊢
          exact ih b (fun e => hne (by rw [e])) h

theorem strLt_append_left (p a b : Str) : strLt (p ++ a) (p ++ b) = strLt a b := by
  induction p with
  | nil => rfl
  | cons x p ih => rw [List.cons_append, List.cons_append, strLt_cons_same, ih]

/-! ## Sorting -/

theorem insertSorted_of_lt (k : Str) (xs : List Str) (h : ∀ x ∈ xs, strLt k x = true) :
    insertSorted k xs = k :: xs := by
  cases xs with
  | nil => rfl
  | cons x xs =>
    have := strLt_asymm k x (h x (List.mem_cons_self _ _))
    simp [insertSorted, this]

theorem sortStrings_of_ascending (ks : List Str) (h : Ascending ks) : sortStrings ks = ks := by
  induction ks with
  | nil => rfl
  | cons k ks ih =>
    unfold Ascending at h
    rw [List.pairwise_cons] at h
    simp only [sortStrings]
    rw [ih h.2]
    exact insertSorted_of_lt k ks h.1

theorem mem_insertSorted (k : Str) (xs : List Str) (y : Str) :
    y ∈ insertSorted k xs ↔ y = k ∨ y ∈ xs := by
  induction xs with
  | nil => simp [insertSorted]
  | cons x xs ih =>
    simp only [insertSorted]
    split
    · simp only [List.mem_cons, ih]
      tauto
    · simp only [List.mem_cons]

theorem mem_sortStrings (xs : List Str) (y : Str) : y ∈ sortStrings xs ↔ y ∈ xs := by
  induction xs with
  | nil => simp [sortStrings]
  | cons x xs ih =>
    simp only [sortStrings, mem_insertSorted, ih, List.mem_cons]

theorem length_insertSorted (k : Str) (xs : List Str) :
    (insertSorted k xs).length = xs.length + 1 := by
  induction xs with
  | nil => rfl
  | cons x xs ih =>
    simp only [insertSorted]
    split
    · simp [ih]
    · simp

theorem length_sortStrings (xs : List Str) : (sortStrings xs).length = xs.length := by
  induction xs with
  | nil => rfl
  | cons x xs ih => simp [sortStrings, length_insertSorted, ih]

/-! ## Maps -/

theorem mem_keys_set (m : GoMap) (k v y : Str) :
    y ∈ (m.set k v).map Prod.fst ↔ y = k ∨ y ∈ m.map Prod.fst := by
  induction m with
  | nil => simp [GoMap.set]
  | cons hd tl ih =>
    obtain ⟨k', v'⟩ := hd
    simp only [GoMap.set]
    by_cases h1 : k' = k
    · subst h1
      simp
    · simp only [if_neg h1]
      split
      · simp
      · simp only [List.map_cons, List.mem_cons, ih]
        tauto

theorem ascending_set (m : GoMap) (k v : Str) (h : Ascending (m.map Prod.fst)) :
    Ascending ((m.set k v).map Prod.fst) := by
  induction m with
  | nil => simp [GoMap.set, Ascending]
  | cons hd tl ih =>
    obtain ⟨k', v'⟩ := hd
    unfold Ascending at h ih ⊢
    simp only [List.map_cons, List.pairwise_cons] at h
    simp only [GoMap.set]
    by_cases h1 : k' = k
    · subst h1
      simp only [if_true, List.map_cons, List.pairwise_cons]
      exact h
    · simp only [if_neg h1]
      cases h2 : strLt k k' with
      | true =>
        simp only [if_true, List.map_cons, List.pairwise_cons]
        refine ⟨?_, h⟩
        intro y hy
        rcases List.mem_cons.mp hy with e | e
        · rw [e]; exact h2
        · exact strLt_trans _ _ _ h2 (h.1 y e)
      | false =>
        simp only [Bool.false_eq_true, if_false, List.map_cons, List.pairwise_cons]
        refine ⟨?_, ih h.2⟩
        intro y hy
        rcases (mem_keys_set tl k v y).mp hy with e | e
        · rw [e]
          exact strLt_total k k' (fun e => h1 e.symm) h2
        · exact h.1 y e

theorem ascending_textLoop (path : Str) (w : Nat) : ∀ (lines : List Str) (st : TextState) (i : Nat),
    Ascending (st.doc.map Prod.fst) →
    Ascending ((textLoop path w st i lines).doc.map Prod.fst) := by
  intro lines
  induction lines with
  | nil => intro st i h; exact h
  | cons line rest ih =>
    intro st i h
    simp only [textLoop]
    apply ih
    unfold textStep
    simp only []
    split
    · split
      · exact ascending_set _ _ _ h
      · exact ascending_set _ _ _ h
    · exact h

theorem ascending_TextToMap (text path : Str) : Ascending ((TextToMap text path).map Prod.fst) := by
  unfold TextToMap
  simp only []
  have h := ascending_textLoop path (itoa (split text [10]).length).length (split text [10])
    ⟨[], [], 0⟩ 0 (by simp [Ascending])
  split
  · exact ascending_set _ _ _ h
  · exact h

theorem startsWith_append (a r : Str) : startsWith (a ++ r) a = true := by
  induction a with
  | nil => cases r <;> rfl
  | cons x a ih => simp [startsWith, ih]

theorem floor_of_extendsBelowFloor {a b : Str} (h : extendsBelowFloor a b = false) :
    ∀ c rest, b = a ++ c :: rest → 48 ≤ c := by
  intro c rest hb
  subst hb
  unfold extendsBelowFloor at h
  rw [startsWith_append, List.drop_left] at h
  simp at h
  exact h

/-! ## Keys of `TextToMap` start with the path -/

theorem get_withPath (path : Str) (m : GoMap) (k : Str) :
    (m.withPath path).get (path ++ k) = m.get k := by
  induction m with
  | nil => rfl
  | cons hd tl ih =>
    obtain ⟨k', v'⟩ := hd
    simp only [GoMap.withPath, List.map_cons, GoMap.get, List.append_cancel_left_eq]
    split
    · rfl
    · exact ih

theorem set_withPath (path : Str) (m : GoMap) (k v : Str) :
    (m.withPath path).set (path ++ k) v = (m.set k v).withPath path := by
  induction m with
  | nil => rfl
  | cons hd tl ih =>
    obtain ⟨k', v'⟩ := hd
    simp only [GoMap.withPath, List.map_cons, GoMap.set, List.append_cancel_left_eq,
      strLt_append_left]
    split
    · rfl
    · split
      · rfl
      · simp only [List.map_cons, List.cons.injEq, true_and]
        exact ih

theorem lineKey_path (path : Str) (w n : Nat) : lineKey path w n = path ++ lineKey [] w n := rfl

theorem textStep_path (path : Str) (w : Nat) (st : TextState) (i : Nat) (line : Str) :
    textStep path w ⟨st.doc.withPath path, st.curLine, st.lastNewLine⟩ i line =
      ⟨(textStep [] w st i line).doc.withPath path, (textStep [] w st i line).curLine,
        (textStep [] w st i line).lastNewLine⟩ := by
  unfold textStep
  simp only [lineKey_path path, get_withPath, set_withPath]
  split
  · split <;> rfl
  · rfl

theorem textLoop_path (path : Str) (w : Nat) : ∀ (lines : List Str) (st : TextState) (i : Nat),
    textLoop path w ⟨st.doc.withPath path, st.curLine, st.lastNewLine⟩ i lines =
      ⟨(textLoop [] w st i lines).doc.withPath path, (textLoop [] w st i lines).curLine,
        (textLoop [] w st i lines).lastNewLine⟩ := by
  intro lines
  induction lines with
  | nil => intro st i; rfl
  | cons line rest ih =>
    intro st i
    simp only [textLoop]
    rw [textStep_path, ih]

theorem TextToMap_path (text path : Str) :
    TextToMap text path = (TextToMap text []).withPath path := by
  unfold TextToMap
  simp only []
  have h := textLoop_path path (itoa (split text [10]).length).length (split text [10])
    ⟨[], [], 0⟩ 0
  simp only [GoMap.withPath, List.map_nil] at h
  rw [h]
  simp only []
  split
  · rw [lineKey_path path]
    exact set_withPath path _ _ _
  · rfl

/-! ## At most one entry for each old key -/

theorem live_append (xs ys : List diffLine) : live (xs ++ ys) = live xs + live ys := by
  simp [live]

theorem live_single (l : diffLine) : live [l] ≤ 1 := by
  unfold live
  simp only [List.filter]
  split <;> simp

theorem length_set_le (m : GoMap) (k v : Str) : (m.set k v).length ≤ m.length + 1 := by
  induction m with
  | nil => simp [GoMap.set]
  | cons hd tl ih =>
    obtain ⟨k', v'⟩ := hd
    simp only [GoMap.set]
    split
    · simp
    · split
      · simp
      · simp only [List.length_cons]
        omega

theorem emitLoop_length : ∀ (lines : List diffLine) (lTree : lexTree) (usedKeys : List Str)
    (docNew : GoMap) (r : GoMap × List Str),
    emitLoop lTree usedKeys docNew lines = some r → r.1.length ≤ docNew.length + live lines := by
  intro lines
  induction lines with
  | nil =>
    intro lTree usedKeys docNew r h
    simp only [emitLoop, Option.some.injEq] at h
    subst h
    simp
  | cons l rest ih =>
    intro lTree usedKeys docNew r h
    have hcons : live (l :: rest) = live [l] + live rest := live_append [l] rest
    simp only [emitLoop] at h
    by_cases h1 : l.NewLine = []
    · simp only [h1, if_true] at h
      have := ih _ _ _ _ h
      omega
    · have hl : live [l] = 1 := by simp [live, h1]
      simp only [h1, if_false] at h
      by_cases h2 : l.Key = []
      · simp only [h2, if_true] at h
        by_cases h3 : l.PreviousKey = []
        · simp only [h3, if_true, Option.some.injEq] at h
          subst h
          simp
        · simp only [h3, if_false] at h
          cases hf : lTree.findNewBetween l.PreviousKey l.NextKey with
          | none => simp [hf] at h
          | some res =>
            obtain ⟨key, lTree1⟩ := res
            simp only [hf] at h
            have h4 := ih _ _ _ _ h
            have h5 := length_set_le docNew key l.NewLine
            omega
      · simp only [h2, if_false] at h
        have h4 := ih _ _ _ _ h
        have h5 := length_set_le docNew l.Key l.NewLine
        omega

theorem classify_live (dist : Str → Str → Nat) (i : Nat) (k p n oldText oldLine newLine : Str)
    (ls : List diffLine) (h : classify dist i k p n oldText oldLine newLine = some ls) :
    live ls ≤ 1 := by
  unfold classify at h
  simp only [] at h
  split_ifs at h <;> simp only [Option.some.injEq] at h <;> subst h
  · exact live_single _
  · exact live_single _
  · have h : live [(⟨k, p, n, oldText, []⟩ : diffLine), ⟨[], p, n, [], newLine⟩] =
        live [(⟨k, p, n, oldText, []⟩ : diffLine)] + live [(⟨[], p, n, [], newLine⟩ : diffLine)] :=
      live_append [_] [_]
    have h0 : live [(⟨k, p, n, oldText, []⟩ : diffLine)] = 0 := by simp [live]
    have h1 := live_single (⟨[], p, n, [], newLine⟩ : diffLine)
    omega

theorem walkStep_live (docPrevVersion : GoMap) (spans : List Diff) (dist : Str → Str → Nat)
    (i : Nat) (k previousKey nextKey : Str) (st : WalkState) :
    match walkStep docPrevVersion spans dist i k previousKey nextKey st with
    | Outcome.next st1 => live st1.lines ≤ live st.lines + 1
    | Outcome.stop st1 => st1.lines = st.lines
    | Outcome.panic => True := by
  unfold walkStep
  cases spans.get? st.diffI with
  | none => trivial
  | some d =>
    simp only []
    by_cases c1 : endsWith d.Text sep = true ∧ d.Op = Operation.DiffInsert
    · rw [if_pos c1]
      simp only [live_append]
      have := live_single (⟨[], previousKey, k, [], trimEnd d.Text sep⟩ : diffLine)
      omega
    · rw [if_neg c1]
      by_cases c2 : docPrevVersion.get k ++ sep = d.Text ∧ d.Op = Operation.DiffEqual
      · rw [if_pos c2]
        simp only [live_append]
        have := live_single
          (⟨k, previousKey, nextKey, docPrevVersion.get k, docPrevVersion.get k⟩ : diffLine)
        omega
      · rw [if_neg c2]
        by_cases c3 : docPrevVersion.get k ++ sep = d.Text ∧ d.Op = Operation.DiffDelete
        · rw [if_pos c3]
          simp only [live_append]
          have := live_single (⟨k, previousKey, nextKey, docPrevVersion.get k, []⟩ : diffLine)
          omega
        · rw [if_neg c3]
          unfold walkGeneral
          simp only []
          split_ifs
          · rfl
          · cases hc : classify dist i k previousKey nextKey (docPrevVersion.get k)
              (st.leftoverTextNs ++ docPrevVersion.get k)
              (trimEnd (accumulate (spans.drop st.diffI)
                ⟨st.leftoverDiffNs, [], st.leftoverTextNs ++ docPrevVersion.get k ++ sep, true,
                  st.diffI⟩).newLine sep) with
            | none => trivial
            | some ls =>
              simp only [live_append]
              have := classify_live dist i k previousKey nextKey _ _ _ ls hc
              omega

theorem walkLoop_live (docPrevVersion : GoMap) (spans : List Diff) (dist : Str → Str → Nat)
    (docPrevKeys : List Str) : ∀ (rest : List Str) (i : Nat) (st : WalkState)
    (lines : List diffLine),
    walkLoop docPrevVersion spans dist docPrevKeys i rest st = some lines →
    live lines ≤ live st.lines + rest.length := by
  intro rest
  induction rest with
  | nil =>
    intro i st lines h
    simp only [walkLoop, Option.some.injEq] at h
    subst h
    simp
  | cons k rest ih =>
    intro i st lines h
    simp only [walkLoop] at h
    have hs := walkStep_live docPrevVersion spans dist i k
      (if i > 0 then keyAt docPrevKeys (i - 1) else [])
      (if i < docPrevKeys.length - 1 then keyAt docPrevKeys (i + 1) else []) st
    cases hw : walkStep docPrevVersion spans dist i k
      (if i > 0 then keyAt docPrevKeys (i - 1) else [])
      (if i < docPrevKeys.length - 1 then keyAt docPrevKeys (i + 1) else []) st with
    | panic => simp [hw] at h
    | stop st1 =>
      simp only [hw, Option.some.injEq] at h hs
      subst h
      rw [hs]
      omega
    | next st1 =>
      simp only [hw] at h hs
      have := ih _ _ _ h
      simp only [List.length_cons]
      omega

theorem walkLoop_next (docPrevVersion : GoMap) (spans : List Diff) (dist : Str → Str → Nat)
    (docPrevKeys : List Str) (i : Nat) (k : Str) (rest : List Str) (st st1 : WalkState)
    (h : walkStep docPrevVersion spans dist i k
      (if i > 0 then keyAt docPrevKeys (i - 1) else [])
      (if i < docPrevKeys.length - 1 then keyAt docPrevKeys (i + 1) else []) st =
        Outcome.next st1) :
    walkLoop docPrevVersion spans dist docPrevKeys i (k :: rest) st =
      walkLoop docPrevVersion spans dist docPrevKeys (i + 1) rest st1 := by
  simp only [walkLoop, h]

theorem walkLoop_stop (docPrevVersion : GoMap) (spans : List Diff) (dist : Str → Str → Nat)
    (docPrevKeys : List Str) (i : Nat) (k : Str) (rest : List Str) (st st1 : WalkState)
    (h : walkStep docPrevVersion spans dist i k
      (if i > 0 then keyAt docPrevKeys (i - 1) else [])
      (if i < docPrevKeys.length - 1 then keyAt docPrevKeys (i + 1) else []) st =
        Outcome.stop st1) :
    walkLoop docPrevVersion spans dist docPrevKeys i (k :: rest) st = some st1.lines := by
  simp only [walkLoop, h]

/-- The general case from the walk on: with a script that normalises to `spans` and a
walk that returns `lines`, the result is what the last loop makes of `lines`. -/
theorem run_of_walk (bisect : Str → Str → List Diff) (dist : Str → Str → Nat)
    (newText path : Str) (prev : GoMap) (usedKeys : List Str) (spans : List Diff)
    (lines : List diffLine) (hgen : ¬ (prev.length = 0 ∧ usedKeys.length = 0))
    (hb : bisectPanics (MapToText prev) newText = false)
    (hn : normalize (bisect (MapToText prev) newText) = some spans)
    (hw : walk prev spans dist = some lines) :
    WithPreservedKeysAndOrder bisect dist newText path (some prev) usedKeys =
      emit lines usedKeys := by
  simp only [WithPreservedKeysAndOrder, if_neg hgen, hb, hn, hw, Bool.false_eq_true, if_false]

/-- In the general case the returned snapshot has at most as many entries as the old
one: every old key gives at most one line with a non-empty new text. -/
theorem general_case_size (bisect : Str → Str → List Diff) (dist : Str → Str → Nat)
    (newText path : Str) (prev : GoMap) (usedKeys : List Str) (d : Doc)
    (hgen : ¬ (prev.length = 0 ∧ usedKeys.length = 0))
    (h : WithPreservedKeysAndOrder bisect dist newText path (some prev) usedKeys = some d) :
    d.Doc.length ≤ prev.length := by
  simp only [WithPreservedKeysAndOrder, if_neg hgen] at h
  split_ifs at h
  cases hn : normalize (bisect (MapToText prev) newText) with
  | none => simp [hn] at h
  | some spans =>
    simp only [hn] at h
    cases hw : walk prev spans dist with
    | none => simp [hw] at h
    | some lines =>
      simp only [hw, emit, Option.map_eq_some'] at h
      obtain ⟨r, hr, hd⟩ := h
      subst hd
      have h1 := emitLoop_length _ _ _ _ _ hr
      have h2 := walkLoop_live prev spans dist (getKeys prev) (getKeys prev) 0 ⟨0, [], [], []⟩
        lines hw
      have h3 : (getKeys prev).length = prev.length := by
        simp [getKeys, length_sortStrings]
      have h4 : live ([] : List diffLine) = 0 := rfl
      simp only [List.length_nil] at h1
      simp only [h4, h3] at h2
      show r.1.length ≤ prev.length
      omega

/-! ## What the last loop leaves alone -/

theorem get_set (m : GoMap) (k v x : Str) :
    (m.set k v).get x = if x = k then v else m.get x := by
  induction m with
  | nil =>
    by_cases h : x = k
    · simp [GoMap.set, GoMap.get, h]
    · have h' : ¬ k = x := fun e => h e.symm
      simp [GoMap.set, GoMap.get, h, h']
  | cons hd tl ih =>
    obtain ⟨k', v'⟩ := hd
    simp only [GoMap.set]
    by_cases h1 : k' = k
    · subst h1
      by_cases h : x = k'
      · simp [GoMap.get, h]
      · have h' : ¬ k' = x := fun e => h e.symm
        simp [GoMap.get, h, h']
    · simp only [if_neg h1]
      by_cases h : x = k
      · subst h
        split
        · simp [GoMap.get]
        · simp [GoMap.get, h1, ih]
      · have h' : ¬ k = x := fun e => h e.symm
        split
        · simp [GoMap.get, h, h']
        · simp [GoMap.get, ih, h]

theorem has_set (m : GoMap) (k v x : Str) :
    (m.set k v).has x = (decide (x = k) || m.has x) := by
  induction m with
  | nil =>
    by_cases h : x = k
    · simp [GoMap.set, GoMap.has, h]
    · have h' : ¬ k = x := fun e => h e.symm
      simp [GoMap.set, GoMap.has, h, h']
  | cons hd tl ih =>
    obtain ⟨k', v'⟩ := hd
    simp only [GoMap.set]
    by_cases h1 : k' = k
    · subst h1
      by_cases h : x = k'
      · simp [GoMap.has, h]
      · have h' : ¬ k' = x := fun e => h e.symm
        simp [GoMap.has, h, h']
    · simp only [if_neg h1]
      by_cases h : x = k
      · subst h
        split
        · simp [GoMap.has]
        · simp [GoMap.has, h1, ih]
      · have h' : ¬ k = x := fun e => h e.symm
        split
        · simp [GoMap.has, h, h']
        · simp [GoMap.has, ih, h]

/-- A key `x` with a path in the trie that the remaining lines name only with an empty
new text keeps its entry (or stays absent) through the last loop, when the brackets of
the pending insertions are ASCII. -/
theorem emitLoop_untouched (x : Str) : ∀ (rest : List diffLine) (lTree : lexTree)
    (usedKeys : List Str) (docNew : GoMap) (r : GoMap × List Str),
    hasPath lTree x = true → (∀ l ∈ rest, l.Key = x → l.NewLine = []) → asciiBrackets rest →
    emitLoop lTree usedKeys docNew rest = some r →
    r.1.get x = docNew.get x ∧ r.1.has x = docNew.has x := by
  intro rest
  induction rest with
  | nil =>
    intro lTree usedKeys docNew r _ _ _ h
    simp only [emitLoop, Option.some.injEq] at h
    subst h
    exact ⟨rfl, rfl⟩
  | cons l rest ih =>
    intro lTree usedKeys docNew r hx hk ha h
    have hk' : ∀ l' ∈ rest, l'.Key = x → l'.NewLine = [] :=
      fun l' hl' => hk l' (List.mem_cons_of_mem _ hl')
    have ha' : asciiBrackets rest := fun l' hl' => ha l' (List.mem_cons_of_mem _ hl')
    simp only [emitLoop] at h
    by_cases h1 : l.NewLine = []
    · simp only [h1, if_true] at h
      exact ih _ _ _ _ hx hk' ha' h
    · simp only [h1, if_false] at h
      by_cases h2 : l.Key = []
      · simp only [h2, if_true] at h
        by_cases h3 : l.PreviousKey = []
        · simp only [h3, if_true, Option.some.injEq] at h
          subst h
          exact ⟨rfl, rfl⟩
        · simp only [h3, if_false] at h
          cases hf : lTree.findNewBetween l.PreviousKey l.NextKey with
          | none => simp [hf] at h
          | some res =>
            obtain ⟨key, lTree1⟩ := res
            simp only [hf] at h
            obtain ⟨hb1, hb2⟩ := ha l (List.mem_cons_self _ _) h2
            obtain ⟨f1, _, _, _, f5⟩ :=
              findNewBetween_fresh (sizeOf lTree) lTree _ _ key lTree1 (le_refl _) hb1 hb2 hf
            have hne : x ≠ key := by
              intro e
              rw [e, f1] at hx
              cases hx
            obtain ⟨g1, g2⟩ := ih _ _ _ _ (hasPath_Add_mono key lTree1 x (f5 x hx)) hk' ha' h
            rw [g1, g2, get_set, has_set]
            simp [hne]
      · simp only [h2, if_false] at h
        have hne : x ≠ l.Key := fun e => h1 (hk l (List.mem_cons_self _ _) e.symm)
        obtain ⟨g1, g2⟩ := ih _ _ _ _ hx hk' ha' h
        rw [g1, g2, get_set, has_set]
        simp [hne]

theorem runeCount_nil : runeCount [] = 0 := rfl

theorem classify_zero (dist : Str → Str → Nat) (k p n oldText oldLine newLine : Str)
    (hb : bisectPanics oldLine newLine = false) :
    classify dist 0 k p n oldText oldLine newLine =
      some [⟨k, p, n, oldText,
        if trimSpace (replaceAll oldText [10, 13] [10]) = trimSpace newLine then oldText
        else newLine⟩] := by
  simp [classify, hb]

/-- A replaced paragraph from end to end: old snapshot `{A: "Foo", B: "Bar"}`, new text
`"Foo\n\nQux\n\n"`, script `[Equal "Foo\n\n", Delete "Bar", Insert "Qux",
Equal "\n\n"]`, distance 3: `B` leaves the snapshot and stays retained, `"Qux"` gets
the new key `z`. -/
theorem large_edit_example :
    WithPreservedKeysAndOrder
        (fun _ _ => [⟨DiffEqual, bytes "Foo\n\n"⟩, ⟨DiffDelete, bytes "Bar"⟩,
          ⟨DiffInsert, bytes "Qux"⟩, ⟨DiffEqual, bytes "\n\n"⟩])
        (fun _ _ => 3) (bytes "Foo\n\nQux\n\n") (bytes "p")
        (some [(bytes "A", bytes "Foo"), (bytes "B", bytes "Bar")]) [bytes "A", bytes "B"] =
      some ⟨[(bytes "A", bytes "Foo"), (bytes "z", bytes "Qux")],
        [bytes "A", bytes "B", bytes "z"]⟩ := by
  set_option maxRecDepth 100000 in
  decide

/-! ## Keys of the lines in the trie and in the retained keys -/

theorem mem_lineKeys (lines : List diffLine) (k : Str) :
    k ∈ lineKeys lines ↔ k ≠ [] ∧ ∃ l ∈ lines, l.Key = k := by
  induction lines with
  | nil => simp [lineKeys]
  | cons l rest ih =>
    simp only [lineKeys]
    constructor
    · intro h
      split at h
      · rename_i hc
        rcases List.mem_cons.mp h with e | e
        · exact ⟨by rw [e]; exact hc.1, l, List.mem_cons_self _ _, e.symm⟩
        · obtain ⟨h1, l', hl', he⟩ := ih.mp e
          exact ⟨h1, l', List.mem_cons_of_mem _ hl', he⟩
      · obtain ⟨h1, l', hl', he⟩ := ih.mp h
        exact ⟨h1, l', List.mem_cons_of_mem _ hl', he⟩
    · rintro ⟨h1, l', hl', he⟩
      have hrest : (∃ l ∈ rest, l.Key = k) → k ∈ lineKeys rest := fun h => ih.mpr ⟨h1, h⟩
      split
      · rename_i hc
        rcases List.mem_cons.mp hl' with e | e
        · subst e
          rw [he]
          exact List.mem_cons_self _ _
        · exact List.mem_cons_of_mem _ (hrest ⟨l', e, he⟩)
      · rename_i hc
        rcases List.mem_cons.mp hl' with e | e
        · subst e
          by_contra hn
          apply hc
          rw [he]
          exact ⟨h1, hn⟩
        · exact hrest ⟨l', e, he⟩

theorem hasPath_foldl_Add (ks : List Str) : ∀ (t : lexTree) (x : Str),
    (hasPath t x = true ∨ x ∈ ks) → hasPath (ks.foldl lexTree.Add t) x = true := by
  induction ks with
  | nil =>
    intro t x h
    rcases h with h | h
    · exact h
    · cases h
  | cons k ks ih =>
    intro t x h
    simp only [List.foldl_cons]
    apply ih
    rcases h with h | h
    · exact Or.inl (hasPath_Add_mono k t x h)
    · rcases List.mem_cons.mp h with e | e
      · exact Or.inl (by rw [e]; exact hasPath_Add_self k t)
      · exact Or.inr e

theorem hasPath_foldl_lines (lines : List diffLine) : ∀ (t : lexTree) (x : Str),
    (hasPath t x = true ∨ (x ≠ [] ∧ ∃ l ∈ lines, l.Key = x)) →
    hasPath (lines.foldl (fun t l => if l.Key ≠ [] then t.Add l.Key else t) t) x = true := by
  induction lines with
  | nil =>
    intro t x h
    rcases h with h | ⟨_, l, hl, _⟩
    · exact h
    · cases hl
  | cons l rest ih =>
    intro t x h
    simp only [List.foldl_cons]
    apply ih
    rcases h with h | ⟨h1, l', hl', he⟩
    · left
      split
      · exact hasPath_Add_mono _ t x h
      · exact h
    · rcases List.mem_cons.mp hl' with e | e
      · subst e
        left
        rw [if_pos (by rw [he]; exact h1), he]
        exact hasPath_Add_self x t
      · exact Or.inr ⟨h1, l', e, he⟩

/-- Every key of a line and every old retained key has a path in the seeded trie. -/
theorem hasPath_seedTree (lines : List diffLine) (usedKeys : List Str) (x : Str)
    (h : (x ≠ [] ∧ ∃ l ∈ lines, l.Key = x) ∨ x ∈ usedKeys) :
    hasPath (seedTree lines usedKeys) x = true := by
  unfold seedTree
  apply hasPath_foldl_Add
  rcases h with h | h
  · exact Or.inl (hasPath_foldl_lines lines _ x (Or.inr h))
  · exact Or.inr h

theorem emitLoop_usedKeys : ∀ (lines : List diffLine) (lTree : lexTree) (usedKeys : List Str)
    (docNew : GoMap) (r : GoMap × List Str),
    emitLoop lTree usedKeys docNew lines = some r → ∀ x ∈ usedKeys, x ∈ r.2 := by
  intro lines
  induction lines with
  | nil =>
    intro lTree usedKeys docNew r h x hx
    simp only [emitLoop, Option.some.injEq] at h
    subst h
    exact hx
  | cons l rest ih =>
    intro lTree usedKeys docNew r h x hx
    simp only [emitLoop] at h
    split_ifs at h with h1 h2 h3
    · exact ih _ _ _ _ h x hx
    · simp only [Option.some.injEq] at h
      subst h
      exact hx
    · cases hf : lTree.findNewBetween l.PreviousKey l.NextKey with
      | none => simp [hf] at h
      | some res =>
        obtain ⟨key, lTree1⟩ := res
        simp only [hf] at h
        exact ih _ _ _ _ h x (List.mem_append_left _ hx)
    · exact ih _ _ _ _ h x hx

/-- Deletion at the last loop, for ASCII brackets: a non-empty key that the lines name,
and name only with an empty new text, is absent from the returned snapshot and is one
of the returned retained keys. -/
theorem emit_deleted_key (lines : List diffLine) (usedKeys : List Str) (k : Str) (d : Doc)
    (hk : k ≠ []) (hin : ∃ l ∈ lines, l.Key = k)
    (hdel : ∀ l ∈ lines, l.Key = k → l.NewLine = []) (ha : asciiBrackets lines)
    (h : emit lines usedKeys = some d) :
    d.Doc.has k = false ∧ k ∈ d.UsedKeys := by
  simp only [emit, Option.map_eq_some'] at h
  obtain ⟨r, hr, hd⟩ := h
  subst hd
  constructor
  · have := (emitLoop_untouched k lines _ _ _ r
      (hasPath_seedTree lines usedKeys k (Or.inl ⟨hk, hin⟩)) hdel ha hr).2
    rw [this]
    rfl
  · show k ∈ sortStrings r.2
    rw [mem_sortStrings]
    exact emitLoop_usedKeys _ _ _ _ _ hr k ((mem_lineKeys lines k).mpr ⟨hk, hin⟩)

/-! ## Small facts for the examples -/

theorem MapToText_single (k v : Str) : MapToText [(k, v)] = v ++ [10, 10] := by
  simp [MapToText, getKeys, sortStrings, insertSorted, GoMap.get]

theorem walk_live (prev : GoMap) (spans : List Diff) (dist : Str → Str → Nat)
    (lines : List diffLine) (h : walk prev spans dist = some lines) :
    live lines ≤ prev.length := by
  have h2 := walkLoop_live prev spans dist (getKeys prev) (getKeys prev) 0 ⟨0, [], [], []⟩
    lines h
  have h3 : (getKeys prev).length = prev.length := by
    simp [getKeys, length_sortStrings]
  have h4 : live ([] : List diffLine) = 0 := rfl
  simp only [h4, h3] at h2
  omega

/-! ## The walk at an inconsistency and at an insertion -/

theorem walkStep_stop (docPrevVersion : GoMap) (spans : List Diff) (dist : Str → Str → Nat)
    (i : Nat) (k previousKey nextKey : Str) (st : WalkState) (d : Diff)
    (hd : spans.get? st.diffI = some d)
    (hins : ¬ (endsWith d.Text sep = true ∧ d.Op = DiffInsert))
    (htext : docPrevVersion.get k ++ sep ≠ d.Text)
    (hbad : (walkAcc docPrevVersion spans k st).correctLine = false ∨
      trimSpace (walkAcc docPrevVersion spans k st).oldLineRight ≠ [] ∨
      trimSpace (trimEnd (walkAcc docPrevVersion spans k st).newLine sep) ≠
        trimSpace (walkAcc docPrevVersion spans k st).oldLineLeft) :
    ∃ st1, walkStep docPrevVersion spans dist i k previousKey nextKey st = Outcome.stop st1 ∧
      st1.lines = st.lines := by
  unfold walkStep
  simp only [hd]
  rw [if_neg hins, if_neg (fun h => htext h.1), if_neg (fun h => htext h.1)]
  unfold walkGeneral
  simp only []
  unfold walkAcc at hbad
  rw [if_pos hbad]
  exact ⟨_, rfl, rfl⟩

theorem walkStep_insert (docPrevVersion : GoMap) (spans : List Diff) (dist : Str → Str → Nat)
    (i : Nat) (k previousKey nextKey : Str) (st : WalkState) (d : Diff)
    (hd : spans.get? st.diffI = some d)
    (hins : endsWith d.Text sep = true ∧ d.Op = DiffInsert) :
    walkStep docPrevVersion spans dist i k previousKey nextKey st =
      Outcome.next ⟨st.diffI + 1, st.lines ++ [⟨[], previousKey, k, [], trimEnd d.Text sep⟩],
        st.leftoverDiffNs, st.leftoverTextNs⟩ := by
  unfold walkStep
  simp only [hd]
  rw [if_pos hins]

/-! ## The recorded heights -/

theorem localHeight_lookup {cs : List (Nat × lexTree)} {c : Nat} {n : lexTree}
    (h : lookup cs c = some n) : n.maxDepth + 1 ≤ localHeight cs := by
  induction cs with
  | nil => simp [lookup] at h
  | cons hd tl ih =>
    obtain ⟨c', m⟩ := hd
    simp only [lookup] at h
    simp only [localHeight]
    split at h
    · simp only [Option.some.injEq] at h
      subst h
      exact le_max_left _ _
    · exact le_trans (ih h) (le_max_right _ _)

theorem localHeight_store (cs : List (Nat × lexTree)) (c : Nat) (n' : lexTree)
    (h : ∀ n, lookup cs c = some n → n.maxDepth ≤ n'.maxDepth) :
    localHeight (store cs c n') = max (localHeight cs) (n'.maxDepth + 1) := by
  induction cs with
  | nil => simp [store, localHeight]
  | cons hd tl ih =>
    obtain ⟨c', m⟩ := hd
    simp only [store]
    by_cases hc : c' = c
    · have hm := h m (by simp [lookup, hc])
      simp only [hc, if_true, localHeight]
      omega
    · have ih' := ih (fun n hn => h n (by simpa [lookup, hc] using hn))
      simp only [hc, if_false, localHeight, ih']
      omega

theorem nodeAt_cons (l : Bool) (cs : List (Nat × lexTree)) (md c : Nat) (x : Str) :
    nodeAt (mk l cs md) (c :: x) =
      match lookup cs c with
      | none => none
      | some n => nodeAt n x := rfl

theorem heightsRecorded_empty : heightsRecorded empty := by
  intro x n h
  cases x with
  | nil =>
    simp only [nodeAt, Option.some.injEq] at h
    subst h
    rfl
  | cons c x => simp [nodeAt, empty, lexTree.tree, lookup] at h

theorem heightsRecorded_child {l : Bool} {cs : List (Nat × lexTree)} {md c : Nat}
    {n : lexTree} (h : heightsRecorded (mk l cs md)) (hl : lookup cs c = some n) :
    heightsRecorded n := by
  intro x m hm
  apply h (c :: x) m
  rw [nodeAt_cons, hl]
  exact hm

/-- What `add` does to the recorded heights. -/
theorem add_heights : ∀ (s : Str) (t : lexTree), heightsRecorded t →
    heightsRecorded (t.add s).1 ∧ (t.add s).1.maxDepth = max t.maxDepth s.length ∧
      (t.add s).2 = if s = [] then 0 else (t.add s).1.maxDepth := by
  intro s
  induction s with
  | nil =>
    intro t ht
    obtain ⟨l, cs, md⟩ := t
    refine ⟨?_, by simp [add, lexTree.maxDepth], by simp [add]⟩
    intro x n hn
    cases x with
    | nil =>
      simp only [add, nodeAt, Option.some.injEq] at hn
      subst hn
      exact ht [] (mk l cs md) rfl
    | cons c x => exact ht (c :: x) n hn
  | cons c s ih =>
    intro t ht
    obtain ⟨l, cs, md⟩ := t
    have hmd : md = localHeight cs := ht [] (mk l cs md) rfl
    -- the subtree the recursion goes into
    have hn : heightsRecorded ((lookup cs c).getD empty) := by
      cases hl : lookup cs c with
      | none => exact heightsRecorded_empty
      | some n => exact heightsRecorded_child ht hl
    have hbound : ((lookup cs c).getD empty).maxDepth + 1 ≤ max md 1 := by
      cases hl : lookup cs c with
      | none => simp [empty, lexTree.maxDepth]
      | some n =>
        have := localHeight_lookup hl
        simp only [Option.getD_some]
        omega
    obtain ⟨i1, i2, i3⟩ := ih _ hn
    have hle : ∀ n, lookup cs c = some n →
        n.maxDepth ≤ (add ((lookup cs c).getD empty) s).1.maxDepth := by
      intro n hl
      rw [i2, hl]
      simp
    have hret : (add ((lookup cs c).getD empty) s).2 + 1 ≤
          max md ((add ((lookup cs c).getD empty) s).1.maxDepth + 1) ∧
        max md ((add ((lookup cs c).getD empty) s).2 + 1) =
          max md ((add ((lookup cs c).getD empty) s).1.maxDepth + 1) := by
      rw [i3]
      by_cases hs : s = []
      · subst hs
        rw [if_pos rfl]
        simp only [List.length_nil] at i2
        constructor <;> omega
      · rw [if_neg hs]
        exact ⟨le_max_right _ _, rfl⟩
    have hmax : (add (mk l cs md) (c :: s)).1.maxDepth =
        max md ((add ((lookup cs c).getD empty) s).1.maxDepth + 1) := by
      simp only [add, lexTree.maxDepth]
      exact hret.2
    refine ⟨?_, ?_, ?_⟩
    · intro x n hx
      cases x with
      | nil =>
        simp only [nodeAt, Option.some.injEq] at hx
        subst hx
        rw [hmax, add_tree, localHeight_store _ _ _ hle, hmd]
      | cons c' x =>
        simp only [nodeAt, add_tree, lookup_store] at hx
        by_cases hc : c' = c
        · simp only [hc, if_true] at hx
          exact i1 x n hx
        · simp only [hc, if_false] at hx
          exact ht (c' :: x) n hx
    · rw [hmax, i2]
      show max md (max ((lookup cs c).getD empty).maxDepth s.length + 1) =
        max md (s.length + 1)
      omega
    · simp only [add, List.cons_ne_nil, if_false, lexTree.maxDepth]

theorem contains_empty (x : Str) : contains empty x = false := by
  cases x <;> simp [contains, empty, lexTree.isLeaf, lexTree.tree, lookup]

theorem contains_add : ∀ (s : Str) (t : lexTree) (x : Str),
    contains (t.add s).1 x = (decide (x = s) || contains t x) := by
  intro s
  induction s with
  | nil =>
    intro t x
    obtain ⟨l, cs, md⟩ := t
    cases x with
    | nil => simp [add, contains, lexTree.isLeaf]
    | cons c x => simp [add, contains, lexTree.tree]
  | cons c s ih =>
    intro t x
    obtain ⟨l, cs, md⟩ := t
    cases x with
    | nil => simp [add, contains, lexTree.isLeaf]
    | cons c' x =>
      simp only [contains, add_tree, lookup_store]
      simp only [lexTree.tree]
      by_cases hc : c' = c
      · subst hc
        simp only [if_true, ih]
        cases hl : lookup cs c' with
        | none => simp [contains_empty]
        | some n => simp
      · simp [hc]

theorem contains_nodeAt : ∀ (x : Str) (t : lexTree),
    contains t x = match nodeAt t x with
      | some n => n.isLeaf
      | none => false := by
  intro x
  induction x with
  | nil => intro t; rfl
  | cons c x ih =>
    intro t
    simp only [contains, nodeAt]
    cases lookup t.tree c with
    | none => rfl
    | some n => exact ih n

theorem foldl_Add_facts (ks : List Str) : ∀ t : lexTree, heightsRecorded t →
    heightsRecorded (ks.foldl lexTree.Add t) ∧
      (ks.foldl lexTree.Add t).maxDepth = ks.foldl (fun m k => max m k.length) t.maxDepth ∧
      ∀ x, contains (ks.foldl lexTree.Add t) x = (decide (x ∈ ks) || contains t x) := by
  induction ks with
  | nil => intro t ht; exact ⟨ht, rfl, by simp⟩
  | cons k ks ih =>
    intro t ht
    obtain ⟨a1, a2, _⟩ := add_heights k t ht
    obtain ⟨b1, b2, b3⟩ := ih (t.Add k) a1
    simp only [List.foldl_cons]
    refine ⟨b1, ?_, ?_⟩
    · rw [b2]
      congr 1
    · intro x
      rw [b3 x]
      show (decide (x ∈ ks) || contains (t.add k).1 x) = _
      rw [contains_add]
      by_cases h1 : x = k <;> by_cases h2 : x ∈ ks <;> simp [h1, h2]

/-! ## Decimal digits -/

theorem digitsRev_facts : ∀ (fuel n : Nat), n < fuel →
    leVal (digitsRev fuel n) = n ∧ isDigits (digitsRev fuel n) ∧
      1 ≤ (digitsRev fuel n).length ∧ n < 10 ^ (digitsRev fuel n).length ∧
      (n ≠ 0 → 10 ^ ((digitsRev fuel n).length - 1) ≤ n) := by
  intro fuel
  induction fuel with
  | zero => intro n h; omega
  | succ fuel ih =>
    intro n hn
    simp only [digitsRev]
    by_cases h0 : n / 10 = 0
    · have hlt : n < 10 := by omega
      simp only [h0, if_true, leVal, List.length_singleton]
      refine ⟨by omega, ?_, le_refl _, by omega, ?_⟩
      · intro d hd
        simp only [List.mem_singleton] at hd
        omega
      · intro hne
        simp
        omega
    · obtain ⟨a1, a2, a3, a4, a5⟩ := ih (n / 10) (by omega)
      simp only [h0, if_false, leVal, List.length_cons]
      refine ⟨by rw [a1]; omega, ?_, by omega, ?_, ?_⟩
      · intro d hd
        rcases List.mem_cons.mp hd with e | e
        · omega
        · exact a2 d e
      · rw [Nat.pow_succ]
        omega
      · intro _
        have h5 := a5 h0
        have hL : (digitsRev fuel (n / 10)).length =
            ((digitsRev fuel (n / 10)).length - 1) + 1 := by omega
        simp only [Nat.add_sub_cancel]
        rw [hL, Nat.pow_succ]
        omega

theorem leVal_append (s t : Str) : leVal (s ++ t) = leVal s + 10 ^ s.length * leVal t := by
  induction s with
  | nil => simp [leVal]
  | cons d s ih =>
    show (d - 48) + 10 * leVal (s ++ t) =
      ((d - 48) + 10 * leVal s) + 10 ^ (s.length + 1) * leVal t
    rw [ih, Nat.pow_succ]
    ring

theorem leVal_replicate (k : Nat) : leVal (List.replicate k 48) = 0 := by
  induction k with
  | zero => rfl
  | succ k ih => simp [List.replicate, leVal, ih]

theorem leVal_lt (s : Str) (h : isDigits s) : leVal s < 10 ^ s.length := by
  induction s with
  | nil => simp [leVal]
  | cons d s ih =>
    have hd := h d (List.mem_cons_self _ _)
    have := ih (fun x hx => h x (List.mem_cons_of_mem _ hx))
    simp only [leVal, List.length_cons, Nat.pow_succ]
    omega

theorem decVal_cons (d : Nat) (s : Str) :
    decVal (d :: s) = (d - 48) * 10 ^ s.length + decVal s := by
  simp only [decVal, List.reverse_cons, leVal_append, leVal, List.length_reverse]
  ring

theorem decVal_lt (s : Str) (h : isDigits s) : decVal s < 10 ^ s.length := by
  have := leVal_lt s.reverse (fun d hd => h d (List.mem_reverse.mp hd))
  simpa [decVal] using this

/-- Strings of digits of one length are ordered as the numbers they write. -/
theorem strLt_of_decVal_lt : ∀ (a b : Str), a.length = b.length → isDigits a → isDigits b →
    decVal a < decVal b → strLt a b = true := by
  intro a
  induction a with
  | nil =>
    intro b hl _ _ hv
    cases b with
    | nil => simp [decVal, leVal] at hv
    | cons y b => simp at hl
  | cons x a ih =>
    intro b hl ha hb hv
    cases b with
    | nil => simp at hl
    | cons y b =>
      have hl' : a.length = b.length := by simpa using hl
      have hx := ha x (List.mem_cons_self _ _)
      have hy := hb y (List.mem_cons_self _ _)
      have ha' : isDigits a := fun d hd => ha d (List.mem_cons_of_mem _ hd)
      have hb' : isDigits b := fun d hd => hb d (List.mem_cons_of_mem _ hd)
      have hva := decVal_lt a ha'
      have hvb := decVal_lt b hb'
      rw [decVal_cons, decVal_cons, hl'] at hv
      rw [hl'] at hva
      rw [strLt_cons_cons]
      by_cases hxy : x < y
      · simp [hxy]
      · by_cases hyx : y < x
        · exfalso
          have h1 : (y - 48) + 1 ≤ x - 48 := by omega
          have h2 : ((y - 48) + 1) * 10 ^ b.length ≤ (x - 48) * 10 ^ b.length :=
            Nat.mul_le_mul_right _ h1
          rw [Nat.add_mul, Nat.one_mul] at h2
          omega
        · have hxy' : x = y := by omega
          subst hxy'
          simp only [hxy, if_false]
          exact ih b hl' ha' hb' (by omega)

theorem itoa_facts (n : Nat) :
    decVal (itoa n) = n ∧ isDigits (itoa n) ∧ 1 ≤ (itoa n).length ∧
      n < 10 ^ (itoa n).length ∧ (n ≠ 0 → 10 ^ ((itoa n).length - 1) ≤ n) := by
  obtain ⟨a1, a2, a3, a4, a5⟩ := digitsRev_facts (n + 1) n (by omega)
  unfold itoa decVal
  simp only [List.reverse_reverse, List.length_reverse]
  exact ⟨a1, fun d hd => a2 d (List.mem_reverse.mp hd), a3, a4, a5⟩

theorem itoa_length_mono {n m : Nat} (h : n ≤ m) : (itoa n).length ≤ (itoa m).length := by
  obtain ⟨_, _, b3, b4, _⟩ := itoa_facts m
  by_cases h0 : n = 0
  · subst h0
    have : (itoa 0).length = 1 := by decide
    omega
  · obtain ⟨_, _, _, _, a5⟩ := itoa_facts n
    have h1 : 10 ^ ((itoa n).length - 1) < 10 ^ (itoa m).length :=
      lt_of_le_of_lt (le_trans (a5 h0) h) b4
    have := (Nat.pow_lt_pow_iff_right (by decide)).mp h1
    omega

/-- A number below the line count, padded to the width of the line count: exactly that
many digits, which write the number. -/
theorem padZero_facts (N n : Nat) (h : n < N) :
    (padZero (itoa N).length n).length = (itoa N).length ∧
      isDigits (padZero (itoa N).length n) ∧ decVal (padZero (itoa N).length n) = n := by
  have hlen := itoa_length_mono (Nat.le_of_lt h)
  obtain ⟨a1, a2, _, _, _⟩ := itoa_facts n
  unfold padZero
  refine ⟨?_, ?_, ?_⟩
  · simp only [List.length_append, List.length_replicate]
    omega
  · intro d hd
    rcases List.mem_append.mp hd with e | e
    · have := (List.mem_replicate.mp e).2
      omega
    · exact a2 d e
  · unfold decVal at a1 ⊢
    rw [List.reverse_append, leVal_append, List.reverse_replicate, leVal_replicate, a1]
    simp

theorem padZero_lt (N i j : Nat) (hij : i < j) (hj : j < N) :
    strLt (padZero (itoa N).length i) (padZero (itoa N).length j) = true := by
  obtain ⟨a1, a2, a3⟩ := padZero_facts N i (by omega)
  obtain ⟨b1, b2, b3⟩ := padZero_facts N j hj
  exact strLt_of_decVal_lt _ _ (by rw [a1, b1]) a2 b2 (by rw [a3, b3]; exact hij)

/-! ## The keys of `TextToMap` -/

theorem splitGo_length_pos (sp : Str) : ∀ (s : Str) (skip : Nat),
    1 ≤ (splitGo sp s skip).length := by
  intro s
  induction s with
  | nil => intro skip; simp [splitGo]
  | cons c s ih =>
    intro skip
    cases skip with
    | succ k => simpa [splitGo] using ih k
    | zero =>
      simp only [splitGo]
      split
      · simp
      · split <;> simp

theorem textLoop_keys (path : Str) (w N : Nat) : ∀ (lines : List Str) (st : TextState) (i : Nat),
    i + lines.length = N → st.lastNewLine < N →
    (∀ k ∈ st.doc.map Prod.fst, ∃ n, n < N ∧ k = lineKey path w n) →
    (textLoop path w st i lines).lastNewLine < N ∧
      ∀ k ∈ (textLoop path w st i lines).doc.map Prod.fst, ∃ n, n < N ∧ k = lineKey path w n := by
  intro lines
  induction lines with
  | nil => intro st i _ h1 h2; exact ⟨h1, h2⟩
  | cons line rest ih =>
    intro st i hi h1 h2
    simp only [textLoop]
    simp only [List.length_cons] at hi
    have hlast : (if st.curLine = [] ∧ trimSpace line ≠ [] then i else st.lastNewLine) < N := by
      split
      · omega
      · exact h1
    apply ih _ (i + 1) (by omega)
    · unfold textStep
      simp only []
      split
      · split <;> exact hlast
      · exact hlast
    · unfold textStep
      simp only []
      split
      · split
        · intro k hk
          rcases (mem_keys_set _ _ _ _).mp hk with e | e
          · exact ⟨_, hlast, e⟩
          · exact h2 k e
        · intro k hk
          rcases (mem_keys_set _ _ _ _).mp hk with e | e
          · exact ⟨_, hlast, e⟩
          · exact h2 k e
      · exact h2

theorem TextToMap_keys (text path : Str) :
    ∀ k ∈ (TextToMap text path).map Prod.fst,
      ∃ n, n < (split text [10]).length ∧
        k = lineKey path (itoa (split text [10]).length).length n := by
  have hpos : 1 ≤ (split text [10]).length := splitGo_length_pos [10] text 0
  obtain ⟨h1, h2⟩ := textLoop_keys path (itoa (split text [10]).length).length
    (split text [10]).length (split text [10]) ⟨[], [], 0⟩ 0 (by simp) (by simpa using hpos)
    (by simp)
  unfold TextToMap
  simp only []
  split
  · intro k hk
    rcases (mem_keys_set _ _ _ _).mp hk with e | e
    · exact ⟨_, h1, e⟩
    · exact h2 k e
  · exact h2

/-! ## The normalisation keeps both texts -/

theorem side_append (keep : Operation → Bool) (xs ys : List Diff) :
    side keep (xs ++ ys) = side keep xs ++ side keep ys := by
  induction xs with
  | nil => rfl
  | cons d xs ih => simp [side, ih]

theorem startsWith_split {a b : Str} (h : startsWith a b = true) : ∃ r, a = b ++ r := by
  induction b generalizing a with
  | nil => exact ⟨a, rfl⟩
  | cons y b ih =>
    cases a with
    | nil => simp [startsWith] at h
    | cons x a =>
      simp only [startsWith, Bool.and_eq_true, beq_iff_eq] at h
      obtain ⟨r, hr⟩ := ih h.2
      exact ⟨r, by rw [h.1, hr]; rfl⟩

theorem endsWith_split {s p : Str} (h : endsWith s p = true) : ∃ q, s = q ++ p := by
  obtain ⟨r, hr⟩ := startsWith_split h
  refine ⟨r.reverse, ?_⟩
  have := congrArg List.reverse hr
  simpa using this

theorem trimEnd_append {s p : Str} (h : endsWith s p = true) : trimEnd s p ++ p = s := by
  obtain ⟨q, hq⟩ := endsWith_split h
  unfold trimEnd
  rw [if_pos h]
  subst hq
  simp

theorem replaceGo_id (old new : Str) : ∀ s : Str, containsStr s old = false →
    replaceGo old new s 0 = s := by
  intro s
  induction s with
  | nil => intro _; rfl
  | cons c s ih =>
    intro h
    simp only [containsStr, Bool.or_eq_false_iff] at h
    simp only [replaceGo, h.1, Bool.false_eq_true, if_false, ih h.2]

theorem cleanText_id {d : Diff} (h : containsStr d.Text [10, 13] = false) :
    cleanText d = d.Text := replaceGo_id _ _ _ h

theorem unifyGo_side (keep : Operation → Bool) : ∀ (ds : List Diff) (op : Operation) (text : Str),
    (∀ d ∈ ds, containsStr d.Text [10, 13] = false) →
    side keep (unifyGo op text ds) = (if keep op = true then text else []) ++ side keep ds := by
  intro ds
  induction ds with
  | nil => intro op text _; simp [unifyGo, side]
  | cons d ds ih =>
    intro op text h
    have hd := cleanText_id (h d (List.mem_cons_self _ _))
    have ih' := fun op text => ih op text (fun x hx => h x (List.mem_cons_of_mem _ hx))
    simp only [unifyGo, hd]
    by_cases hop : op = d.Op
    · subst hop
      rw [if_neg (by simp), ih']
      simp only [side]
      split <;> simp
    · rw [if_pos hop]
      simp only [side, ih']

theorem unifyGo_ops : ∀ (ds : List Diff) (op : Operation) (text : Str),
    ∃ tail, (unifyGo op text ds).map Diff.Op = op :: tail ∧ alternating (op :: tail) := by
  intro ds
  induction ds with
  | nil => intro op text; exact ⟨[], rfl, by simp [alternating]⟩
  | cons d ds ih =>
    intro op text
    simp only [unifyGo]
    by_cases hop : op = d.Op
    · rw [if_neg (by simpa using hop)]
      exact ih op _
    · rw [if_pos hop]
      obtain ⟨tail, h1, h2⟩ := ih d.Op (cleanText d)
      refine ⟨d.Op :: tail, by simp [h1], ?_⟩
      unfold alternating at h2 ⊢
      exact List.Chain'.cons hop h2

/-- Three spans in a row at the indices `j`, `j + 1`, `j + 2`, and the list after the
three assignments of the loop that moves a newline. -/
theorem window_set : ∀ (j : Nat) (l : List Diff) (d2 d1 d : Diff),
    l.get? j = some d2 → l.get? (j + 1) = some d1 → l.get? (j + 2) = some d →
    ∃ pre post, l = pre ++ d2 :: d1 :: d :: post ∧
      ∀ x y z, ((l.set (j + 2) x).set (j + 1) y).set j z = pre ++ z :: y :: x :: post := by
  intro j
  induction j with
  | zero =>
    intro l d2 d1 d h2 h1 h0
    match l, h2, h1, h0 with
    | a :: b :: c :: post, h2, h1, h0 =>
      simp only [List.get?_cons_zero, List.get?_cons_succ, Option.some.injEq] at h2 h1 h0
      subst h2
      subst h1
      subst h0
      exact ⟨[], post, rfl, fun x y z => rfl⟩
  | succ j ih =>
    intro l d2 d1 d h2 h1 h0
    cases l with
    | nil => simp at h2
    | cons a t =>
      simp only [List.get?_cons_succ] at h2 h1 h0
      obtain ⟨pre, post, hl, hs⟩ := ih t d2 d1 d h2 h1 h0
      refine ⟨a :: pre, post, by rw [hl]; rfl, ?_⟩
      intro x y z
      simp only [List.set_cons_succ, hs, List.cons_append]

theorem rebalanceStep_keeps (keep : Operation → Bool) (hk : keep DiffEqual = true)
    (diff : List Diff) (i : Nat) :
    side keep (rebalanceStep diff i) = side keep diff ∧
      (rebalanceStep diff i).map Diff.Op = diff.map Diff.Op := by
  unfold rebalanceStep
  by_cases hi : i < 2
  · rw [if_pos hi]
    exact ⟨rfl, rfl⟩
  · rw [if_neg hi]
    cases h0 : diff.get? i with
    | none => exact ⟨rfl, rfl⟩
    | some d =>
      cases h1 : diff.get? (i - 1) with
      | none => exact ⟨rfl, rfl⟩
      | some d1 =>
        cases h2 : diff.get? (i - 2) with
        | none => exact ⟨rfl, rfl⟩
        | some d2 =>
          simp only []
          split
          · rename_i hc
            obtain ⟨c1, c2, c3, _, c5, c6⟩ := hc
            have e1 : i - 1 = (i - 2) + 1 := by omega
            have e0 : i = (i - 2) + 2 := by omega
            rw [e1] at h1
            rw [e0] at h0
            obtain ⟨pre, post, hl, hs⟩ := window_set (i - 2) diff d2 d1 d h2 h1 h0
            have hs' := hs ⟨d.Op, 10 :: d.Text⟩ ⟨d1.Op, 10 :: trimEnd d1.Text [10]⟩
              ⟨d2.Op, trimEnd d2.Text [10]⟩
            rw [← e1, ← e0] at hs'
            rw [hs']
            have t1 := trimEnd_append c5
            have t2 := trimEnd_append c6
            constructor
            · conv_rhs => rw [hl]
              simp only [side_append, side, c1, c2, c3, hk, if_true]
              by_cases hki : keep DiffInsert = true
              · simp only [hki, if_true]
                conv_rhs => rw [← t1, ← t2]
                simp
              · simp only [hki, if_false]
                conv_rhs => rw [← t2]
                simp
            · conv_rhs => rw [hl]
              simp
          · exact ⟨rfl, rfl⟩

theorem rebalance_keeps (keep : Operation → Bool) (hk : keep DiffEqual = true) :
    ∀ (idx : List Nat) (diff : List Diff),
    side keep (idx.foldl rebalanceStep diff) = side keep diff ∧
      (idx.foldl rebalanceStep diff).map Diff.Op = diff.map Diff.Op := by
  intro idx
  induction idx with
  | nil => intro diff; exact ⟨rfl, rfl⟩
  | cons i idx ih =>
    intro diff
    simp only [List.foldl_cons]
    obtain ⟨a1, a2⟩ := rebalanceStep_keeps keep hk diff i
    obtain ⟨b1, b2⟩ := ih (rebalanceStep diff i)
    exact ⟨by rw [b1, a1], by rw [b2, a2]⟩

theorem cutPieces_side_false (keep : Operation → Bool) (op : Operation)
    (h : ¬ keep op = true) : ∀ ps : List Str, side keep (cutPieces op ps) = [] := by
  intro ps
  induction ps with
  | nil => rfl
  | cons p ps ih =>
    cases ps with
    | nil => simp [cutPieces, side, h]
    | cons q qs =>
      simp only [cutPieces, side, h, if_false, List.nil_append]
      exact ih

theorem cutPieces_side_cons (keep : Operation → Bool) (op : Operation)
    (h : keep op = true) (c : Nat) (p : Str) (ps : List Str) :
    side keep (cutPieces op ((c :: p) :: ps)) = c :: side keep (cutPieces op (p :: ps)) := by
  cases ps with
  | nil => simp [cutPieces, side, h]
  | cons q qs => simp [cutPieces, side, h]

theorem cutPieces_side_split (keep : Operation → Bool) (op : Operation)
    (h : keep op = true) : ∀ (s : Str) (skip : Nat),
    side keep (cutPieces op (splitGo sep s skip)) = s.drop skip := by
  intro s
  induction s with
  | nil => intro skip; simp [splitGo, cutPieces, side, h]
  | cons c s ih =>
    intro skip
    cases skip with
    | succ k => simp only [splitGo, List.drop_succ_cons]; exact ih k
    | zero =>
      simp only [splitGo, List.drop_zero]
      by_cases hs : startsWith (c :: s) sep = true
      · rw [if_pos hs]
        have hpos := splitGo_length_pos sep s (sep.length - 1)
        cases hr : splitGo sep s (sep.length - 1) with
        | nil => rw [hr] at hpos; simp at hpos
        | cons q qs =>
          have ih' := ih (sep.length - 1)
          rw [hr] at ih'
          simp only [cutPieces, side, h, if_true, ih', List.nil_append]
          obtain ⟨r, hr'⟩ := startsWith_split hs
          simp only [sep, List.cons_append, List.cons.injEq] at hr'
          obtain ⟨h1, h2⟩ := hr'
          subst h1
          subst h2
          simp [sep]
      · rw [if_neg hs]
        have hpos := splitGo_length_pos sep s 0
        cases hr : splitGo sep s 0 with
        | nil => rw [hr] at hpos; simp at hpos
        | cons q qs =>
          have ih' := ih 0
          rw [hr] at ih'
          simp only []
          rw [cutPieces_side_cons keep op h, ih']
          simp

theorem cutPieces_side (keep : Operation → Bool) (d : Diff) :
    side keep (cutPieces d.Op (split d.Text sep)) = if keep d.Op = true then d.Text else [] := by
  by_cases h : keep d.Op = true
  · rw [if_pos h]
    exact cutPieces_side_split keep d.Op h d.Text 0
  · rw [if_neg h]
    exact cutPieces_side_false keep d.Op h _

theorem recutStep_other (before : Option Diff) (out : List Diff) (d : Diff)
    (h : ∀ p, before = some p → p.Op ≠ d.Op) :
    recutStep before out d = out ++ cutPieces d.Op (split d.Text sep) := by
  unfold recutStep
  cases before with
  | none => cases split d.Text sep <;> rfl
  | some p =>
    cases split d.Text sep with
    | nil => rfl
    | cons sc rest =>
      simp only []
      rw [if_neg]
      intro hc
      exact h p rfl hc.1.symm

theorem recutGo_side (keep : Operation → Bool) : ∀ (ds : List Diff) (before : Option Diff)
    (out : List Diff),
    alternating ((before.map Diff.Op).toList ++ ds.map Diff.Op) →
    side keep (recutGo before out ds) = side keep out ++ side keep ds := by
  intro ds
  induction ds with
  | nil => intro before out _; simp [recutGo, side]
  | cons d ds ih =>
    intro before out h
    have hstep : recutStep before out d = out ++ cutPieces d.Op (split d.Text sep) := by
      apply recutStep_other
      intro p hp
      subst hp
      unfold alternating at h
      simp only [Option.map_some', Option.toList_some, List.map_cons, List.singleton_append,
        List.chain'_cons] at h
      exact h.1
    have htail : alternating (((some d).map Diff.Op).toList ++ ds.map Diff.Op) := by
      unfold alternating at h ⊢
      cases before with
      | none => simpa using h
      | some p =>
        simp only [Option.map_some', Option.toList_some, List.map_cons, List.singleton_append,
          List.chain'_cons] at h
        simpa using h.2
    simp only [recutGo]
    rw [ih (some d) _ htail, hstep, side_append, cutPieces_side]
    simp [side]

theorem normalize_side (keep : Operation → Bool) (hk : keep DiffEqual = true)
    (diff : List Diff) (hne : diff ≠ [])
    (hclean : ∀ d ∈ diff, containsStr d.Text [10, 13] = false) :
    ∃ spans, normalize diff = some spans ∧ side keep spans = side keep diff := by
  cases diff with
  | nil => exact absurd rfl hne
  | cons d ds =>
    refine ⟨diffSepByLines (rebalance (unifyGo d.Op (cleanText d) ds)), rfl, ?_⟩
    obtain ⟨tail, ho, ha⟩ := unifyGo_ops ds d.Op (cleanText d)
    obtain ⟨r1, r2⟩ := rebalance_keeps keep hk
      (List.range (unifyGo d.Op (cleanText d) ds).length) (unifyGo d.Op (cleanText d) ds)
    have hu := unifyGo_side keep ds d.Op (cleanText d)
      (fun x hx => hclean x (List.mem_cons_of_mem _ hx))
    have hc := cleanText_id (hclean d (List.mem_cons_self _ _))
    unfold diffSepByLines rebalance
    rw [recutGo_side keep _ none []]
    · rw [r1, hu, hc]
      simp [side]
    · show alternating ([] ++ _)
      rw [List.nil_append, r2, ho]
      exact ha

/-! ## The returned keys -/

theorem insertSorted_nonDescending (k : Str) (xs : List Str) (h : NonDescending xs) :
    NonDescending (insertSorted k xs) := by
  induction xs with
  | nil => simp [insertSorted, NonDescending]
  | cons x xs ih =>
    unfold NonDescending at h ih ⊢
    rw [List.pairwise_cons] at h
    simp only [insertSorted]
    by_cases hx : strLt x k = true
    · rw [if_pos hx, List.pairwise_cons]
      refine ⟨?_, ih h.2⟩
      intro y hy
      rcases (mem_insertSorted k xs y).1 hy with rfl | hy
      · exact strLt_asymm _ _ hx
      · exact h.1 y hy
    · rw [if_neg hx, List.pairwise_cons]
      refine ⟨?_, List.pairwise_cons.2 h⟩
      have hx' : strLt x k = false := by simpa using hx
      intro y hy
      rcases List.mem_cons.1 hy with rfl | hy
      · exact hx'
      · cases hyk : strLt y k with
        | false => rfl
        | true =>
          have hyx := h.1 y hy
          by_cases hkx : k = x
          · subst hkx
            rw [hyk] at hyx
            cases hyx
          · have := strLt_trans y k x hyk (strLt_total x k (fun e => hkx e.symm) hx')
            rw [this] at hyx
            cases hyx

theorem sortStrings_nonDescending (xs : List Str) : NonDescending (sortStrings xs) := by
  induction xs with
  | nil => simp [sortStrings, NonDescending]
  | cons x xs ih => exact insertSorted_nonDescending x _ ih

theorem emitLoop_keys : ∀ (lines : List diffLine) (lTree : lexTree) (usedKeys : List Str)
    (docNew : GoMap) (r : GoMap × List Str),
    emitLoop lTree usedKeys docNew lines = some r →
    (∀ k ∈ docNew.map Prod.fst, k ∈ usedKeys) →
    (∀ l ∈ lines, l.Key ≠ [] → l.Key ∈ usedKeys) →
    ∀ k ∈ r.1.map Prod.fst, k ∈ r.2 := by
  intro lines
  induction lines with
  | nil =>
    intro lTree usedKeys docNew r h hdoc _
    simp only [emitLoop, Option.some.injEq] at h
    subst h
    exact hdoc
  | cons l rest ih =>
    intro lTree usedKeys docNew r h hdoc hl
    have hrest : ∀ l' ∈ rest, l'.Key ≠ [] → l'.Key ∈ usedKeys :=
      fun l' hl' => hl l' (List.mem_cons_of_mem _ hl')
    simp only [emitLoop] at h
    split_ifs at h with h1 h2 h3
    · exact ih _ _ _ _ h hdoc hrest
    · simp only [Option.some.injEq] at h
      subst h
      exact hdoc
    · cases hf : lTree.findNewBetween l.PreviousKey l.NextKey with
      | none => simp [hf] at h
      | some res =>
        obtain ⟨key, lTree1⟩ := res
        simp only [hf] at h
        refine ih _ _ _ _ h ?_ ?_
        · intro k hk
          rcases (mem_keys_set _ _ _ _).1 hk with rfl | hk
          · simp
          · exact List.mem_append_left _ (hdoc k hk)
        · intro l' hl' hne
          exact List.mem_append_left _ (hrest l' hl' hne)
    · refine ih _ _ _ _ h ?_ hrest
      intro k hk
      rcases (mem_keys_set _ _ _ _).1 hk with rfl | hk
      · exact hl l (List.mem_cons_self _ _) h2
      · exact hdoc k hk

/-- Whenever the reconciler returns, every key of the returned snapshot is one of the
returned retained keys, and the returned retained keys are in the order of
`sort.Strings`. -/
theorem snapshot_keys_reserved (bisect : Str → Str → List Diff) (dist : Str → Str → Nat)
    (newText path : Str) (docPrevVersion : Option GoMap) (usedKeys : List Str) (doc : Doc)
    (h : WithPreservedKeysAndOrder bisect dist newText path docPrevVersion usedKeys =
      some doc) :
    (∀ k ∈ doc.Doc.map Prod.fst, k ∈ doc.UsedKeys) ∧ NonDescending doc.UsedKeys := by
  have hno : ∀ prev, (∀ k ∈ (noHistory newText path prev usedKeys).Doc.map Prod.fst,
      k ∈ (noHistory newText path prev usedKeys).UsedKeys) ∧
      NonDescending (noHistory newText path prev usedKeys).UsedKeys := by
    intro prev
    refine ⟨?_, sortStrings_nonDescending _⟩
    intro k hk
    exact (mem_sortStrings _ _).2 (List.mem_append_right _ hk)
  unfold WithPreservedKeysAndOrder at h
  cases docPrevVersion with
  | none =>
    simp only [Option.some.injEq] at h
    subst h
    exact hno []
  | some prev =>
    simp only [] at h
    split_ifs at h with h0
    · simp only [Option.some.injEq] at h
      subst h
      exact hno prev
    · cases hn : normalize (bisect (MapToText prev) newText) with
      | none => simp [hn] at h
      | some spans =>
        simp only [hn] at h
        cases hw : walk prev spans dist with
        | none => simp [hw] at h
        | some lines =>
          simp only [hw] at h
          simp only [emit, Option.map_eq_some'] at h
          obtain ⟨r, hr, hd⟩ := h
          subst hd
          refine ⟨?_, sortStrings_nonDescending _⟩
          intro k hk
          refine (mem_sortStrings _ _).2 (emitLoop_keys lines _ _ _ r hr ?_ ?_ k hk)
          · intro k hk
            simp at hk
          · intro l hl hne
            exact (mem_lineKeys lines l.Key).2 ⟨hne, l, hl, rfl⟩

/-! ## The walk up to a key -/

theorem walkLoop_append (docPrevVersion : GoMap) (spans : List Diff) (dist : Str → Str → Nat)
    (docPrevKeys : List Str) : ∀ (pre : List Str) (i : Nat) (rest : List Str)
    (st st1 : WalkState),
    walkTo docPrevVersion spans dist docPrevKeys i pre st = some st1 →
    walkLoop docPrevVersion spans dist docPrevKeys i (pre ++ rest) st =
      walkLoop docPrevVersion spans dist docPrevKeys (i + pre.length) rest st1 := by
  intro pre
  induction pre with
  | nil =>
    intro i rest st st1 h
    simp only [walkTo, Option.some.injEq] at h
    subst h
    rfl
  | cons k pre ih =>
    intro i rest st st1 h
    simp only [walkTo] at h
    simp only [List.cons_append, walkLoop, List.length_cons]
    cases hw : walkStep docPrevVersion spans dist i k
      (if i > 0 then keyAt docPrevKeys (i - 1) else [])
      (if i < docPrevKeys.length - 1 then keyAt docPrevKeys (i + 1) else []) st with
    | panic => simp [hw] at h
    | stop st2 => simp [hw] at h
    | next st2 =>
      simp only [hw] at h
      simp only []
      have e := ih (i + 1) rest st2 st1 h
      have e2 : i + (pre.length + 1) = i + 1 + pre.length := by omega
      rw [e2]
      exact e

/-- The lines that one iteration of the walk appends: each has the key of the
iteration or none, the previous key as its previous bracket, and the next key or the
key itself as its next bracket; a line without key and with an empty next bracket
equal to the key comes from an Insert span. -/
theorem walkStep_lines (docPrevVersion : GoMap) (spans : List Diff) (dist : Str → Str → Nat)
    (i : Nat) (k previousKey nextKey : Str) (st st1 : WalkState)
    (h : walkStep docPrevVersion spans dist i k previousKey nextKey st = Outcome.next st1) :
    ∃ ls, st1.lines = st.lines ++ ls ∧
      ∀ l ∈ ls, (l.Key = k ∨ l.Key = []) ∧ l.PreviousKey = previousKey ∧
        (l.NextKey = nextKey ∨ l.NextKey = k) := by
  unfold walkStep at h
  split at h
  · cases h
  · rename_i d hd
    split_ifs at h with c1 c2 c3
    · simp only [Outcome.next.injEq] at h
      subst h
      exact ⟨_, rfl, by simp⟩
    · simp only [Outcome.next.injEq] at h
      subst h
      exact ⟨_, rfl, by simp⟩
    · simp only [Outcome.next.injEq] at h
      subst h
      exact ⟨_, rfl, by simp⟩
    · unfold walkGeneral at h
      simp only [] at h
      split_ifs at h
      split at h
      · cases h
      · rename_i ls hc
        simp only [Outcome.next.injEq] at h
        subst h
        refine ⟨ls, rfl, ?_⟩
        unfold classify at hc
        simp only [] at hc
        split_ifs at hc <;> simp only [Option.some.injEq] at hc <;> subst hc <;> simp

theorem walkTo_lines (docPrevVersion : GoMap) (spans : List Diff) (dist : Str → Str → Nat)
    (docPrevKeys : List Str) : ∀ (pre : List Str) (i : Nat) (st st1 : WalkState),
    walkTo docPrevVersion spans dist docPrevKeys i pre st = some st1 →
    live st1.lines ≤ live st.lines + pre.length ∧
      ∀ l ∈ st1.lines, l ∈ st.lines ∨ l.Key = [] ∨ l.Key ∈ pre := by
  intro pre
  induction pre with
  | nil =>
    intro i st st1 h
    simp only [walkTo, Option.some.injEq] at h
    subst h
    exact ⟨by simp, fun l hl => Or.inl hl⟩
  | cons k pre ih =>
    intro i st st1 h
    simp only [walkTo] at h
    have hl := walkStep_live docPrevVersion spans dist i k
      (if i > 0 then keyAt docPrevKeys (i - 1) else [])
      (if i < docPrevKeys.length - 1 then keyAt docPrevKeys (i + 1) else []) st
    cases hw : walkStep docPrevVersion spans dist i k
      (if i > 0 then keyAt docPrevKeys (i - 1) else [])
      (if i < docPrevKeys.length - 1 then keyAt docPrevKeys (i + 1) else []) st with
    | panic => simp [hw] at h
    | stop st2 => simp [hw] at h
    | next st2 =>
      simp only [hw] at h hl
      obtain ⟨ls, e, hls⟩ := walkStep_lines _ _ _ _ _ _ _ _ _ hw
      obtain ⟨a1, a2⟩ := ih (i + 1) st2 st1 h
      refine ⟨by simp only [List.length_cons]; omega, ?_⟩
      intro l hl1
      rcases a2 l hl1 with m | m | m
      · rw [e] at m
        rcases List.mem_append.mp m with m | m
        · exact Or.inl m
        · rcases (hls l m).1 with e1 | e1
          · exact Or.inr (Or.inr (by rw [e1]; exact List.mem_cons_self _ _))
          · exact Or.inr (Or.inl e1)
      · exact Or.inr (Or.inl m)
      · exact Or.inr (Or.inr (List.mem_cons_of_mem _ m))

/-- What follows an inconsistency at the key `k`, met in the state `st` after the keys
`pre`: the walk returns the lines gathered so far, and the run is the last loop on
these lines. -/
theorem run_of_stop (bisect : Str → Str → List Diff) (dist : Str → Str → Nat)
    (newText path : Str) (prev : GoMap) (usedKeys : List Str) (spans : List Diff)
    (pre : List Str) (k : Str) (rest : List Str) (st : WalkState) (d : Diff)
    (hgen : ¬ (prev.length = 0 ∧ usedKeys.length = 0))
    (hb : bisectPanics (MapToText prev) newText = false)
    (hn : normalize (bisect (MapToText prev) newText) = some spans)
    (hkeys : getKeys prev = pre ++ k :: rest)
    (hto : walkTo prev spans dist (getKeys prev) 0 pre ⟨0, [], [], []⟩ = some st)
    (hd : spans.get? st.diffI = some d)
    (hins : ¬ (endsWith d.Text sep = true ∧ d.Op = DiffInsert))
    (htext : prev.get k ++ sep ≠ d.Text)
    (hbad : (walkAcc prev spans k st).correctLine = false ∨
      trimSpace (walkAcc prev spans k st).oldLineRight ≠ [] ∨
      trimSpace (trimEnd (walkAcc prev spans k st).newLine sep) ≠
        trimSpace (walkAcc prev spans k st).oldLineLeft) :
    walk prev spans dist = some st.lines ∧
      WithPreservedKeysAndOrder bisect dist newText path (some prev) usedKeys =
        emit st.lines usedKeys := by
  have hw : walk prev spans dist = some st.lines := by
    have e : ∀ ks, ks = pre ++ k :: rest →
        walkLoop prev spans dist (getKeys prev) 0 ks ⟨0, [], [], []⟩ = some st.lines := by
      intro ks hks
      subst hks
      rw [walkLoop_append prev spans dist (getKeys prev) pre 0 (k :: rest) _ st hto]
      obtain ⟨st1, h1, h2⟩ := walkStep_stop prev spans dist (0 + pre.length) k
        (if 0 + pre.length > 0 then keyAt (getKeys prev) (0 + pre.length - 1) else [])
        (if 0 + pre.length < (getKeys prev).length - 1 then
          keyAt (getKeys prev) (0 + pre.length + 1) else []) st d hd hins htext hbad
      rw [walkLoop_stop _ _ _ _ _ _ _ _ _ h1, h2]
    exact e _ hkeys
  exact ⟨hw, run_of_walk bisect dist newText path prev usedKeys spans st.lines hgen hb hn hw⟩

/-- After a stop of the walk the last loop can panic. Old snapshot
`{a: "Foo", a!: "Bar", a/: "Baz"}`, no retained keys, new text
`"Foo\n\nQux\n\nNew\n\nBaz\n\n"`, script `[Equal "Foo\n\n", Delete "Bar", Insert "Qux",
Equal "\n\n", Insert "New\n\n", Equal "Baz\n\n"]`, distance 3: the walk stops at `a/`
with the lines of `a` and `a!`, among them the pending insertion of `"Qux"` between `a`
and `a/`; the trie holds `a` and `a!` only, and `findNewBetween("a", "a/")` reads the
child `'/'` of the node of `a`, which does not exist. -/
theorem stop_then_panic_example :
    walk [(bytes "a", bytes "Foo"), (bytes "a!", bytes "Bar"), (bytes "a/", bytes "Baz")]
        [⟨DiffEqual, bytes "Foo\n\n"⟩, ⟨DiffEqual, []⟩, ⟨DiffDelete, bytes "Bar"⟩,
          ⟨DiffInsert, bytes "Qux"⟩, ⟨DiffEqual, bytes "\n\n"⟩, ⟨DiffEqual, []⟩,
          ⟨DiffInsert, bytes "New\n\n"⟩, ⟨DiffInsert, []⟩, ⟨DiffEqual, bytes "Baz\n\n"⟩,
          ⟨DiffEqual, []⟩] (fun _ _ => 3) =
      some [⟨bytes "a", [], bytes "a!", bytes "Foo", bytes "Foo"⟩,
        ⟨bytes "a!", bytes "a", bytes "a/", bytes "Bar", []⟩,
        ⟨[], bytes "a", bytes "a/", [], bytes "Qux"⟩] ∧
    WithPreservedKeysAndOrder
        (fun _ _ => [⟨DiffEqual, bytes "Foo\n\n"⟩, ⟨DiffDelete, bytes "Bar"⟩,
          ⟨DiffInsert, bytes "Qux"⟩, ⟨DiffEqual, bytes "\n\n"⟩, ⟨DiffInsert, bytes "New\n\n"⟩,
          ⟨DiffEqual, bytes "Baz\n\n"⟩])
        (fun _ _ => 3) (bytes "Foo\n\nQux\n\nNew\n\nBaz\n\n") (bytes "p")
        (some [(bytes "a", bytes "Foo"), (bytes "a!", bytes "Bar"), (bytes "a/", bytes "Baz")])
        [] = none := by
  constructor
  · set_option maxRecDepth 100000 in
    decide
  · set_option maxRecDepth 100000 in
    decide

/-! ## The paragraphs of `TextToMap` -/

theorem blankAt_ge : ∀ (pre : List Str) (j : Nat), pre.length ≤ j → blankAt pre j = true := by
  intro pre
  induction pre with
  | nil => intro j _; rfl
  | cons l pre ih =>
    intro j h
    cases j with
    | zero => simp at h
    | succ j => exact ih j (by simpa using h)

theorem blankAt_append_lt : ∀ (pre x : List Str) (j : Nat), j < pre.length →
    blankAt (pre ++ x) j = blankAt pre j := by
  intro pre
  induction pre with
  | nil => intro x j h; simp at h
  | cons l pre ih =>
    intro x j h
    cases j with
    | zero => rfl
    | succ j => exact ih x j (by simpa using h)

theorem blankAt_append_length : ∀ (pre : List Str) (line : Str),
    blankAt (pre ++ [line]) pre.length = decide (trimSpace line = []) := by
  intro pre
  induction pre with
  | nil => intro line; rfl
  | cons l pre ih => intro line; exact ih line

theorem paragraphStart_lt (pre : List Str) (s : Nat) (h : paragraphStart pre s = true) :
    s < pre.length := by
  by_contra hc
  have := blankAt_ge pre s (by omega)
  simp [paragraphStart, this] at h

theorem paragraphStart_append_lt (pre : List Str) (line : Str) (s : Nat) (h : s < pre.length) :
    paragraphStart (pre ++ [line]) s = paragraphStart pre s := by
  unfold paragraphStart
  rw [blankAt_append_lt pre [line] s h, blankAt_append_lt pre [line] (s - 1) (by omega)]

theorem paragraphStart_append_length (pre : List Str) (line : Str) :
    paragraphStart (pre ++ [line]) pre.length =
      (!decide (trimSpace line = []) &&
        (pre.length == 0 || blankAt pre (pre.length - 1))) := by
  unfold paragraphStart
  rw [blankAt_append_length]
  by_cases h0 : pre.length = 0
  · simp [h0]
  · rw [blankAt_append_lt pre [line] (pre.length - 1) (by omega)]

theorem paragraphBuffer_closed : ∀ (a b : List Str), (∃ l ∈ a, trimSpace l = []) →
    paragraphBuffer (a ++ b) = paragraphBuffer a := by
  intro a
  induction a with
  | nil => intro b h; simp at h
  | cons x a ih =>
    intro b h
    simp only [List.cons_append, paragraphBuffer]
    by_cases hx : trimSpace x = []
    · simp [hx]
    · simp only [hx, if_false, List.append_eq]
      obtain ⟨l, hl, hb⟩ := h
      rcases List.mem_cons.mp hl with e | e
      · exact absurd (e ▸ hb) hx
      · rw [ih b ⟨l, e, hb⟩]

theorem paragraphBuffer_open : ∀ (a b : List Str), (∀ l ∈ a, trimSpace l ≠ []) →
    paragraphBuffer (a ++ b) = paragraphBuffer a ++ paragraphBuffer b := by
  intro a
  induction a with
  | nil => intro b _; rfl
  | cons x a ih =>
    intro b h
    have hx := h x (List.mem_cons_self _ _)
    simp only [List.cons_append, paragraphBuffer, hx, if_false, List.append_eq]
    rw [ih b (fun l hl => h l (List.mem_cons_of_mem _ hl))]
    simp

theorem lineKey_inj (path : Str) (N a b : Nat) (ha : a < N) (hb : b < N)
    (h : lineKey path (itoa N).length a = lineKey path (itoa N).length b) : a = b := by
  unfold lineKey at h
  have h1 := List.append_cancel_left h
  simp only [List.cons.injEq, true_and] at h1
  have a3 := (padZero_facts N a ha).2.2
  have b3 := (padZero_facts N b hb).2.2
  rw [h1] at a3
  omega

theorem segInv_init (path : Str) (w : Nat) : SegInv path w [] ⟨[], [], 0⟩ where
  between := fun _ => Or.inl rfl
  inside := fun h => absurd rfl h
  last := Or.inl rfl
  stored := by
    intro s h
    simp [paragraphStart, blankAt] at h
  keys := by
    intro k hk
    simp at hk

theorem textStep_inv (path : Str) (N : Nat) (pre : List Str) (st : TextState) (line : Str)
    (hN : pre.length < N) (h : SegInv path (itoa N).length pre st) :
    SegInv path (itoa N).length (pre ++ [line])
      (textStep path (itoa N).length st pre.length line) := by
  have hdrop : ∀ s, s ≤ pre.length → (pre ++ [line]).drop s = pre.drop s ++ [line] :=
    fun s hs => List.drop_append_of_le_length hs
  have hlen : (pre ++ [line]).length = pre.length + 1 := by simp
  -- a start of `pre ++ [line]` below `pre.length` is a start of `pre`
  have hold : ∀ s, s < pre.length → paragraphStart (pre ++ [line]) s = paragraphStart pre s :=
    fun s hs => paragraphStart_append_lt pre line s hs
  have hup : ∀ s, paragraphStart pre s = true → paragraphStart (pre ++ [line]) s = true := by
    intro s hs
    rw [hold s (paragraphStart_lt pre s hs)]
    exact hs
  have hclosed : ∀ s, paragraphStart pre s = true → (∃ l ∈ pre.drop s, trimSpace l = []) →
      (∃ l ∈ (pre ++ [line]).drop s, trimSpace l = []) ∧
        paragraphBuffer ((pre ++ [line]).drop s) = paragraphBuffer (pre.drop s) := by
    intro s hs hc
    rw [hdrop s (le_of_lt (paragraphStart_lt pre s hs))]
    obtain ⟨l, hl, hb⟩ := hc
    exact ⟨⟨l, List.mem_append_left _ hl, hb⟩, paragraphBuffer_closed _ _ ⟨l, hl, hb⟩⟩
  have hkeys : ∀ k, (∃ n, k = lineKey path (itoa N).length n ∧
      (n = 0 ∨ paragraphStart pre n = true)) →
      ∃ n, k = lineKey path (itoa N).length n ∧
        (n = 0 ∨ paragraphStart (pre ++ [line]) n = true) := by
    rintro k ⟨n, e, hn⟩
    exact ⟨n, e, hn.imp id (hup n)⟩
  by_cases hb : trimSpace line = []
  · by_cases hc : st.curLine = []
    · -- a blank line between paragraphs
      have e : textStep path (itoa N).length st pre.length line =
          ⟨st.doc.set (lineKey path (itoa N).length st.lastNewLine)
            (st.doc.get (lineKey path (itoa N).length st.lastNewLine) ++ [10]), [],
            st.lastNewLine⟩ := by
        simp [textStep, hb, hc]
      rw [e]
      refine ⟨?_, ?_, ?_, ?_, ?_⟩
      · intro _
        right
        rw [hlen, Nat.add_sub_cancel, blankAt_append_length]
        simp [hb]
      · intro hne
        exact absurd rfl hne
      · exact h.last.imp id (hup _)
      · intro s hs
        right
        have hs1 : s < pre.length := by
          have := paragraphStart_lt _ s hs
          rw [hlen] at this
          by_contra hge
          have e2 : s = pre.length := by omega
          rw [e2, paragraphStart_append_length] at hs
          simp [hb] at hs
        have hs0 : paragraphStart pre s = true := by rw [← hold s hs1]; exact hs
        rcases h.stored s hs0 with ⟨hne, _⟩ | ⟨h1, h2, m, h3⟩
        · exact absurd hc hne
        · obtain ⟨c1, c2⟩ := hclosed s hs0 h2
          refine ⟨?_, c1, ?_⟩
          · simp only [has_set, h1, Bool.or_true]
          · simp only [get_set, c2]
            by_cases hk : lineKey path (itoa N).length s =
                lineKey path (itoa N).length st.lastNewLine
            · rw [if_pos hk, ← hk, h3]
              exact ⟨m + 1, by simp [List.replicate_succ']⟩
            · rw [if_neg hk]
              exact ⟨m, h3⟩
      · intro k hk
        simp only [] at hk
        rcases (mem_keys_set _ _ _ _).mp hk with e1 | e1
        · exact ⟨st.lastNewLine, e1, h.last.imp id (hup _)⟩
        · exact hkeys k (h.keys k e1)
    · -- a blank line ends a paragraph
      have e : textStep path (itoa N).length st pre.length line =
          ⟨st.doc.set (lineKey path (itoa N).length st.lastNewLine) (trimSpace st.curLine), [],
            st.lastNewLine⟩ := by
        simp [textStep, hb, hc]
      rw [e]
      obtain ⟨i1, i2, i3, i4, i5⟩ := h.inside hc
      have hL := paragraphStart_lt pre _ i3
      refine ⟨?_, ?_, ?_, ?_, ?_⟩
      · intro _
        right
        rw [hlen, Nat.add_sub_cancel, blankAt_append_length]
        simp [hb]
      · intro hne
        exact absurd rfl hne
      · exact Or.inr (hup _ i3)
      · intro s hs
        right
        have hs1 : s < pre.length := by
          have := paragraphStart_lt _ s hs
          rw [hlen] at this
          by_contra hge
          have e2 : s = pre.length := by omega
          rw [e2, paragraphStart_append_length] at hs
          simp [hb] at hs
        have hs0 : paragraphStart pre s = true := by rw [← hold s hs1]; exact hs
        by_cases hk : lineKey path (itoa N).length s =
            lineKey path (itoa N).length st.lastNewLine
        · have hsL : s = st.lastNewLine :=
            lineKey_inj path N s st.lastNewLine (by omega) (by omega) hk
          subst hsL
          refine ⟨by simp [has_set], ?_, 0, ?_⟩
          · rw [hdrop _ (le_of_lt hL)]
            exact ⟨line, by simp, hb⟩
          · rw [get_set, if_pos rfl, hdrop _ (le_of_lt hL), paragraphBuffer_open _ _ i4, i5]
            simp [paragraphBuffer, hb]
        · rcases h.stored s hs0 with ⟨_, hsl⟩ | ⟨h1, h2, m, h3⟩
          · exact absurd (by rw [hsl]) hk
          · obtain ⟨c1, c2⟩ := hclosed s hs0 h2
            refine ⟨?_, c1, m, ?_⟩
            · simp only [has_set, h1, Bool.or_true]
            · rw [get_set, if_neg hk, c2, h3]
      · intro k hk
        simp only [] at hk
        rcases (mem_keys_set _ _ _ _).mp hk with e1 | e1
        · exact ⟨st.lastNewLine, e1, Or.inr (hup _ i3)⟩
        · exact hkeys k (h.keys k e1)
  · by_cases hc : st.curLine = []
    · -- a paragraph starts
      have e : textStep path (itoa N).length st pre.length line =
          ⟨st.doc, line ++ [10], pre.length⟩ := by
        simp [textStep, hb, hc]
      rw [e]
      have hstart : paragraphStart (pre ++ [line]) pre.length = true := by
        rw [paragraphStart_append_length]
        rcases h.between hc with h0 | h0
        · simp [hb, h0]
        · simp [hb, h0]
      have hd : (pre ++ [line]).drop pre.length = [line] := by simp
      refine ⟨?_, ?_, ?_, ?_, ?_⟩
      · intro hne
        simp at hne
      · intro _
        refine ⟨?_, by simp, hstart, ?_, ?_⟩
        · rw [hlen, Nat.add_sub_cancel, blankAt_append_length]
          simp [hb]
        · simp only [hd]
          intro l hl
          simp only [List.mem_singleton] at hl
          rw [hl]
          exact hb
        · simp [hd, paragraphBuffer, hb]
      · exact Or.inr hstart
      · intro s hs
        by_cases hs1 : s < pre.length
        · right
          have hs0 : paragraphStart pre s = true := by rw [← hold s hs1]; exact hs
          rcases h.stored s hs0 with ⟨hne, _⟩ | ⟨h1, h2, m, h3⟩
          · exact absurd hc hne
          · obtain ⟨c1, c2⟩ := hclosed s hs0 h2
            exact ⟨h1, c1, m, by rw [c2]; exact h3⟩
        · left
          have := paragraphStart_lt _ s hs
          rw [hlen] at this
          exact ⟨by simp, by simp only []; omega⟩
      · intro k hk
        exact hkeys k (h.keys k hk)
    · -- a paragraph goes on
      have e : textStep path (itoa N).length st pre.length line =
          ⟨st.doc, st.curLine ++ (line ++ [10]), st.lastNewLine⟩ := by
        simp [textStep, hb, hc]
      rw [e]
      obtain ⟨i1, i2, i3, i4, i5⟩ := h.inside hc
      have hL := paragraphStart_lt pre _ i3
      refine ⟨?_, ?_, ?_, ?_, ?_⟩
      · intro hne
        simp at hne
      · intro _
        refine ⟨?_, by simp, hup _ i3, ?_, ?_⟩
        · rw [hlen, Nat.add_sub_cancel, blankAt_append_length]
          simp [hb]
        · simp only []
          rw [hdrop _ (le_of_lt hL)]
          intro l hl
          rcases List.mem_append.mp hl with m | m
          · exact i4 l m
          · simp only [List.mem_singleton] at m
            rw [m]
            exact hb
        · simp only []
          rw [hdrop _ (le_of_lt hL), paragraphBuffer_open _ _ i4, i5]
          simp [paragraphBuffer, hb]
      · exact Or.inr (hup _ i3)
      · intro s hs
        have hs1 : s < pre.length := by
          have := paragraphStart_lt _ s hs
          rw [hlen] at this
          by_contra hge
          have e2 : s = pre.length := by omega
          rw [e2, paragraphStart_append_length] at hs
          have h0 : ¬ pre.length = 0 := i2
          simp [hb, i1, h0] at hs
        have hs0 : paragraphStart pre s = true := by rw [← hold s hs1]; exact hs
        rcases h.stored s hs0 with ⟨_, hsl⟩ | ⟨h1, h2, m, h3⟩
        · left
          exact ⟨by simp [hc], hsl⟩
        · right
          obtain ⟨c1, c2⟩ := hclosed s hs0 h2
          exact ⟨h1, c1, m, by rw [c2]; exact h3⟩
      · intro k hk
        exact hkeys k (h.keys k hk)

theorem textLoop_inv (path : Str) (N : Nat) : ∀ (rest pre : List Str) (st : TextState),
    pre.length + rest.length = N → SegInv path (itoa N).length pre st →
    SegInv path (itoa N).length (pre ++ rest)
      (textLoop path (itoa N).length st pre.length rest) := by
  intro rest
  induction rest with
  | nil =>
    intro pre st _ h
    simpa [textLoop] using h
  | cons line rest ih =>
    intro pre st hN h
    simp only [List.length_cons] at hN
    have h1 := textStep_inv path N pre st line (by omega) h
    have h2 := ih (pre ++ [line]) _ (by simp; omega) h1
    simp only [List.length_append, List.length_singleton, List.append_assoc,
      List.singleton_append] at h2
    simpa [textLoop] using h2

/-- The entries of `TextToMap` and the paragraphs of the text: every key is the key of
line 0 or of a line where a paragraph starts, and a paragraph that starts at line `s`
has the key of `s`, bound to its buffer (the last paragraph, when no blank line follows
it) or to its trimmed buffer and the newlines of the blank run after it. -/
theorem TextToMap_paragraphs (text path : Str) :
    (∀ k ∈ (TextToMap text path).map Prod.fst,
      ∃ n, k = lineKey path (itoa (split text [10]).length).length n ∧
        (n = 0 ∨ paragraphStart (split text [10]) n = true)) ∧
    ∀ s, paragraphStart (split text [10]) s = true →
      (TextToMap text path).has (lineKey path (itoa (split text [10]).length).length s) = true ∧
      ((TextToMap text path).get (lineKey path (itoa (split text [10]).length).length s) =
          paragraphBuffer ((split text [10]).drop s) ∨
        ∃ m, (TextToMap text path).get
            (lineKey path (itoa (split text [10]).length).length s) =
          trimSpace (paragraphBuffer ((split text [10]).drop s)) ++ List.replicate m 10) := by
  have h := textLoop_inv path (split text [10]).length (split text [10]) [] ⟨[], [], 0⟩
    (by simp) (segInv_init path _)
  simp only [List.nil_append, List.length_nil] at h
  unfold TextToMap
  simp only []
  generalize textLoop path (itoa (split text [10]).length).length ⟨[], [], 0⟩ 0
    (split text [10]) = st at h
  by_cases hc : st.curLine = []
  · rw [if_neg (by simpa using hc)]
    refine ⟨h.keys, ?_⟩
    intro s hs
    rcases h.stored s hs with ⟨hne, _⟩ | ⟨h1, _, m, h3⟩
    · exact absurd hc hne
    · exact ⟨h1, Or.inr ⟨m, h3⟩⟩
  · rw [if_pos hc]
    obtain ⟨i1, i2, i3, i4, i5⟩ := h.inside hc
    constructor
    · intro k hk
      rcases (mem_keys_set _ _ _ _).mp hk with e1 | e1
      · exact ⟨st.lastNewLine, e1, Or.inr i3⟩
      · exact h.keys k e1
    · intro s hs
      by_cases hk : lineKey path (itoa (split text [10]).length).length s =
          lineKey path (itoa (split text [10]).length).length st.lastNewLine
      · have hsL : s = st.lastNewLine :=
          lineKey_inj path _ s st.lastNewLine (paragraphStart_lt _ _ hs)
            (paragraphStart_lt _ _ i3) hk
        subst hsL
        exact ⟨by simp [has_set], Or.inl (by rw [get_set, if_pos rfl, i5])⟩
      · rcases h.stored s hs with ⟨_, hsl⟩ | ⟨h1, _, m, h3⟩
        · exact absurd (by rw [hsl]) hk
        · exact ⟨by simp only [has_set, h1, Bool.or_true],
            Or.inr ⟨m, by rw [get_set, if_neg hk, h3]⟩⟩

/-! ## The lines of a walk that goes on after a replaced paragraph -/

theorem keyAt_mem (keys : List Str) (j : Nat) (h : j < keys.length) : keyAt keys j ∈ keys := by
  unfold keyAt
  cases hg : keys.get? j with
  | none =>
    rw [List.get?_eq_none] at hg
    omega
  | some x => exact List.get?_mem hg

theorem bisectPanics_iff (a b : Str) :
    bisectPanics a b = true ↔ runeCount a + runeCount b ≤ 2 := by
  unfold bisectPanics
  simp only [decide_eq_true_eq]
  omega

/-- The classification of a replaced paragraph that is not the first: two texts of
`n ≥ 2` runes each at distance `n` give a deletion line for the old key and a pending
insertion for the new text. -/
theorem classify_large (dist : Str → Str → Nat) (i : Nat)
    (k previousKey nextKey oldText oldLine newLine : Str) (n : Nat)
    (hn : 2 ≤ n) (hold : runeCount oldLine = n) (hnew : runeCount newLine = n)
    (hdist : dist oldLine newLine = n) (hi : i ≠ 0) :
    classify dist i k previousKey nextKey oldText oldLine newLine =
      some [⟨k, previousKey, nextKey, oldText, []⟩, ⟨[], previousKey, nextKey, [], newLine⟩] := by
  have hb : bisectPanics oldLine newLine = false := by
    cases h : bisectPanics oldLine newLine with
    | false => rfl
    | true =>
      rw [bisectPanics_iff] at h
      omega
  unfold classify
  simp only [hb, Bool.false_eq_true, if_false, hold, hnew, hdist, max_self, min_self,
    Nat.sub_self, Nat.zero_add]
  have h1 : ¬ (n < n / 2 ∨ i = 0) := by
    intro h
    rcases h with h | h
    · omega
    · exact hi h
  rw [if_neg h1]

/-- With texts of one rune each the call of `DiffBisect` panics. -/
theorem classify_short (dist : Str → Str → Nat) (i : Nat)
    (k previousKey nextKey oldText oldLine newLine : Str)
    (h : runeCount oldLine + runeCount newLine ≤ 2) :
    classify dist i k previousKey nextKey oldText oldLine newLine = none := by
  unfold classify
  rw [if_pos ((bisectPanics_iff _ _).mpr h)]

theorem walkStep_classify (docPrevVersion : GoMap) (spans : List Diff) (dist : Str → Str → Nat)
    (i : Nat) (k previousKey nextKey : Str) (st : WalkState) (d : Diff) (ls : List diffLine)
    (hd : spans.get? st.diffI = some d)
    (hins : ¬ (endsWith d.Text sep = true ∧ d.Op = DiffInsert))
    (htext : docPrevVersion.get k ++ sep ≠ d.Text)
    (hgood : (walkAcc docPrevVersion spans k st).correctLine = true ∧
      trimSpace (walkAcc docPrevVersion spans k st).oldLineRight = [] ∧
      trimSpace (trimEnd (walkAcc docPrevVersion spans k st).newLine sep) =
        trimSpace (walkAcc docPrevVersion spans k st).oldLineLeft)
    (hc : classify dist i k previousKey nextKey (docPrevVersion.get k)
      (st.leftoverTextNs ++ docPrevVersion.get k)
      (trimEnd (walkAcc docPrevVersion spans k st).newLine sep) = some ls) :
    ∃ st1, walkStep docPrevVersion spans dist i k previousKey nextKey st = Outcome.next st1 ∧
      st1.lines = st.lines ++ ls := by
  unfold walkStep
  simp only [hd]
  rw [if_neg hins, if_neg (fun h => htext h.1), if_neg (fun h => htext h.1)]
  unfold walkGeneral
  simp only []
  unfold walkAcc at hgood hc
  have hnb : ¬ ((accumulate (spans.drop st.diffI)
      ⟨st.leftoverDiffNs, [], st.leftoverTextNs ++ docPrevVersion.get k ++ sep, true,
        st.diffI⟩).correctLine = false ∨
      trimSpace (accumulate (spans.drop st.diffI)
        ⟨st.leftoverDiffNs, [], st.leftoverTextNs ++ docPrevVersion.get k ++ sep, true,
          st.diffI⟩).oldLineRight ≠ [] ∨
      trimSpace (trimEnd (accumulate (spans.drop st.diffI)
        ⟨st.leftoverDiffNs, [], st.leftoverTextNs ++ docPrevVersion.get k ++ sep, true,
          st.diffI⟩).newLine sep) ≠
        trimSpace (accumulate (spans.drop st.diffI)
          ⟨st.leftoverDiffNs, [], st.leftoverTextNs ++ docPrevVersion.get k ++ sep, true,
            st.diffI⟩).oldLineLeft) := by
    rintro (h | h | h)
    · rw [hgood.1] at h
      cases h
    · exact h hgood.2.1
    · exact h hgood.2.2
  rw [if_neg hnb, hc]
  exact ⟨_, rfl, rfl⟩

/-- The lines of the first iteration of the walk, when it does not begin with an
inserted paragraph: they have the first key. -/
theorem walkStep_first (docPrevVersion : GoMap) (spans : List Diff) (dist : Str → Str → Nat)
    (k previousKey nextKey : Str) (st st1 : WalkState)
    (hfirst : ∀ d, spans.get? st.diffI = some d →
      ¬ (endsWith d.Text sep = true ∧ d.Op = DiffInsert))
    (h : walkStep docPrevVersion spans dist 0 k previousKey nextKey st = Outcome.next st1) :
    ∃ ls, st1.lines = st.lines ++ ls ∧ ∀ l ∈ ls, l.Key = k := by
  unfold walkStep at h
  split at h
  · cases h
  · rename_i d hd
    have c1 := hfirst d hd
    rw [if_neg c1] at h
    split_ifs at h with c2 c3
    · simp only [Outcome.next.injEq] at h
      subst h
      exact ⟨_, rfl, by simp⟩
    · simp only [Outcome.next.injEq] at h
      subst h
      exact ⟨_, rfl, by simp⟩
    · unfold walkGeneral at h
      simp only [] at h
      split_ifs at h
      split at h
      · cases h
      · rename_i ls hc
        simp only [Outcome.next.injEq] at h
        subst h
        refine ⟨ls, rfl, ?_⟩
        unfold classify at hc
        simp only [or_true, if_true] at hc
        split_ifs at hc <;> simp only [Option.some.injEq] at hc <;> subst hc <;> simp

theorem walkTo_shape (docPrevVersion : GoMap) (spans : List Diff) (dist : Str → Str → Nat)
    (keys : List Str) : ∀ (done : List Str) (i : Nat) (st st1 : WalkState),
    walkTo docPrevVersion spans dist keys i done st = some st1 → 0 < i →
    i + done.length ≤ keys.length →
    ∃ more, st1.lines = st.lines ++ more ∧
      ∀ l ∈ more, (l.Key = [] ∨ l.Key ∈ done) ∧ l.PreviousKey ∈ keys ∧
        (l.NextKey = [] ∨ l.NextKey ∈ keys ∨ l.NextKey ∈ done) := by
  intro done
  induction done with
  | nil =>
    intro i st st1 h _ _
    simp only [walkTo, Option.some.injEq] at h
    subst h
    exact ⟨[], by simp, by simp⟩
  | cons k done ih =>
    intro i st st1 h hi hlen
    simp only [walkTo] at h
    simp only [List.length_cons] at hlen
    cases hw : walkStep docPrevVersion spans dist i k
      (if i > 0 then keyAt keys (i - 1) else [])
      (if i < keys.length - 1 then keyAt keys (i + 1) else []) st with
    | panic => simp [hw] at h
    | stop st2 => simp [hw] at h
    | next st2 =>
      simp only [hw] at h
      obtain ⟨ls, e, hls⟩ := walkStep_lines _ _ _ _ _ _ _ _ _ hw
      obtain ⟨more, e2, hm⟩ := ih (i + 1) st2 st1 h (by omega) (by omega)
      refine ⟨ls ++ more, by rw [e2, e, List.append_assoc], ?_⟩
      intro l hl
      rcases List.mem_append.mp hl with m | m
      · obtain ⟨a1, a2, a3⟩ := hls l m
        refine ⟨?_, ?_, ?_⟩
        · rcases a1 with a1 | a1
          · exact Or.inr (by rw [a1]; exact List.mem_cons_self _ _)
          · exact Or.inl a1
        · rw [a2, if_pos hi]
          exact keyAt_mem keys (i - 1) (by omega)
        · rcases a3 with a3 | a3
          · rw [a3]
            by_cases hc : i < keys.length - 1
            · rw [if_pos hc]
              exact Or.inr (Or.inl (keyAt_mem keys (i + 1) (by omega)))
            · rw [if_neg hc]
              exact Or.inl rfl
          · exact Or.inr (Or.inr (by rw [a3]; exact List.mem_cons_self _ _))
      · obtain ⟨a1, a2, a3⟩ := hm l m
        refine ⟨a1.imp id (List.mem_cons_of_mem _), a2, ?_⟩
        rcases a3 with a3 | a3 | a3
        · exact Or.inl a3
        · exact Or.inr (Or.inl a3)
        · exact Or.inr (Or.inr (List.mem_cons_of_mem _ a3))

/-- A walk that returns has gone on through some of the keys and then ended or
stopped. -/
theorem walkLoop_some (docPrevVersion : GoMap) (spans : List Diff) (dist : Str → Str → Nat)
    (keys : List Str) : ∀ (rest : List Str) (i : Nat) (st : WalkState) (lines : List diffLine),
    walkLoop docPrevVersion spans dist keys i rest st = some lines →
    ∃ done tail st1, rest = done ++ tail ∧
      walkTo docPrevVersion spans dist keys i done st = some st1 ∧ lines = st1.lines := by
  intro rest
  induction rest with
  | nil =>
    intro i st lines h
    simp only [walkLoop, Option.some.injEq] at h
    exact ⟨[], [], st, rfl, rfl, h.symm⟩
  | cons k rest ih =>
    intro i st lines h
    simp only [walkLoop] at h
    have hs := walkStep_live docPrevVersion spans dist i k
      (if i > 0 then keyAt keys (i - 1) else [])
      (if i < keys.length - 1 then keyAt keys (i + 1) else []) st
    cases hw : walkStep docPrevVersion spans dist i k
      (if i > 0 then keyAt keys (i - 1) else [])
      (if i < keys.length - 1 then keyAt keys (i + 1) else []) st with
    | panic => simp [hw] at h
    | stop st2 =>
      simp only [hw, Option.some.injEq] at h hs
      exact ⟨[], k :: rest, st, rfl, rfl, by rw [← h, hs]⟩
    | next st2 =>
      simp only [hw] at h
      obtain ⟨done, tail, st1, e1, e2, e3⟩ := ih (i + 1) st2 lines h
      refine ⟨k :: done, tail, st1, by rw [e1]; rfl, ?_, e3⟩
      simp only [walkTo, hw]
      exact e2

/-- The last loop comes to the lines after `front` when no pending insertion of
`front` has an empty previous bracket. -/
theorem emitLoop_reaches : ∀ (front : List diffLine) (lTree : lexTree) (usedKeys : List Str)
    (docNew : GoMap) (back : List diffLine) (r : GoMap × List Str),
    emitLoop lTree usedKeys docNew (front ++ back) = some r →
    (∀ l ∈ front, l.Key = [] → l.PreviousKey ≠ []) → asciiBrackets front →
    ∃ lTree1 usedKeys1 docNew1, emitLoop lTree1 usedKeys1 docNew1 back = some r ∧
      ∀ y, hasPath lTree y = true → hasPath lTree1 y = true := by
  intro front
  induction front with
  | nil =>
    intro lTree usedKeys docNew back r h _ _
    exact ⟨lTree, usedKeys, docNew, h, fun _ hy => hy⟩
  | cons l front ih =>
    intro lTree usedKeys docNew back r h hp ha
    have hp' : ∀ l' ∈ front, l'.Key = [] → l'.PreviousKey ≠ [] :=
      fun l' hl' => hp l' (List.mem_cons_of_mem _ hl')
    have ha' : asciiBrackets front := fun l' hl' => ha l' (List.mem_cons_of_mem _ hl')
    simp only [List.cons_append, emitLoop] at h
    by_cases h1 : l.NewLine = []
    · simp only [h1, if_true] at h
      exact ih _ _ _ _ _ h hp' ha'
    · simp only [h1, if_false] at h
      by_cases h2 : l.Key = []
      · simp only [h2, if_true] at h
        have h3 := hp l (List.mem_cons_self _ _) h2
        simp only [h3, if_false] at h
        cases hf : lTree.findNewBetween l.PreviousKey l.NextKey with
        | none => simp [hf] at h
        | some res =>
          obtain ⟨key, lTree1⟩ := res
          simp only [hf] at h
          obtain ⟨hb1, hb2⟩ := ha l (List.mem_cons_self _ _) h2
          obtain ⟨_, _, _, _, f5⟩ :=
            findNewBetween_fresh (sizeOf lTree) lTree _ _ key lTree1 (le_refl _) hb1 hb2 hf
          obtain ⟨t, u, dn, e1, e2⟩ := ih _ _ _ _ _ h hp' ha'
          exact ⟨t, u, dn, e1, fun y hy => e2 y (hasPath_Add_mono key lTree1 y (f5 y hy))⟩
      · simp only [h2, if_false] at h
        exact ih _ _ _ _ _ h hp' ha'

/-- The last loop at a pending insertion with a non-empty text and a non-empty
previous bracket: the text is bound to the key that `findNewBetween` returns, which is
not in the trie, and the lines after it leave the binding alone. -/
theorem emitLoop_pending (lTree : lexTree) (usedKeys : List Str) (docNew : GoMap)
    (previousKey nextKey newLine : Str) (back : List diffLine) (r : GoMap × List Str)
    (hp : previousKey ≠ []) (hnl : newLine ≠ [])
    (hap : isAscii previousKey = true) (han : isAscii nextKey = true)
    (hback : ∀ l ∈ back, l.Key ≠ [] → hasPath lTree l.Key = true) (ha : asciiBrackets back)
    (h : emitLoop lTree usedKeys docNew (⟨[], previousKey, nextKey, [], newLine⟩ :: back) =
      some r) :
    ∃ key, hasPath lTree key = false ∧ key ≠ [] ∧ r.1.get key = newLine ∧
      r.1.has key = true := by
  simp only [emitLoop, hnl, if_false, if_true, hp] at h
  cases hf : lTree.findNewBetween previousKey nextKey with
  | none => simp [hf] at h
  | some res =>
    obtain ⟨key, lTree1⟩ := res
    simp only [hf] at h
    obtain ⟨f1, _, _, f4, f5⟩ :=
      findNewBetween_fresh (sizeOf lTree) lTree _ _ key lTree1 (le_refl _) hap han hf
    have hrkey : ∀ l ∈ back, l.Key = key → l.NewLine = [] := by
      intro l hl e
      exfalso
      by_cases hl0 : l.Key = []
      · exact f4 (by rw [← e, hl0])
      · have := hback l hl hl0
        rw [e, f1] at this
        cases this
    obtain ⟨j1, j2⟩ := emitLoop_untouched key back _ _ _ r
      (hasPath_Add_self key lTree1) hrkey ha h
    refine ⟨key, f1, f4, ?_, ?_⟩
    · rw [j1, get_set]
      simp
    · rw [j2, has_set]
      simp



/-- A one-rune paragraph replaced by another one-rune text: old snapshot
`{A: "Foo", B: "x"}`, new text `"Foo\n\ny\n\n"`, script `[Equal "Foo\n\n", Delete "x",
Insert "y", Equal "\n\n"]`: at `B` the two texts have 2 runes together, the call of
`DiffBisect` panics and nothing is classified. -/
theorem one_rune_edit_panics :
    WithPreservedKeysAndOrder
        (fun _ _ => [⟨DiffEqual, bytes "Foo\n\n"⟩, ⟨DiffDelete, bytes "x"⟩,
          ⟨DiffInsert, bytes "y"⟩, ⟨DiffEqual, bytes "\n\n"⟩])
        (fun _ _ => 1) (bytes "Foo\n\ny\n\n") (bytes "p")
        (some [(bytes "A", bytes "Foo"), (bytes "B", bytes "x")]) [bytes "A", bytes "B"] =
      none := by
  set_option maxRecDepth 100000 in
  decide

/-- A replaced paragraph between non-ASCII keys: old snapshot
`{p:a: "Foo", p:Â: "Bar", p:Ã: "Baz"}`, new text `"Foo\n\nQux\n\nBaz\n\n"`, script
`[Equal "Foo\n\n", Delete "Bar", Insert "Qux", Equal "\n\nBaz\n\n"]`, distance 3: the
key minted for `"Qux"` between `p:a` and `p:Ã` is `p:Â`, the key of the replaced
paragraph, which so stays in the snapshot with the new text. -/
theorem large_edit_non_ascii_example :
    WithPreservedKeysAndOrder
        (fun _ _ => [⟨DiffEqual, bytes "Foo\n\n"⟩, ⟨DiffDelete, bytes "Bar"⟩,
          ⟨DiffInsert, bytes "Qux"⟩, ⟨DiffEqual, bytes "\n\nBaz\n\n"⟩])
        (fun _ _ => 3) (bytes "Foo\n\nQux\n\nBaz\n\n") (bytes "p")
        (some [(bytes "p:a", bytes "Foo"), (bytes "p:Â", bytes "Bar"),
          (bytes "p:Ã", bytes "Baz")])
        [bytes "p:a", bytes "p:Â", bytes "p:Ã"] =
      some ⟨[(bytes "p:a", bytes "Foo"), (bytes "p:Â", bytes "Qux"),
          (bytes "p:Ã", bytes "Baz")],
        [bytes "p:a", bytes "p:Â", bytes "p:Â", bytes "p:Ã"]⟩ := by
  set_option maxRecDepth 100000 in
  decide

/-- A replaced paragraph after an inserted first paragraph: old snapshot
`{A: "Bar", B: "Bar", C: "Bar"}`, new text `"New\n\nBar\n\nQux\n\nBar\n\n"`, script
`[Insert "New\n\n", Equal "Bar\n\n", Delete "Bar", Insert "Qux", Equal "\n\nBar\n\n"]`,
distance 0 between equal texts and 3 otherwise: the walk classifies `C` as
delete+insert, but the last loop stops at the line of `"New"`, which has an empty
previous bracket, and `"Qux"` is bound to no key. -/
theorem large_edit_after_top_insertion_example :
    walk [(bytes "A", bytes "Bar"), (bytes "B", bytes "Bar"), (bytes "C", bytes "Bar")]
        [⟨DiffInsert, bytes "New\n\n"⟩, ⟨DiffInsert, []⟩, ⟨DiffEqual, bytes "Bar\n\n"⟩,
          ⟨DiffEqual, []⟩, ⟨DiffDelete, bytes "Bar"⟩, ⟨DiffInsert, bytes "Qux"⟩,
          ⟨DiffEqual, bytes "\n\n"⟩, ⟨DiffEqual, bytes "Bar\n\n"⟩, ⟨DiffEqual, []⟩]
        (fun a b => if a = b then 0 else 3) =
      some [⟨[], [], bytes "A", [], bytes "New"⟩,
        ⟨bytes "B", bytes "A", bytes "C", bytes "Bar", bytes "Bar"⟩,
        ⟨bytes "C", bytes "B", [], bytes "Bar", []⟩,
        ⟨[], bytes "B", [], [], bytes "Qux"⟩] ∧
    WithPreservedKeysAndOrder
        (fun _ _ => [⟨DiffInsert, bytes "New\n\n"⟩, ⟨DiffEqual, bytes "Bar\n\n"⟩,
          ⟨DiffDelete, bytes "Bar"⟩, ⟨DiffInsert, bytes "Qux"⟩,
          ⟨DiffEqual, bytes "\n\nBar\n\n"⟩])
        (fun a b => if a = b then 0 else 3) (bytes "New\n\nBar\n\nQux\n\nBar\n\n")
        (bytes "p")
        (some [(bytes "A", bytes "Bar"), (bytes "B", bytes "Bar"), (bytes "C", bytes "Bar")])
        [bytes "A", bytes "B", bytes "C"] =
      some ⟨[], [bytes "B", bytes "C"]⟩ := by
  constructor
  · set_option maxRecDepth 100000 in
    decide
  · set_option maxRecDepth 100000 in
    decide

/-! # The claims -/

/-- C1, as stated, fails below the floor byte `'0'`. The index itself hands out such a
key: with `"a"` and `"a0"` stored, `findNewBetween("a", "a0")` is `"a/"`. With `"a"` and
`"a/"` stored and `"a" < "a/"`, `findNewBetween("a", "a/")` is `"a/z"`, which is not
below `"a/"`. -/
theorem between_fails_below_floor :
    (findNewBetween ((empty.Add (bytes "a")).Add (bytes "a0")) (bytes "a") (bytes "a0")).map
        Prod.fst = some (bytes "a/") ∧
      contains ((empty.Add (bytes "a")).Add (bytes "a/")) (bytes "a") = true ∧
      contains ((empty.Add (bytes "a")).Add (bytes "a/")) (bytes "a/") = true ∧
      strLt (bytes "a") (bytes "a/") = true ∧
      (findNewBetween ((empty.Add (bytes "a")).Add (bytes "a/")) (bytes "a") (bytes "a/")).map
        Prod.fst = some (bytes "a/z") ∧
      strLt (bytes "a/z") (bytes "a/") = false := by
  set_option maxRecDepth 100000 in
  refine ⟨?_, ?_, ?_, ?_, ?_, ?_⟩ <;> decide

/-- C1, amended: for every pair of ASCII keys `a < b` (byte order) that are both stored
in the index, where `b` does not continue `a` with a byte below `'0'`,
`findNewBetween(a, b)` returns a key `k` with `a < k < b`. -/
theorem findNewBetween_between (t : lexTree) (a b : Str)
    (ha : isAscii a = true) (hb : isAscii b = true)
    (hsa : t.contains a = true) (hsb : t.contains b = true)
    (hlt : strLt a b = true) (hfloor : extendsBelowFloor a b = false) :
    ∃ k t', t.findNewBetween a b = some (k, t') ∧ strLt a k = true ∧ strLt k b = true := by
  have _ := hsb
  exact findNewBetween_inside a t b ha hb (contains_hasPath a t hsa) hlt
    (floor_of_extendsBelowFloor hfloor)

/-- C1, amended, at the keys `"p:1" < "p:2"` of a two-key index. -/
theorem findNewBetween_between_witness :
    isAscii (bytes "p:1") = true ∧ isAscii (bytes "p:2") = true ∧
      ((empty.Add (bytes "p:1")).Add (bytes "p:2")).contains (bytes "p:1") = true ∧
      ((empty.Add (bytes "p:1")).Add (bytes "p:2")).contains (bytes "p:2") = true ∧
      strLt (bytes "p:1") (bytes "p:2") = true ∧
      extendsBelowFloor (bytes "p:1") (bytes "p:2") = false ∧
      ∃ k t', ((empty.Add (bytes "p:1")).Add (bytes "p:2")).findNewBetween (bytes "p:1")
          (bytes "p:2") = some (k, t') ∧
        strLt (bytes "p:1") k = true ∧ strLt k (bytes "p:2") = true :=
  ⟨by decide, by decide, by decide, by decide, by decide, by decide,
    findNewBetween_between ((empty.Add (bytes "p:1")).Add (bytes "p:2")) (bytes "p:1")
      (bytes "p:2") (by decide) (by decide) (by decide) (by decide) (by decide) (by decide)⟩

/-- C2 does not hold on the code. Old snapshot `{p:0: "Foo", p:2: "Baz"}`, new text
`"Foo\n\nBar\n\nBaz\n\n"`. Whatever the differ and the distance return, the result has
at most two entries, so the three paragraphs of the new text cannot all be there. For
the script `[Equal "Foo\n\n", Insert "Bar\n\n", Equal "Baz\n\n"]` and for the script
`[Equal "Foo\n\nBa", Insert "r\n\nBa", Equal "z\n\n"]` the result is `{p:0: "Foo"}`:
`"Bar"` and `"Baz"` are missing. -/
theorem order_invariant_fails_on_insertion :
    (∀ (bisect : Str → Str → List Diff) (dist : Str → Str → Nat),
      match WithPreservedKeysAndOrder bisect dist (bytes "Foo\n\nBar\n\nBaz\n\n") (bytes "p")
          (some [(bytes "p:0", bytes "Foo"), (bytes "p:2", bytes "Baz")])
          [bytes "p:0", bytes "p:2"] with
      | none => True
      | some d => d.Doc.length ≤ 2) ∧
    (∀ dist : Str → Str → Nat,
      WithPreservedKeysAndOrder
          (fun _ _ => [⟨DiffEqual, bytes "Foo\n\n"⟩, ⟨DiffInsert, bytes "Bar\n\n"⟩,
            ⟨DiffEqual, bytes "Baz\n\n"⟩])
          dist (bytes "Foo\n\nBar\n\nBaz\n\n") (bytes "p")
          (some [(bytes "p:0", bytes "Foo"), (bytes "p:2", bytes "Baz")])
          [bytes "p:0", bytes "p:2"] =
        some ⟨[(bytes "p:0", bytes "Foo")], [bytes "p:0"]⟩) ∧
    (∀ dist : Str → Str → Nat,
      WithPreservedKeysAndOrder
          (fun _ _ => [⟨DiffEqual, bytes "Foo\n\nBa"⟩, ⟨DiffInsert, bytes "r\n\nBa"⟩,
            ⟨DiffEqual, bytes "z\n\n"⟩])
          dist (bytes "Foo\n\nBar\n\nBaz\n\n") (bytes "p")
          (some [(bytes "p:0", bytes "Foo"), (bytes "p:2", bytes "Baz")])
          [bytes "p:0", bytes "p:2"] =
        some ⟨[(bytes "p:0", bytes "Foo")], [bytes "p:0"]⟩) := by
  refine ⟨?_, ?_, ?_⟩
  · intro bisect dist
    cases h : WithPreservedKeysAndOrder bisect dist (bytes "Foo\n\nBar\n\nBaz\n\n") (bytes "p")
        (some [(bytes "p:0", bytes "Foo"), (bytes "p:2", bytes "Baz")])
        [bytes "p:0", bytes "p:2"] with
    | none => trivial
    | some d => exact general_case_size bisect dist _ _ _ _ d (by decide) h
  · intro dist
    set_option maxRecDepth 100000 in
    rfl
  · intro dist
    set_option maxRecDepth 100000 in
    rfl

/-- C3 does not hold on the code. Old snapshot `{p:0: "Hello\n\n", p:4: "World"}`,
new text its own rendering `"Hello\n\n\n\nWorld\n\n"`, the differ returning the
all-Equal script: the result is `{p:0: "Hello\n\n"}`, and `p:4` with `"World"` is
gone from the snapshot and from the retained keys. -/
theorem stability_fails_on_blank_run :
    MapToText [(bytes "p:0", bytes "Hello\n\n"), (bytes "p:4", bytes "World")] =
        bytes "Hello\n\n\n\nWorld\n\n" ∧
    ∀ dist : Str → Str → Nat,
      WithPreservedKeysAndOrder (fun prevText _ => [⟨DiffEqual, prevText⟩]) dist
          (MapToText [(bytes "p:0", bytes "Hello\n\n"), (bytes "p:4", bytes "World")])
          (bytes "p")
          (some [(bytes "p:0", bytes "Hello\n\n"), (bytes "p:4", bytes "World")])
          [bytes "p:0", bytes "p:4"] =
        some ⟨[(bytes "p:0", bytes "Hello\n\n")], [bytes "p:0"]⟩ := by
  refine ⟨by decide, ?_⟩
  intro dist
  have hn : normalize [⟨DiffEqual,
      MapToText [(bytes "p:0", bytes "Hello\n\n"), (bytes "p:4", bytes "World")]⟩] =
      some [⟨DiffEqual, bytes "Hello\n\n"⟩, ⟨DiffEqual, bytes "\n\n"⟩,
        ⟨DiffEqual, bytes "World\n\n"⟩, ⟨DiffEqual, []⟩] := by
    set_option maxRecDepth 100000 in
    decide
  have hs : walkStep [(bytes "p:0", bytes "Hello\n\n"), (bytes "p:4", bytes "World")]
      [⟨DiffEqual, bytes "Hello\n\n"⟩, ⟨DiffEqual, bytes "\n\n"⟩,
        ⟨DiffEqual, bytes "World\n\n"⟩, ⟨DiffEqual, []⟩] dist 0 (bytes "p:0") [] (bytes "p:4")
      ⟨0, [], [], []⟩ =
      Outcome.next ⟨1, [⟨bytes "p:0", [], bytes "p:4", bytes "Hello\n\n", bytes "Hello\n\n"⟩],
        [], bytes "\n\n"⟩ := by
    have h : walkStep [(bytes "p:0", bytes "Hello\n\n"), (bytes "p:4", bytes "World")]
        [⟨DiffEqual, bytes "Hello\n\n"⟩, ⟨DiffEqual, bytes "\n\n"⟩,
          ⟨DiffEqual, bytes "World\n\n"⟩, ⟨DiffEqual, []⟩] dist 0 (bytes "p:0") []
        (bytes "p:4") ⟨0, [], [], []⟩ =
        (match classify dist 0 (bytes "p:0") [] (bytes "p:4") (bytes "Hello\n\n")
            (bytes "Hello\n\n") (bytes "Hello") with
          | none => Outcome.panic
          | some ls => Outcome.next ⟨1, [] ++ ls, [], bytes "\n\n"⟩) := by
      set_option maxRecDepth 100000 in
      rfl
    rw [h, classify_zero _ _ _ _ _ _ _ (by decide)]
    set_option maxRecDepth 100000 in
    rfl
  have hw : walk [(bytes "p:0", bytes "Hello\n\n"), (bytes "p:4", bytes "World")]
      [⟨DiffEqual, bytes "Hello\n\n"⟩, ⟨DiffEqual, bytes "\n\n"⟩,
        ⟨DiffEqual, bytes "World\n\n"⟩, ⟨DiffEqual, []⟩] dist =
      some [⟨bytes "p:0", [], bytes "p:4", bytes "Hello\n\n", bytes "Hello\n\n"⟩] := by
    show walkLoop _ _ dist [bytes "p:0", bytes "p:4"] 0 [bytes "p:0", bytes "p:4"]
      ⟨0, [], [], []⟩ = _
    rw [walkLoop_next _ _ _ _ _ _ _ _ _ hs]
    set_option maxRecDepth 100000 in
    rfl
  rw [run_of_walk _ dist _ _ _ _ _ _ (by decide) (by decide) hn hw]
  set_option maxRecDepth 100000 in
  decide

/-- C4 does not hold on the code. With `"p:a"` and `"p:Â"` stored,
`findNewBetween("p:a", "p:Â")` returns `"p:Â"`, a key that is already stored: the
candidate byte 0xC2 is turned into a string by `string(minDepthI)`, which is the two
bytes 0xC3 0x82. -/
theorem freshness_fails_on_non_ascii :
    bytes "p:Â" = [112, 58, 195, 130] ∧
    contains ((empty.Add (bytes "p:a")).Add (bytes "p:Â")) (bytes "p:Â") = true ∧
    (findNewBetween ((empty.Add (bytes "p:a")).Add (bytes "p:Â")) (bytes "p:a")
      (bytes "p:Â")).map Prod.fst = some (bytes "p:Â") := by
  set_option maxRecDepth 100000 in
  refine ⟨?_, ?_, ?_⟩ <;> decide

/-- C5: when the previous snapshot is nil, or the previous snapshot and the previous
retained-key set are both empty, `WithPreservedKeysAndOrder` returns, whatever the
differ would answer, `Doc = TextToMap(newText, path)`; when the previous retained-key
set is empty, `UsedKeys` is the list of the keys of that snapshot, in ascending order. -/
theorem no_history_delegation (bisect : Str → Str → List Diff) (dist : Str → Str → Nat)
    (newText path : Str) (docPrevVersion : Option GoMap) (usedKeys : List Str)
    (h : docPrevVersion = none ∨ (docPrevVersion = some [] ∧ usedKeys = [])) :
    ∃ d, WithPreservedKeysAndOrder bisect dist newText path docPrevVersion usedKeys = some d ∧
      d.Doc = TextToMap newText path ∧
      (usedKeys = [] →
        d.UsedKeys = getKeys (TextToMap newText path) ∧
        d.UsedKeys = (TextToMap newText path).map Prod.fst ∧ Ascending d.UsedKeys) := by
  have hk : ∀ uk : List Str, uk = [] →
      (noHistory newText path [] uk).UsedKeys = getKeys (TextToMap newText path) ∧
      (noHistory newText path [] uk).UsedKeys = (TextToMap newText path).map Prod.fst ∧
      Ascending (noHistory newText path [] uk).UsedKeys := by
    intro uk huk
    subst huk
    have hs := sortStrings_of_ascending _ (ascending_TextToMap newText path)
    simp only [noHistory, keysPrefix, List.nil_append, getKeys, hs, true_and]
    exact ascending_TextToMap newText path
  rcases h with h | ⟨h, hu⟩
  · subst h
    exact ⟨noHistory newText path [] usedKeys, rfl, rfl, hk usedKeys⟩
  · subst h
    subst hu
    exact ⟨noHistory newText path [] [], rfl, rfl, hk []⟩

/-- C5 for a first run on the text `"Hello"`: no previous snapshot, no retained keys. -/
theorem no_history_delegation_witness :
    ∃ d, WithPreservedKeysAndOrder (fun _ _ => []) (fun _ _ => 0) (bytes "Hello") (bytes "p")
        none [] = some d ∧
      d.Doc = TextToMap (bytes "Hello") (bytes "p") ∧
      (([] : List Str) = [] →
        d.UsedKeys = getKeys (TextToMap (bytes "Hello") (bytes "p")) ∧
        d.UsedKeys = (TextToMap (bytes "Hello") (bytes "p")).map Prod.fst ∧
        Ascending d.UsedKeys) :=
  no_history_delegation (fun _ _ => []) (fun _ _ => 0) (bytes "Hello") (bytes "p") none []
    (Or.inl rfl)

/-- C6, as stated, fails: with no prior snapshot and the text `"Hello\n\nWorld\n\n"`
the second entry is `"World\n"`, so the snapshot is not one that maps two keys to
`"Hello"` and `"World"`. -/
theorem bootstrap_second_is_not_world :
    ∃ d, WithPreservedKeysAndOrder (fun _ _ => []) (fun _ _ => 0) (bytes "Hello\n\nWorld\n\n")
        (bytes "doc") none [] = some d ∧
      d.Doc.get (bytes "doc:2") = bytes "World\n" ∧
      ¬ ∃ k1 k2, d.Doc = [(k1, bytes "Hello"), (k2, bytes "World")] := by
  refine ⟨_, rfl, by decide, ?_⟩
  rintro ⟨k1, k2, h⟩
  have h2 : (noHistory (bytes "Hello\n\nWorld\n\n") (bytes "doc") [] []).Doc.map Prod.snd =
      [bytes "Hello", bytes "World"] := by
    rw [h]; rfl
  revert h2
  decide

/-- C6, amended: with no prior snapshot and the text `"Hello\n\nWorld\n\n"`, for every
path the result snapshot has exactly two keys `path:0 < path:2`, with
`Doc[path:0] = "Hello"` and `Doc[path:2] = "World\n"`: the empty piece after the last
newline counts as one more blank line, and its newline is appended to the entry of the
last paragraph. Both keys, in this order, are the retained-key set. -/
theorem bootstrap_example (bisect : Str → Str → List Diff) (dist : Str → Str → Nat)
    (path : Str) :
    WithPreservedKeysAndOrder bisect dist (bytes "Hello\n\nWorld\n\n") path none [] =
        some ⟨[(path ++ bytes ":0", bytes "Hello"), (path ++ bytes ":2", bytes "World\n")],
          [path ++ bytes ":0", path ++ bytes ":2"]⟩ ∧
      strLt (path ++ bytes ":0") (path ++ bytes ":2") = true := by
  have h : TextToMap (bytes "Hello\n\nWorld\n\n") [] =
      [(bytes ":0", bytes "Hello"), (bytes ":2", bytes "World\n")] := by decide
  have hd : TextToMap (bytes "Hello\n\nWorld\n\n") path =
      [(path ++ bytes ":0", bytes "Hello"), (path ++ bytes ":2", bytes "World\n")] := by
    rw [TextToMap_path, h]
    rfl
  constructor
  · simp only [WithPreservedKeysAndOrder, noHistory, keysPrefix, hd, List.nil_append,
      List.map_cons, List.map_nil]
    have hs : sortStrings [path ++ bytes ":0", path ++ bytes ":2"] =
        [path ++ bytes ":0", path ++ bytes ":2"] := by
      apply sortStrings_of_ascending
      simp only [Ascending, List.pairwise_cons, List.mem_singleton, forall_eq,
        strLt_append_left]
      simp
      decide
    rw [hs]
  · rw [strLt_append_left]
    decide

/-- C7 does not hold on the code. Old snapshot `{A: "Foo"}`, new text
`"Foo\n\nBar\n\n"`. Whatever the differ and the distance return, the result has at
most one entry, never two. For the script `[Equal "Foo\n\n", Insert "Bar\n\n"]` the
result is `{A: "Foo"}` with the retained keys `[A]`: `"Bar"` gets no key. -/
theorem pure_insertion_is_lost :
    (∀ (bisect : Str → Str → List Diff) (dist : Str → Str → Nat) (usedKeys : List Str),
      match WithPreservedKeysAndOrder bisect dist (bytes "Foo\n\nBar\n\n") (bytes "p")
          (some [(bytes "A", bytes "Foo")]) usedKeys with
      | none => True
      | some d => d.Doc.length ≤ 1) ∧
    (∀ dist : Str → Str → Nat,
      WithPreservedKeysAndOrder
          (fun _ _ => [⟨DiffEqual, bytes "Foo\n\n"⟩, ⟨DiffInsert, bytes "Bar\n\n"⟩])
          dist (bytes "Foo\n\nBar\n\n") (bytes "p") (some [(bytes "A", bytes "Foo")])
          [bytes "A"] =
        some ⟨[(bytes "A", bytes "Foo")], [bytes "A"]⟩) := by
  refine ⟨?_, ?_⟩
  · intro bisect dist usedKeys
    cases h : WithPreservedKeysAndOrder bisect dist (bytes "Foo\n\nBar\n\n") (bytes "p")
        (some [(bytes "A", bytes "Foo")]) usedKeys with
    | none => trivial
    | some d => exact general_case_size bisect dist _ _ _ _ d (by simp) h
  · intro dist
    set_option maxRecDepth 100000 in
    rfl

/-- C8 does not hold on the code. On the run of the claim (old snapshot
`{A: "Foo", B: "Bar"}`, new text `"Foo\n\n"`, script `[Equal "Foo\n\n",
Delete "Bar\n\n"]`, any distance) the result is `{A: "Foo"}` with the retained keys
`[A, B]`. But for the old snapshot `{p:a: "Foo", p:b: "Bar", p:Â: "Baz"}`, the new text
`"Foo\n\nQux\n\n"`, the script `[Equal "Foo\n\n", Delete "Bar", Insert "Qux",
Equal "\n\n", Delete "Baz\n\n"]` and the distance 3 for both pairs of texts, the walk
gives `p:Â` an empty new text, yet the result is `{p:a: "Foo", p:Â: "Qux"}`: the key
minted for `"Qux"` between `p:a` and `p:Â` is `p:Â` itself. -/
theorem deleted_key_is_bound_again :
    (∀ dist : Str → Str → Nat,
      WithPreservedKeysAndOrder
          (fun _ _ => [⟨DiffEqual, bytes "Foo\n\n"⟩, ⟨DiffDelete, bytes "Bar\n\n"⟩])
          dist (bytes "Foo\n\n") (bytes "p")
          (some [(bytes "A", bytes "Foo"), (bytes "B", bytes "Bar")]) [bytes "A", bytes "B"] =
        some ⟨[(bytes "A", bytes "Foo")], [bytes "A", bytes "B"]⟩) ∧
    walk [(bytes "p:a", bytes "Foo"), (bytes "p:b", bytes "Bar"), (bytes "p:Â", bytes "Baz")]
        [⟨DiffEqual, bytes "Foo\n\n"⟩, ⟨DiffEqual, []⟩, ⟨DiffDelete, bytes "Bar"⟩,
          ⟨DiffInsert, bytes "Qux"⟩, ⟨DiffEqual, bytes "\n\n"⟩, ⟨DiffEqual, []⟩,
          ⟨DiffDelete, bytes "Baz\n\n"⟩, ⟨DiffDelete, []⟩]
        (fun _ _ => 3) =
      some [⟨bytes "p:a", [], bytes "p:b", bytes "Foo", bytes "Foo"⟩,
        ⟨bytes "p:b", bytes "p:a", bytes "p:Â", bytes "Bar", []⟩,
        ⟨[], bytes "p:a", bytes "p:Â", [], bytes "Qux"⟩,
        ⟨bytes "p:Â", bytes "p:b", [], bytes "Baz", []⟩] ∧
    WithPreservedKeysAndOrder
        (fun _ _ => [⟨DiffEqual, bytes "Foo\n\n"⟩, ⟨DiffDelete, bytes "Bar"⟩,
          ⟨DiffInsert, bytes "Qux"⟩, ⟨DiffEqual, bytes "\n\n"⟩, ⟨DiffDelete, bytes "Baz\n\n"⟩])
        (fun _ _ => 3) (bytes "Foo\n\nQux\n\n") (bytes "p")
        (some [(bytes "p:a", bytes "Foo"), (bytes "p:b", bytes "Bar"),
          (bytes "p:Â", bytes "Baz")])
        [bytes "p:a", bytes "p:b", bytes "p:Â"] =
      some ⟨[(bytes "p:a", bytes "Foo"), (bytes "p:Â", bytes "Qux")],
        [bytes "p:a", bytes "p:b", bytes "p:Â", bytes "p:Â"]⟩ := by
  refine ⟨?_, ?_, ?_⟩
  · intro dist
    have hn : normalize [⟨DiffEqual, bytes "Foo\n\n"⟩, ⟨DiffDelete, bytes "Bar\n\n"⟩] =
        some [⟨DiffEqual, bytes "Foo\n\n"⟩, ⟨DiffEqual, []⟩, ⟨DiffDelete, bytes "Bar\n\n"⟩,
          ⟨DiffDelete, []⟩] := by
      set_option maxRecDepth 100000 in
      decide
    have ht : ¬ trimSpace (replaceAll (bytes "Bar") [10, 13] [10]) = trimSpace [] := by
      decide
    have hb : bisectPanics (bytes "Bar") [] = false := by decide
    have hc : classify dist 1 (bytes "B") (bytes "A") [] (bytes "Bar") (bytes "Bar") [] =
          some [⟨bytes "B", bytes "A", [], bytes "Bar", []⟩] ∨
        classify dist 1 (bytes "B") (bytes "A") [] (bytes "Bar") (bytes "Bar") [] =
          some [⟨bytes "B", bytes "A", [], bytes "Bar", []⟩, ⟨[], bytes "A", [], [], []⟩] := by
      unfold classify
      simp only [if_neg ht, hb, Bool.false_eq_true, if_false]
      split_ifs <;> first | exact Or.inl rfl | exact Or.inr rfl
    have hs : walkStep [(bytes "A", bytes "Foo"), (bytes "B", bytes "Bar")]
        [⟨DiffEqual, bytes "Foo\n\n"⟩, ⟨DiffEqual, []⟩, ⟨DiffDelete, bytes "Bar\n\n"⟩,
          ⟨DiffDelete, []⟩] dist 1 (bytes "B") (bytes "A") []
        ⟨1, [⟨bytes "A", [], bytes "B", bytes "Foo", bytes "Foo"⟩], [], []⟩ =
        (match classify dist 1 (bytes "B") (bytes "A") [] (bytes "Bar") (bytes "Bar") [] with
          | none => Outcome.panic
          | some ls =>
            Outcome.next ⟨3, [⟨bytes "A", [], bytes "B", bytes "Foo", bytes "Foo"⟩] ++ ls,
              [], []⟩) := by
      set_option maxRecDepth 100000 in
      rfl
    have hw : ∃ lines, walk [(bytes "A", bytes "Foo"), (bytes "B", bytes "Bar")]
        [⟨DiffEqual, bytes "Foo\n\n"⟩, ⟨DiffEqual, []⟩, ⟨DiffDelete, bytes "Bar\n\n"⟩,
          ⟨DiffDelete, []⟩] dist = some lines ∧
        emit lines [bytes "A", bytes "B"] =
          some ⟨[(bytes "A", bytes "Foo")], [bytes "A", bytes "B"]⟩ := by
      have h0 : walk [(bytes "A", bytes "Foo"), (bytes "B", bytes "Bar")]
          [⟨DiffEqual, bytes "Foo\n\n"⟩, ⟨DiffEqual, []⟩, ⟨DiffDelete, bytes "Bar\n\n"⟩,
            ⟨DiffDelete, []⟩] dist =
          walkLoop [(bytes "A", bytes "Foo"), (bytes "B", bytes "Bar")]
            [⟨DiffEqual, bytes "Foo\n\n"⟩, ⟨DiffEqual, []⟩, ⟨DiffDelete, bytes "Bar\n\n"⟩,
              ⟨DiffDelete, []⟩] dist [bytes "A", bytes "B"] 1 [bytes "B"]
            ⟨1, [⟨bytes "A", [], bytes "B", bytes "Foo", bytes "Foo"⟩], [], []⟩ := by
        set_option maxRecDepth 100000 in
        rfl
      rcases hc with hc | hc
      · rw [hc] at hs
        refine ⟨[⟨bytes "A", [], bytes "B", bytes "Foo", bytes "Foo"⟩,
          ⟨bytes "B", bytes "A", [], bytes "Bar", []⟩], ?_, ?_⟩
        · rw [h0, walkLoop_next _ _ _ _ _ _ _ _ _ hs]
          rfl
        · set_option maxRecDepth 100000 in
          decide
      · rw [hc] at hs
        refine ⟨[⟨bytes "A", [], bytes "B", bytes "Foo", bytes "Foo"⟩,
          ⟨bytes "B", bytes "A", [], bytes "Bar", []⟩, ⟨[], bytes "A", [], [], []⟩], ?_, ?_⟩
        · rw [h0, walkLoop_next _ _ _ _ _ _ _ _ _ hs]
          rfl
        · set_option maxRecDepth 100000 in
          decide
    obtain ⟨lines, hw1, hw2⟩ := hw
    rw [run_of_walk _ dist _ _ _ _ _ _ (by decide) (by decide) hn hw1, hw2]
  · set_option maxRecDepth 100000 in
    decide
  · set_option maxRecDepth 100000 in
    decide

/-- C9 does not hold on the code. Old snapshot `{A: "Foo"}`, old retained keys
`[A, B]`, new text `"Foo\n\n"`, script `[Equal "Foo\n\n"]`: the returned retained keys
are `[A]`, and `B` is forgotten. -/
theorem retained_key_is_dropped :
    ∀ dist : Str → Str → Nat,
      WithPreservedKeysAndOrder (fun _ _ => [⟨DiffEqual, bytes "Foo\n\n"⟩]) dist
          (bytes "Foo\n\n") (bytes "p") (some [(bytes "A", bytes "Foo")])
          [bytes "A", bytes "B"] =
        some ⟨[(bytes "A", bytes "Foo")], [bytes "A"]⟩ := by
  intro dist
  set_option maxRecDepth 100000 in
  rfl

/-- C10, as stated, fails for the first key. Old snapshot `{A: "Foo"}`, new text
`"Bar\n\n"`, script `[Delete "Foo", Insert "Bar", Equal "\n\n"]`, distance 3 between
texts of 3 runes each: the result is `{A: "Bar"}`, the old key kept with the new
text. -/
theorem first_key_is_never_replaced :
    runeCount (bytes "Foo") = 3 ∧ runeCount (bytes "Bar") = 3 ∧
    WithPreservedKeysAndOrder
        (fun _ _ => [⟨DiffDelete, bytes "Foo"⟩, ⟨DiffInsert, bytes "Bar"⟩,
          ⟨DiffEqual, bytes "\n\n"⟩])
        (fun _ _ => 3) (bytes "Bar\n\n") (bytes "p") (some [(bytes "A", bytes "Foo")])
        [bytes "A"] =
      some ⟨[(bytes "A", bytes "Bar")], [bytes "A"]⟩ := by
  set_option maxRecDepth 100000 in
  refine ⟨?_, ?_, ?_⟩ <;> decide

/-- C11 does not hold on the code. For the text `"Hello"` and every namespace, the
rendering of the segmentation is `r = "Hello\n\n\n"`, and rendering the segmentation of
`r` gives `"Hello\n\n\n\n"`, which is not `r`. -/
theorem render_segment_is_not_stable (ns : Str) :
    MapToText (TextToMap (bytes "Hello") ns) = bytes "Hello\n\n\n" ∧
    MapToText (TextToMap (bytes "Hello\n\n\n") ns) = bytes "Hello\n\n\n\n" ∧
    bytes "Hello\n\n\n\n" ≠ bytes "Hello\n\n\n" := by
  have h1 : TextToMap (bytes "Hello") [] = [(bytes ":0", bytes "Hello\n")] := by decide
  have h2 : TextToMap (bytes "Hello\n\n\n") [] = [(bytes ":0", bytes "Hello\n\n")] := by
    decide
  refine ⟨?_, ?_, by decide⟩
  · rw [TextToMap_path, h1]
    simp only [GoMap.withPath, List.map_cons, List.map_nil, MapToText_single]
    decide
  · rw [TextToMap_path, h2]
    simp only [GoMap.withPath, List.map_cons, List.map_nil, MapToText_single]
    decide

/-- C13, as stated, fails. Old snapshot `{A: "Foo", B: "Bar", C: "Baz"}`, new text
`"Foo\n\nBar\n\nNew\n\nBaz\n\n"`, script `[Equal "Foo\n\nBar\n\n", Insert "New\n\n",
Equal "Baz\n\n"]`: at `C` the spans up to the first `"\n\n"` give no old text, which
does not match `"Baz\n\n"`; the run does not abort, it returns the partial snapshot
`{A: "Foo", B: "Bar"}` as its result (the distance is not consulted, it is 0 here). -/
theorem inconsistency_gives_partial_snapshot :
    WithPreservedKeysAndOrder
        (fun _ _ => [⟨DiffEqual, bytes "Foo\n\nBar\n\n"⟩, ⟨DiffInsert, bytes "New\n\n"⟩,
          ⟨DiffEqual, bytes "Baz\n\n"⟩])
        (fun _ _ => 0) (bytes "Foo\n\nBar\n\nNew\n\nBaz\n\n") (bytes "p")
        (some [(bytes "A", bytes "Foo"), (bytes "B", bytes "Bar"), (bytes "C", bytes "Baz")])
        [bytes "A", bytes "B", bytes "C"] =
      some ⟨[(bytes "A", bytes "Foo"), (bytes "B", bytes "Bar")], [bytes "A", bytes "B"]⟩ := by
  set_option maxRecDepth 100000 in
  rfl

/-- C14 does not hold on the code. Old snapshot `{A: "Foo"}`, new text
`"Bar\n\nFoo\n\n"`, script `[Insert "Bar\n\n", Equal "Foo\n\n"]`, whose normalized
spans are `[Insert "Bar\n\n", Insert "", Equal "Foo\n\n", Equal ""]`: the walk records
the pending insertion and goes on to the next old key (`i--` does not change a `range`
loop), so `A` has no line; the result has an empty snapshot and no retained key. -/
theorem pure_insert_consumes_old_key :
    normalize [⟨DiffInsert, bytes "Bar\n\n"⟩, ⟨DiffEqual, bytes "Foo\n\n"⟩] =
      some [⟨DiffInsert, bytes "Bar\n\n"⟩, ⟨DiffInsert, []⟩, ⟨DiffEqual, bytes "Foo\n\n"⟩,
        ⟨DiffEqual, []⟩] ∧
    (∀ dist : Str → Str → Nat,
      walk [(bytes "A", bytes "Foo")]
          [⟨DiffInsert, bytes "Bar\n\n"⟩, ⟨DiffInsert, []⟩, ⟨DiffEqual, bytes "Foo\n\n"⟩,
            ⟨DiffEqual, []⟩] dist =
        some [⟨[], [], bytes "A", [], bytes "Bar"⟩]) ∧
    (∀ dist : Str → Str → Nat,
      WithPreservedKeysAndOrder
          (fun _ _ => [⟨DiffInsert, bytes "Bar\n\n"⟩, ⟨DiffEqual, bytes "Foo\n\n"⟩])
          dist (bytes "Bar\n\nFoo\n\n") (bytes "p") (some [(bytes "A", bytes "Foo")])
          [bytes "A"] =
        some ⟨[], []⟩) := by
  refine ⟨by decide, ?_, ?_⟩
  · intro dist
    set_option maxRecDepth 100000 in
    rfl
  · intro dist
    set_option maxRecDepth 100000 in
    rfl

/-- C15 does not hold on the code. Old snapshot `{p:0: "Foo", p:2: "Baz"}`, new text
`"Bar\n\nFoo\n\nBaz\n\n"`, script `[Insert "Bar\n\n", Equal "Foo\n\nBaz\n\n"]`: the
walk records `"Bar"` as a pending insertion with an empty previous bracket and the next
bracket `p:0`, the first old key; the last loop stops at that line, so `"Bar"` is given
no key and the result has an empty snapshot (the distance is not consulted, it is 0
here). -/
theorem insertion_before_first_is_dropped :
    walk [(bytes "p:0", bytes "Foo"), (bytes "p:2", bytes "Baz")]
        [⟨DiffInsert, bytes "Bar\n\n"⟩, ⟨DiffInsert, []⟩, ⟨DiffEqual, bytes "Foo\n\n"⟩,
          ⟨DiffEqual, bytes "Baz\n\n"⟩, ⟨DiffEqual, []⟩] (fun _ _ => 0) =
      some [⟨[], [], bytes "p:0", [], bytes "Bar"⟩] ∧
    WithPreservedKeysAndOrder
        (fun _ _ => [⟨DiffInsert, bytes "Bar\n\n"⟩, ⟨DiffEqual, bytes "Foo\n\nBaz\n\n"⟩])
        (fun _ _ => 0) (bytes "Bar\n\nFoo\n\nBaz\n\n") (bytes "p")
        (some [(bytes "p:0", bytes "Foo"), (bytes "p:2", bytes "Baz")])
        [bytes "p:0", bytes "p:2"] =
      some ⟨[], []⟩ := by
  constructor
  · set_option maxRecDepth 100000 in
    rfl
  · set_option maxRecDepth 100000 in
    rfl

/-- C16: in the general case, with a non-empty previous snapshot, for every new text,
edit script and distance, the walk emits at most one line with a non-empty new text
for each old key, and the returned snapshot has at most as many entries as the previous
one. -/
theorem snapshot_size_bound (bisect : Str → Str → List Diff) (dist : Str → Str → Nat)
    (newText path : Str) (docPrevVersion : GoMap) (usedKeys : List Str)
    (hprev : docPrevVersion ≠ []) :
    (∀ spans lines, walk docPrevVersion spans dist = some lines →
      live lines ≤ docPrevVersion.length) ∧
    ∀ d, WithPreservedKeysAndOrder bisect dist newText path (some docPrevVersion) usedKeys =
        some d →
      d.Doc.length ≤ docPrevVersion.length := by
  refine ⟨fun spans lines h => walk_live docPrevVersion spans dist lines h, ?_⟩
  intro d h
  have hgen : ¬ (docPrevVersion.length = 0 ∧ usedKeys.length = 0) := by
    intro hc
    exact hprev (List.length_eq_zero.mp hc.1)
  exact general_case_size bisect dist newText path docPrevVersion usedKeys d hgen h

/-- C16 for the old snapshot `{A: "Foo", B: "Bar"}`. -/
theorem snapshot_size_bound_witness :
    ([(bytes "A", bytes "Foo"), (bytes "B", bytes "Bar")] : GoMap) ≠ [] ∧
    (∀ spans lines, walk [(bytes "A", bytes "Foo"), (bytes "B", bytes "Bar")] spans
        (fun _ _ => 3) = some lines → live lines ≤ 2) ∧
    ∀ d, WithPreservedKeysAndOrder
        (fun _ _ => [⟨DiffEqual, bytes "Foo\n\n"⟩, ⟨DiffDelete, bytes "Bar"⟩,
          ⟨DiffInsert, bytes "Qux"⟩, ⟨DiffEqual, bytes "\n\n"⟩])
        (fun _ _ => 3) (bytes "Foo\n\nQux\n\n") (bytes "p")
        (some [(bytes "A", bytes "Foo"), (bytes "B", bytes "Bar")]) [bytes "A", bytes "B"] =
        some d →
      d.Doc.length ≤ 2 :=
  ⟨by decide,
    snapshot_size_bound
      (fun _ _ => [⟨DiffEqual, bytes "Foo\n\n"⟩, ⟨DiffDelete, bytes "Bar"⟩,
        ⟨DiffInsert, bytes "Qux"⟩, ⟨DiffEqual, bytes "\n\n"⟩])
      (fun _ _ => 3) (bytes "Foo\n\nQux\n\n") (bytes "p")
      [(bytes "A", bytes "Foo"), (bytes "B", bytes "Bar")] [bytes "A", bytes "B"] (by decide)⟩

/-- C18 does not hold on the code. With `"a"`, `"c"`, `"d"`, `"e"` stored, the call
`findNewBetween("a", "e")` has the unused candidate `'b'` (no subtree, in the range,
not below `'0'`), yet it returns `"az"`: two bytes after the empty common prefix, the
first of them the used candidate `'a'`. The candidate `'b'` is the mean of the range
and comes after the used leaf `'a'`, which leaves `minDepth = 0`. -/
theorem unused_candidate_is_passed_over :
    hasPath ((((empty.Add (bytes "a")).Add (bytes "c")).Add (bytes "d")).Add (bytes "e"))
        (bytes "b") = false ∧
    bytes "b" = [98] ∧ bytes "a" = [97] ∧ bytes "e" = [101] ∧ (97 ≤ 98 ∧ 98 < 101 ∧ 48 ≤ 98) ∧
    (findNewBetween ((((empty.Add (bytes "a")).Add (bytes "c")).Add (bytes "d")).Add (bytes "e"))
      (bytes "a") (bytes "e")).map Prod.fst = some (bytes "az") := by
  set_option maxRecDepth 100000 in
  refine ⟨?_, ?_, ?_, ?_, ?_, ?_⟩ <;> decide

/-- C20: after any sequence of `Add` calls on an empty trie, every node's `maxDepth` is
the height of its subtree (0 without children, otherwise 1 + the largest `maxDepth` of
its children); the root's `maxDepth` is the largest byte length of an inserted key; and
a node is marked `isLeaf` exactly when the path to it spells an inserted key. -/
theorem add_records_heights (ks : List Str) :
    (∀ x n, nodeAt (ks.foldl lexTree.Add empty) x = some n →
      n.maxDepth = localHeight n.tree) ∧
    (ks.foldl lexTree.Add empty).maxDepth = ks.foldl (fun m k => max m k.length) 0 ∧
    (∀ k ∈ ks, k.length ≤ (ks.foldl lexTree.Add empty).maxDepth) ∧
    ∀ x n, nodeAt (ks.foldl lexTree.Add empty) x = some n → (n.isLeaf = true ↔ x ∈ ks) := by
  obtain ⟨h1, h2, h3⟩ := foldl_Add_facts ks empty heightsRecorded_empty
  refine ⟨h1, h2, ?_, ?_⟩
  · rw [h2]
    have hmono : ∀ (l : List Str) (m : Nat), m ≤ l.foldl (fun m k => max m k.length) m := by
      intro l
      induction l with
      | nil => intro m; exact le_refl _
      | cons a l ih =>
        intro m
        exact le_trans (le_max_left _ _) (ih _)
    have hall : ∀ (l : List Str) (m : Nat), ∀ k ∈ l,
        k.length ≤ l.foldl (fun m k => max m k.length) m := by
      intro l
      induction l with
      | nil => intro m k hk; cases hk
      | cons a l ih =>
        intro m k hk
        rcases List.mem_cons.mp hk with e | e
        · subst e
          exact le_trans (le_max_right _ _) (hmono l _)
        · exact ih _ k e
    exact hall ks 0
  · intro x n hn
    have := h3 x
    rw [contains_nodeAt, hn, contains_empty] at this
    simp only [Bool.or_false] at this
    rw [this]
    simp

/-- C17: for every non-empty edit script whose span texts contain no newline followed
by a carriage return, the three normalisation passes (coalescing, moving a newline,
cutting again at the blank line) return a span sequence, and that sequence has the same
old text (Equal and Delete spans in order) and the same new text (Equal and Insert
spans in order) as the script. -/
theorem normalization_keeps_both_texts (diff : List Diff) (hne : diff ≠ [])
    (hclean : ∀ d ∈ diff, containsStr d.Text [10, 13] = false) :
    ∃ spans, normalize diff = some spans ∧ oldSide spans = oldSide diff ∧
      newSide spans = newSide diff := by
  obtain ⟨s1, h1, e1⟩ := normalize_side (fun op => decide (op ≠ DiffInsert)) (by decide)
    diff hne hclean
  obtain ⟨s2, h2, e2⟩ := normalize_side (fun op => decide (op ≠ DiffDelete)) (by decide)
    diff hne hclean
  rw [h1] at h2
  cases h2
  exact ⟨s1, h1, e1, e2⟩

/-- C17 at the script Equal "Foo\n", Insert "Bar\n", Insert "Baz\n\nQux\n", Equal "\nEnd",
where all three passes change the spans. -/
theorem normalization_keeps_both_texts_witness :
    [Diff.mk DiffEqual (bytes "Foo\n"), ⟨DiffInsert, bytes "Bar\n"⟩,
        ⟨DiffInsert, bytes "Baz\n\nQux\n"⟩, ⟨DiffEqual, bytes "\nEnd"⟩] ≠ [] ∧
      (∀ d ∈ [Diff.mk DiffEqual (bytes "Foo\n"), ⟨DiffInsert, bytes "Bar\n"⟩,
        ⟨DiffInsert, bytes "Baz\n\nQux\n"⟩, ⟨DiffEqual, bytes "\nEnd"⟩],
        containsStr d.Text [10, 13] = false) ∧
      ∃ spans, normalize [Diff.mk DiffEqual (bytes "Foo\n"), ⟨DiffInsert, bytes "Bar\n"⟩,
        ⟨DiffInsert, bytes "Baz\n\nQux\n"⟩, ⟨DiffEqual, bytes "\nEnd"⟩] = some spans ∧
        oldSide spans = oldSide [Diff.mk DiffEqual (bytes "Foo\n"), ⟨DiffInsert, bytes "Bar\n"⟩,
          ⟨DiffInsert, bytes "Baz\n\nQux\n"⟩, ⟨DiffEqual, bytes "\nEnd"⟩] ∧
        newSide spans = newSide [Diff.mk DiffEqual (bytes "Foo\n"), ⟨DiffInsert, bytes "Bar\n"⟩,
          ⟨DiffInsert, bytes "Baz\n\nQux\n"⟩, ⟨DiffEqual, bytes "\nEnd"⟩] :=
  ⟨by simp, by decide,
    normalization_keeps_both_texts _ (by simp) (by decide)⟩

/-- C19 does not hold on the code in its last part. Old snapshot
`{p:a: "Cat", p:b: "Dog", p:Â: "Emu"}` with its three keys retained, new text
`"Cat\n\nFly\n\n"`, script `[Equal "Cat\n\n", Delete "Dog", Insert "Fly", Equal "\n\n",
Delete "Emu\n\n"]` (its old and new sides are the two texts), distance 3 for both pairs
of texts: the general case returns the retained keys `[p:a, p:b, p:Â, p:Â]`, with `p:Â`
twice. -/
theorem retained_keys_hold_a_duplicate :
    oldSide [⟨DiffEqual, bytes "Cat\n\n"⟩, ⟨DiffDelete, bytes "Dog"⟩,
        ⟨DiffInsert, bytes "Fly"⟩, ⟨DiffEqual, bytes "\n\n"⟩, ⟨DiffDelete, bytes "Emu\n\n"⟩] =
      MapToText [(bytes "p:a", bytes "Cat"), (bytes "p:b", bytes "Dog"),
        (bytes "p:Â", bytes "Emu")] ∧
    newSide [⟨DiffEqual, bytes "Cat\n\n"⟩, ⟨DiffDelete, bytes "Dog"⟩,
        ⟨DiffInsert, bytes "Fly"⟩, ⟨DiffEqual, bytes "\n\n"⟩, ⟨DiffDelete, bytes "Emu\n\n"⟩] =
      bytes "Cat\n\nFly\n\n" ∧
    WithPreservedKeysAndOrder
        (fun _ _ => [⟨DiffEqual, bytes "Cat\n\n"⟩, ⟨DiffDelete, bytes "Dog"⟩,
          ⟨DiffInsert, bytes "Fly"⟩, ⟨DiffEqual, bytes "\n\n"⟩, ⟨DiffDelete, bytes "Emu\n\n"⟩])
        (fun _ _ => 3) (bytes "Cat\n\nFly\n\n") (bytes "p")
        (some [(bytes "p:a", bytes "Cat"), (bytes "p:b", bytes "Dog"),
          (bytes "p:Â", bytes "Emu")])
        [bytes "p:a", bytes "p:b", bytes "p:Â"] =
      some ⟨[(bytes "p:a", bytes "Cat"), (bytes "p:Â", bytes "Fly")],
        [bytes "p:a", bytes "p:b", bytes "p:Â", bytes "p:Â"]⟩ ∧
    ¬ List.Nodup [bytes "p:a", bytes "p:b", bytes "p:Â", bytes "p:Â"] := by
  refine ⟨?_, ?_, ?_, ?_⟩
  · set_option maxRecDepth 100000 in
    decide
  · set_option maxRecDepth 100000 in
    decide
  · set_option maxRecDepth 100000 in
    decide
  · set_option maxRecDepth 100000 in
    decide

/-- C20 at the keys `"a"` and `"ab"`: the node of `"a"` has the recorded height 1 and
is marked, and the root has the recorded height 2. -/
theorem add_records_heights_witness :
    nodeAt ([bytes "a", bytes "ab"].foldl lexTree.Add lexTree.empty) (bytes "a") =
        some (lexTree.mk true [(98, lexTree.mk true [] 0)] 1) ∧
      (lexTree.mk true [(98, lexTree.mk true [] 0)] 1).maxDepth =
        localHeight (lexTree.mk true [(98, lexTree.mk true [] 0)] 1).tree ∧
      ([bytes "a", bytes "ab"].foldl lexTree.Add lexTree.empty).maxDepth = 2 :=
  ⟨rfl, (add_records_heights [bytes "a", bytes "ab"]).1 (bytes "a") _ rfl, by decide⟩

/-- C13, amended: if, while accumulating spans for the old key `k`, the reconstruction
does not match (an Equal or Delete span is not a prefix of what is left of the stored
text plus separator, or old text is left over, or the two new-side texts differ beyond
white space), the walk stops at `k` without a fault and returns the lines of the keys
`pre` processed before; the run is then the last loop on these lines. Every line has
no key or a key of `pre`, and when the run returns, its result is a partial snapshot:
at most one entry for each key of `pre`, fewer entries than the old snapshot has. -/
theorem inconsistency_stops_walk (bisect : Str → Str → List Diff) (dist : Str → Str → Nat)
    (newText path : Str) (prev : GoMap) (usedKeys : List Str) (spans : List Diff)
    (pre : List Str) (k : Str) (rest : List Str) (st : WalkState) (d : Diff)
    (hgen : ¬ (prev.length = 0 ∧ usedKeys.length = 0))
    (hb : bisectPanics (MapToText prev) newText = false)
    (hn : normalize (bisect (MapToText prev) newText) = some spans)
    (hkeys : getKeys prev = pre ++ k :: rest)
    (hto : walkTo prev spans dist (getKeys prev) 0 pre ⟨0, [], [], []⟩ = some st)
    (hd : spans.get? st.diffI = some d)
    (hins : ¬ (endsWith d.Text sep = true ∧ d.Op = DiffInsert))
    (htext : prev.get k ++ sep ≠ d.Text)
    (hbad : (walkAcc prev spans k st).correctLine = false ∨
      trimSpace (walkAcc prev spans k st).oldLineRight ≠ [] ∨
      trimSpace (trimEnd (walkAcc prev spans k st).newLine sep) ≠
        trimSpace (walkAcc prev spans k st).oldLineLeft) :
    walk prev spans dist = some st.lines ∧
      WithPreservedKeysAndOrder bisect dist newText path (some prev) usedKeys =
        emit st.lines usedKeys ∧
      (∀ l ∈ st.lines, l.Key = [] ∨ l.Key ∈ pre) ∧
      ∀ doc, WithPreservedKeysAndOrder bisect dist newText path (some prev) usedKeys =
          some doc →
        doc.Doc.length ≤ pre.length ∧ pre.length < prev.length := by
  obtain ⟨hw, hrun⟩ := run_of_stop bisect dist newText path prev usedKeys spans pre k rest st d
    hgen hb hn hkeys hto hd hins htext hbad
  obtain ⟨a1, a2⟩ := walkTo_lines prev spans dist (getKeys prev) pre 0 _ st hto
  refine ⟨hw, hrun, ?_, ?_⟩
  · intro l hl
    rcases a2 l hl with m | m
    · simp at m
    · exact m
  · intro doc hdoc
    rw [hrun] at hdoc
    simp only [emit, Option.map_eq_some'] at hdoc
    obtain ⟨r, hr, hdr⟩ := hdoc
    subst hdr
    have h1 := emitLoop_length _ _ _ _ _ hr
    have h3 : (getKeys prev).length = prev.length := by
      simp [getKeys, length_sortStrings]
    have h4 : live ([] : List diffLine) = 0 := rfl
    have h5 : (getKeys prev).length = pre.length + (rest.length + 1) := by
      rw [hkeys]
      simp
    simp only [List.length_nil] at h1
    simp only [h4] at a1
    constructor
    · show r.1.length ≤ pre.length
      omega
    · omega

/-- C13, amended, at the key `C` of the run above: the walk returns the lines of `A`
and `B`, and the run returns the snapshot `{A: "Foo", B: "Bar"}` made from them. -/
theorem inconsistency_stops_walk_witness :
    (walk [(bytes "A", bytes "Foo"), (bytes "B", bytes "Bar"), (bytes "C", bytes "Baz")]
        [⟨DiffEqual, bytes "Foo\n\n"⟩, ⟨DiffEqual, bytes "Bar\n\n"⟩, ⟨DiffEqual, []⟩,
          ⟨DiffInsert, bytes "New\n\n"⟩, ⟨DiffInsert, []⟩, ⟨DiffEqual, bytes "Baz\n\n"⟩,
          ⟨DiffEqual, []⟩]
        (fun _ _ => 0) =
      some [⟨bytes "A", [], bytes "B", bytes "Foo", bytes "Foo"⟩,
        ⟨bytes "B", bytes "A", bytes "C", bytes "Bar", bytes "Bar"⟩] ∧
    WithPreservedKeysAndOrder
        (fun _ _ => [⟨DiffEqual, bytes "Foo\n\nBar\n\n"⟩, ⟨DiffInsert, bytes "New\n\n"⟩,
          ⟨DiffEqual, bytes "Baz\n\n"⟩])
        (fun _ _ => 0) (bytes "Foo\n\nBar\n\nNew\n\nBaz\n\n") (bytes "p")
        (some [(bytes "A", bytes "Foo"), (bytes "B", bytes "Bar"), (bytes "C", bytes "Baz")])
        [bytes "A", bytes "B", bytes "C"] =
      emit [⟨bytes "A", [], bytes "B", bytes "Foo", bytes "Foo"⟩,
        ⟨bytes "B", bytes "A", bytes "C", bytes "Bar", bytes "Bar"⟩]
        [bytes "A", bytes "B", bytes "C"] ∧
    (∀ l ∈ [(⟨bytes "A", [], bytes "B", bytes "Foo", bytes "Foo"⟩ : diffLine),
        ⟨bytes "B", bytes "A", bytes "C", bytes "Bar", bytes "Bar"⟩],
      l.Key = [] ∨ l.Key ∈ [bytes "A", bytes "B"]) ∧
    ∀ doc, WithPreservedKeysAndOrder
        (fun _ _ => [⟨DiffEqual, bytes "Foo\n\nBar\n\n"⟩, ⟨DiffInsert, bytes "New\n\n"⟩,
          ⟨DiffEqual, bytes "Baz\n\n"⟩])
        (fun _ _ => 0) (bytes "Foo\n\nBar\n\nNew\n\nBaz\n\n") (bytes "p")
        (some [(bytes "A", bytes "Foo"), (bytes "B", bytes "Bar"), (bytes "C", bytes "Baz")])
        [bytes "A", bytes "B", bytes "C"] = some doc →
      doc.Doc.length ≤ [bytes "A", bytes "B"].length ∧
        [bytes "A", bytes "B"].length <
          [(bytes "A", bytes "Foo"), (bytes "B", bytes "Bar"), (bytes "C", bytes "Baz")].length) ∧
    emit [⟨bytes "A", [], bytes "B", bytes "Foo", bytes "Foo"⟩,
        ⟨bytes "B", bytes "A", bytes "C", bytes "Bar", bytes "Bar"⟩]
        [bytes "A", bytes "B", bytes "C"] =
      some ⟨[(bytes "A", bytes "Foo"), (bytes "B", bytes "Bar")], [bytes "A", bytes "B"]⟩ :=
  ⟨inconsistency_stops_walk
      (fun _ _ => [⟨DiffEqual, bytes "Foo\n\nBar\n\n"⟩, ⟨DiffInsert, bytes "New\n\n"⟩,
        ⟨DiffEqual, bytes "Baz\n\n"⟩])
      (fun _ _ => 0) (bytes "Foo\n\nBar\n\nNew\n\nBaz\n\n") (bytes "p")
      [(bytes "A", bytes "Foo"), (bytes "B", bytes "Bar"), (bytes "C", bytes "Baz")]
      [bytes "A", bytes "B", bytes "C"]
      [⟨DiffEqual, bytes "Foo\n\n"⟩, ⟨DiffEqual, bytes "Bar\n\n"⟩, ⟨DiffEqual, []⟩,
        ⟨DiffInsert, bytes "New\n\n"⟩, ⟨DiffInsert, []⟩, ⟨DiffEqual, bytes "Baz\n\n"⟩,
        ⟨DiffEqual, []⟩]
      [bytes "A", bytes "B"] (bytes "C") []
      ⟨2, [⟨bytes "A", [], bytes "B", bytes "Foo", bytes "Foo"⟩,
        ⟨bytes "B", bytes "A", bytes "C", bytes "Bar", bytes "Bar"⟩], [], []⟩
      ⟨DiffEqual, []⟩ (by decide) (by decide) (by decide) (by decide) rfl (by decide)
      (by decide) (by decide) (Or.inr (Or.inl (by decide))),
    by decide⟩

/-- C12: for every text and namespace `ns`, with `N` the number of `"\n"`-separated
lines and `w` the number of decimal digits of `N`: every key produced by `TextToMap` is
`ns`, `":"` and exactly `w` decimal digits, which write the index `n < N` of line 0 or
of a line where a paragraph starts; a paragraph that starts at line `s` has the entry
with the key of `s`, bound to its buffer or to its trimmed buffer and the newlines of
the blank run after it; so for two entries whose paragraphs start at the lines `i < j`
the key of `i` is below the key of `j` in byte order, as for all line indices
`i < j < N`. -/
theorem segment_keys_ordered (text ns : Str) :
    (1 ≤ (split text [10]).length ∧
      (split text [10]).length < 10 ^ (itoa (split text [10]).length).length ∧
      10 ^ ((itoa (split text [10]).length).length - 1) ≤ (split text [10]).length) ∧
    (∀ k ∈ (TextToMap text ns).map Prod.fst,
      ∃ n digits, n < (split text [10]).length ∧ k = ns ++ 58 :: digits ∧
        digits = padZero (itoa (split text [10]).length).length n ∧
        digits.length = (itoa (split text [10]).length).length ∧ isDigits digits ∧
        decVal digits = n ∧ (n = 0 ∨ paragraphStart (split text [10]) n = true)) ∧
    (∀ s, paragraphStart (split text [10]) s = true →
      (TextToMap text ns).has (lineKey ns (itoa (split text [10]).length).length s) = true ∧
      ((TextToMap text ns).get (lineKey ns (itoa (split text [10]).length).length s) =
          paragraphBuffer ((split text [10]).drop s) ∨
        ∃ m, (TextToMap text ns).get (lineKey ns (itoa (split text [10]).length).length s) =
          trimSpace (paragraphBuffer ((split text [10]).drop s)) ++ List.replicate m 10)) ∧
    (∀ i j, paragraphStart (split text [10]) i = true →
      paragraphStart (split text [10]) j = true → i < j →
      strLt (lineKey ns (itoa (split text [10]).length).length i)
        (lineKey ns (itoa (split text [10]).length).length j) = true) ∧
    ∀ i j, i < j → j < (split text [10]).length →
      strLt (lineKey ns (itoa (split text [10]).length).length i)
        (lineKey ns (itoa (split text [10]).length).length j) = true := by
  have hpos : 1 ≤ (split text [10]).length := splitGo_length_pos [10] text 0
  obtain ⟨_, _, _, a4, a5⟩ := itoa_facts (split text [10]).length
  obtain ⟨p1, p2⟩ := TextToMap_paragraphs text ns
  have hlt : ∀ i j, i < j → j < (split text [10]).length →
      strLt (lineKey ns (itoa (split text [10]).length).length i)
        (lineKey ns (itoa (split text [10]).length).length j) = true := by
    intro i j hij hj
    unfold lineKey
    rw [strLt_append_left, strLt_cons_same]
    exact padZero_lt _ i j hij hj
  refine ⟨⟨hpos, a4, a5 (by omega)⟩, ?_, p2, ?_, hlt⟩
  · intro k hk
    obtain ⟨n, hkn, hn⟩ := p1 k hk
    have hnN : n < (split text [10]).length := by
      rcases hn with h0 | h0
      · omega
      · exact paragraphStart_lt _ _ h0
    obtain ⟨b1, b2, b3⟩ := padZero_facts (split text [10]).length n hnN
    exact ⟨n, _, hnN, hkn, rfl, b1, b2, b3, hn⟩
  · intro i j _ hj hij
    exact hlt i j hij (paragraphStart_lt _ _ hj)

/-- C12 for the text `"Hello\n\nWorld\n\n"`, whose paragraphs start at the lines 0 and
2: the entries are `p:0` with `"Hello"` and `p:2` with `"World\n"`, and `p:0` is below
`p:2`. -/
theorem segment_keys_ordered_witness :
    paragraphStart (split (bytes "Hello\n\nWorld\n\n") [10]) 0 = true ∧
    paragraphStart (split (bytes "Hello\n\nWorld\n\n") [10]) 2 = true ∧
    TextToMap (bytes "Hello\n\nWorld\n\n") (bytes "p") =
      [(bytes "p:0", bytes "Hello"), (bytes "p:2", bytes "World\n")] ∧
    lineKey (bytes "p") (itoa (split (bytes "Hello\n\nWorld\n\n") [10]).length).length 0 =
      bytes "p:0" ∧
    lineKey (bytes "p") (itoa (split (bytes "Hello\n\nWorld\n\n") [10]).length).length 2 =
      bytes "p:2" ∧
    strLt (lineKey (bytes "p") (itoa (split (bytes "Hello\n\nWorld\n\n") [10]).length).length 0)
      (lineKey (bytes "p") (itoa (split (bytes "Hello\n\nWorld\n\n") [10]).length).length 2) =
      true :=
  ⟨by decide, by decide, by decide, by decide, by decide,
    (segment_keys_ordered (bytes "Hello\n\nWorld\n\n") (bytes "p")).2.2.2.1 0 2 (by decide)
      (by decide) (by decide)⟩

/-- C10, amended: for every old key `k` other than the first in sorted order (the keys
`pre` before it are not empty), when the walk comes to `k` in the state `st` and
reconstructs for it an old text and a candidate new text of the same number `n ≥ 2` of
runes at edit distance `n`, the paragraph is classified as delete+insert: the walk
emits a deletion line for `k` and a pending insertion that carries the new text, and
when the run returns, `k` is absent from the returned snapshot and retained, and the
new text is bound to a new key, different from `k` and from the retained keys passed
in. The old keys are distinct, non-empty and ASCII, and the normalized script does not
begin with an Insert span that ends in a blank line. -/
theorem large_edit_threshold (bisect : Str → Str → List Diff) (dist : Str → Str → Nat)
    (newText path : Str) (prev : GoMap) (usedKeys : List Str) (spans : List Diff)
    (pre : List Str) (k : Str) (rest : List Str) (st : WalkState) (d : Diff) (n : Nat)
    (doc : Doc)
    (hn : normalize (bisect (MapToText prev) newText) = some spans)
    (hkeys : getKeys prev = pre ++ k :: rest) (hpre : pre ≠ [])
    (hnodup : (getKeys prev).Nodup)
    (hascii : ∀ x ∈ getKeys prev, x ≠ [] ∧ isAscii x = true)
    (hfirst : ∀ d0, spans.get? 0 = some d0 →
      ¬ (endsWith d0.Text sep = true ∧ d0.Op = DiffInsert))
    (hto : walkTo prev spans dist (getKeys prev) 0 pre ⟨0, [], [], []⟩ = some st)
    (hd : spans.get? st.diffI = some d)
    (hins : ¬ (endsWith d.Text sep = true ∧ d.Op = DiffInsert))
    (htext : prev.get k ++ sep ≠ d.Text)
    (hgood : (walkAcc prev spans k st).correctLine = true ∧
      trimSpace (walkAcc prev spans k st).oldLineRight = [] ∧
      trimSpace (trimEnd (walkAcc prev spans k st).newLine sep) =
        trimSpace (walkAcc prev spans k st).oldLineLeft)
    (hn2 : 2 ≤ n)
    (hold : runeCount (st.leftoverTextNs ++ prev.get k) = n)
    (hnew : runeCount (trimEnd (walkAcc prev spans k st).newLine sep) = n)
    (hdist : dist (st.leftoverTextNs ++ prev.get k)
      (trimEnd (walkAcc prev spans k st).newLine sep) = n)
    (hret : WithPreservedKeysAndOrder bisect dist newText path (some prev) usedKeys =
      some doc) :
    (∃ previousKey nextKey tail, walk prev spans dist =
      some (st.lines ++ ⟨k, previousKey, nextKey, prev.get k, []⟩ ::
        ⟨[], previousKey, nextKey, [], trimEnd (walkAcc prev spans k st).newLine sep⟩ ::
        tail)) ∧
    doc.Doc.has k = false ∧ k ∈ doc.UsedKeys ∧
    ∃ key, key ≠ k ∧ key ∉ usedKeys ∧ doc.Doc.has key = true ∧
      doc.Doc.get key = trimEnd (walkAcc prev spans k st).newLine sep := by
  have hlenk : (getKeys prev).length = pre.length + (rest.length + 1) := by
    rw [hkeys]
    simp
  have hplen : (getKeys prev).length = prev.length := by
    simp [getKeys, length_sortStrings]
  have hgen : ¬ (prev.length = 0 ∧ usedKeys.length = 0) := by
    intro hc
    omega
  have hipos : 0 < pre.length := List.length_pos.mpr hpre
  have hkmem : k ∈ getKeys prev := by
    rw [hkeys]
    simp
  have hkne : k ≠ [] := (hascii k hkmem).1
  have hnd : k ∉ pre ∧ k ∉ rest := by
    rw [hkeys] at hnodup
    have h1 := (List.nodup_middle.mp hnodup)
    have h2 := (List.nodup_cons.mp h1).1
    exact ⟨fun h => h2 (List.mem_append_left _ h), fun h => h2 (List.mem_append_right _ h)⟩
  have hsub : ∀ x, x ∈ pre ∨ x ∈ rest → x ∈ getKeys prev := by
    intro x hx
    rw [hkeys]
    rcases hx with hx | hx
    · exact List.mem_append_left _ hx
    · exact List.mem_append_right _ (List.mem_cons_of_mem _ hx)
  have hbr : ∀ x, x = [] ∨ x ∈ getKeys prev → isAscii x = true := by
    intro x hx
    rcases hx with hx | hx
    · rw [hx]
      rfl
    · exact (hascii x hx).2
  -- the result is the last loop on the lines of the walk
  simp only [WithPreservedKeysAndOrder, if_neg hgen] at hret
  split_ifs at hret with hbp
  simp only [hn] at hret
  cases hw : walk prev spans dist with
  | none => simp [hw] at hret
  | some lines =>
  simp only [hw] at hret
  -- the lines before `k`
  obtain ⟨front, hfront, hfk, hfp⟩ : ∃ front, st.lines = front ∧
      (∀ l ∈ front, l.Key = [] ∨ l.Key ∈ pre) ∧
      (∀ l ∈ front, l.Key = [] → l.PreviousKey ∈ getKeys prev ∧
        (l.NextKey = [] ∨ l.NextKey ∈ getKeys prev)) := by
    refine ⟨st.lines, rfl, ?_, ?_⟩
    · intro l hl
      rcases (walkTo_lines prev spans dist (getKeys prev) pre 0 _ st hto).2 l hl with m | m
      · simp at m
      · exact m
    · cases pre with
      | nil => exact absurd rfl hpre
      | cons k0 pre1 =>
        simp only [walkTo] at hto
        split at hto
        · rename_i st0 hw0
          obtain ⟨ls0, e0, hk0⟩ := walkStep_first prev spans dist k0 _ _ _ st0 hfirst hw0
          obtain ⟨more, e1, hm⟩ := walkTo_shape prev spans dist (getKeys prev) pre1 (0 + 1)
            st0 st hto (by omega) (by simp only [List.length_cons] at hlenk; omega)
          have hk0ne : k0 ≠ [] := (hascii k0 (hsub k0 (Or.inl (List.mem_cons_self _ _)))).1
          intro l hl hl0
          rw [e1, e0] at hl
          simp only [List.nil_append] at hl
          rcases List.mem_append.mp hl with m | m
          · exact absurd (by rw [← hk0 l m, hl0]) hk0ne
          · obtain ⟨_, a2, a3⟩ := hm l m
            refine ⟨a2, ?_⟩
            rcases a3 with a3 | a3 | a3
            · exact Or.inl a3
            · exact Or.inr a3
            · exact Or.inr (hsub _ (Or.inl (List.mem_cons_of_mem _ a3)))
        · cases hto
  -- the iteration for `k`
  have hclass := classify_large dist (0 + pre.length) k
    (if 0 + pre.length > 0 then keyAt (getKeys prev) (0 + pre.length - 1) else [])
    (if 0 + pre.length < (getKeys prev).length - 1 then
      keyAt (getKeys prev) (0 + pre.length + 1) else [])
    (prev.get k) _ _ n hn2 hold hnew hdist (by omega)
  obtain ⟨st1, hs1, hl1⟩ := walkStep_classify prev spans dist (0 + pre.length) k _ _ st d _
    hd hins htext hgood hclass
  have hpk : (if 0 + pre.length > 0 then keyAt (getKeys prev) (0 + pre.length - 1) else []) ∈
      getKeys prev := by
    rw [if_pos (by omega)]
    exact keyAt_mem _ _ (by omega)
  have hnk : (if 0 + pre.length < (getKeys prev).length - 1 then
      keyAt (getKeys prev) (0 + pre.length + 1) else []) = [] ∨
      (if 0 + pre.length < (getKeys prev).length - 1 then
        keyAt (getKeys prev) (0 + pre.length + 1) else []) ∈ getKeys prev := by
    by_cases hc : 0 + pre.length < (getKeys prev).length - 1
    · rw [if_pos hc]
      exact Or.inr (keyAt_mem _ _ (by omega))
    · rw [if_neg hc]
      exact Or.inl rfl
  -- the lines after `k`
  have hwalk : walkLoop prev spans dist (getKeys prev) (0 + pre.length + 1) rest st1 =
      some lines := by
    have e : ∀ ks, ks = pre ++ k :: rest →
        walkLoop prev spans dist (getKeys prev) 0 ks ⟨0, [], [], []⟩ =
          walkLoop prev spans dist (getKeys prev) (0 + pre.length + 1) rest st1 := by
      intro ks hks
      subst hks
      rw [walkLoop_append prev spans dist (getKeys prev) pre 0 (k :: rest) _ st hto]
      simp only [walkLoop, hs1]
    rw [← e _ hkeys]
    exact hw
  generalize (if 0 + pre.length > 0 then keyAt (getKeys prev) (0 + pre.length - 1) else []) =
    pk at hl1 hpk
  generalize (if 0 + pre.length < (getKeys prev).length - 1 then
    keyAt (getKeys prev) (0 + pre.length + 1) else []) = nk at hl1 hnk
  obtain ⟨done, tail, st2, hrest, hto2, hlines⟩ :=
    walkLoop_some prev spans dist (getKeys prev) rest _ st1 lines hwalk
  have hdl : done.length ≤ rest.length := by
    rw [hrest]
    simp
  obtain ⟨back, hb1, hb2⟩ := walkTo_shape prev spans dist (getKeys prev) done _ st1 st2 hto2
    (by omega) (by omega)
  have hdone : ∀ x ∈ done, x ∈ rest := by
    intro x hx
    rw [hrest]
    exact List.mem_append_left _ hx
  have hshape : lines = front ++ ⟨k, pk, nk, prev.get k, []⟩ ::
      ⟨[], pk, nk, [], trimEnd (walkAcc prev spans k st).newLine sep⟩ :: back := by
    rw [hlines, hb1, hl1, hfront]
    simp
  have hnl : trimEnd (walkAcc prev spans k st).newLine sep ≠ [] := by
    intro e
    rw [e, runeCount_nil] at hnew
    omega
  generalize trimEnd (walkAcc prev spans k st).newLine sep = newLine at hshape hnl ⊢
  -- facts about all lines
  have hbackk : ∀ l ∈ back, l.Key ≠ k := by
    intro l hl e
    rcases (hb2 l hl).1 with a | a
    · exact hkne (by rw [← e, a])
    · exact hnd.2 (hdone _ (by rw [← e]; exact a))
  have hfrontk : ∀ l ∈ front, l.Key ≠ k := by
    intro l hl e
    rcases hfk l hl with a | a
    · exact hkne (by rw [← e, a])
    · exact hnd.1 (by rw [← e]; exact a)
  have haf : asciiBrackets front := by
    intro l hl hl0
    obtain ⟨a1, a2⟩ := hfp l hl hl0
    exact ⟨hbr _ (Or.inr a1), hbr _ a2⟩
  have hab : asciiBrackets back := by
    intro l hl _
    obtain ⟨_, a2, a3⟩ := hb2 l hl
    refine ⟨hbr _ (Or.inr a2), hbr _ ?_⟩
    rcases a3 with a3 | a3 | a3
    · exact Or.inl a3
    · exact Or.inr a3
    · exact Or.inr (hsub _ (Or.inr (hdone _ a3)))
  have hall : asciiBrackets lines := by
    intro l hl hl0
    rw [hshape] at hl
    rcases List.mem_append.mp hl with m | m
    · exact haf l m hl0
    · rcases List.mem_cons.mp m with m | m
      · rw [m] at hl0
        exact absurd hl0 hkne
      · rcases List.mem_cons.mp m with m | m
        · rw [m]
          exact ⟨hbr _ (Or.inr hpk), hbr _ hnk⟩
        · exact hab l m hl0
  have hdel : ∀ l ∈ lines, l.Key = k → l.NewLine = [] := by
    intro l hl e
    rw [hshape] at hl
    rcases List.mem_append.mp hl with m | m
    · exact absurd e (hfrontk l m)
    · rcases List.mem_cons.mp m with m | m
      · rw [m]
      · rcases List.mem_cons.mp m with m | m
        · rw [m] at e
          exact absurd e.symm hkne
        · exact absurd e (hbackk l m)
  have hin : ∃ l ∈ lines, l.Key = k :=
    ⟨⟨k, pk, nk, prev.get k, []⟩, by rw [hshape]; simp, rfl⟩
  obtain ⟨r1, r2⟩ := emit_deleted_key lines usedKeys k doc hkne hin hdel hall hret
  refine ⟨⟨pk, nk, back, by rw [hshape, hfront]⟩, r1, r2, ?_⟩
  -- the pending insertion
  simp only [emit, Option.map_eq_some'] at hret
  obtain ⟨r, hr, hdoc⟩ := hret
  subst hdoc
  have hsplit : lines = (front ++ [⟨k, pk, nk, prev.get k, []⟩]) ++
      (⟨[], pk, nk, [], newLine⟩ :: back) := by
    rw [hshape]
    simp
  rw [hsplit] at hr
  obtain ⟨t1, u1, d1, e1, e2⟩ := emitLoop_reaches _ _ _ _ _ r hr
    (by
      intro l hl hl0
      rcases List.mem_append.mp hl with m | m
      · exact fun e => (hascii _ (hfp l m hl0).1).1 e
      · simp only [List.mem_singleton] at m
        rw [m] at hl0
        exact absurd hl0 hkne)
    (by
      intro l hl hl0
      rcases List.mem_append.mp hl with m | m
      · exact haf l m hl0
      · simp only [List.mem_singleton] at m
        rw [m] at hl0
        exact absurd hl0 hkne)
  rw [← hsplit] at e2
  obtain ⟨key, f1, f2, f3, f4⟩ := emitLoop_pending t1 u1 d1 pk nk newLine back r
    (hascii pk hpk).1 hnl (hbr _ (Or.inr hpk)) (hbr _ hnk)
    (by
      intro l hl hl0
      apply e2
      apply hasPath_seedTree
      exact Or.inl ⟨hl0, l, by rw [hshape]; simp [hl], rfl⟩)
    hab e1
  refine ⟨key, ?_, ?_, f4, f3⟩
  · intro e
    have := e2 k (hasPath_seedTree lines usedKeys k (Or.inl ⟨hkne, hin⟩))
    rw [← e, f1] at this
    cases this
  · intro hmem
    have := e2 key (hasPath_seedTree lines usedKeys key (Or.inr hmem))
    rw [f1] at this
    cases this


/-- C10, amended, at the second key `B` of `{A: "Foo", B: "Bar"}` with the new text
`"Foo\n\nQux\n\n"`, the script `[Equal "Foo\n\n", Delete "Bar", Insert "Qux",
Equal "\n\n"]` and the distance 3: the result is `{A: "Foo", z: "Qux"}` with the
retained keys `[A, B, z]`. -/
theorem large_edit_threshold_witness :
    WithPreservedKeysAndOrder
        (fun _ _ => [⟨DiffEqual, bytes "Foo\n\n"⟩, ⟨DiffDelete, bytes "Bar"⟩,
          ⟨DiffInsert, bytes "Qux"⟩, ⟨DiffEqual, bytes "\n\n"⟩])
        (fun _ _ => 3) (bytes "Foo\n\nQux\n\n") (bytes "p")
        (some [(bytes "A", bytes "Foo"), (bytes "B", bytes "Bar")]) [bytes "A", bytes "B"] =
      some ⟨[(bytes "A", bytes "Foo"), (bytes "z", bytes "Qux")],
        [bytes "A", bytes "B", bytes "z"]⟩ ∧
    (2 ≤ 3 ∧ runeCount (bytes "Bar") = 3 ∧ runeCount (bytes "Qux") = 3) ∧
    (∃ previousKey nextKey tail,
      walk [(bytes "A", bytes "Foo"), (bytes "B", bytes "Bar")]
          [⟨DiffEqual, bytes "Foo\n\n"⟩, ⟨DiffEqual, []⟩, ⟨DiffDelete, bytes "Bar"⟩,
            ⟨DiffInsert, bytes "Qux"⟩, ⟨DiffEqual, bytes "\n\n"⟩, ⟨DiffEqual, []⟩]
          (fun _ _ => 3) =
        some ([⟨bytes "A", [], bytes "B", bytes "Foo", bytes "Foo"⟩] ++
          ⟨bytes "B", previousKey, nextKey, bytes "Bar", []⟩ ::
          ⟨[], previousKey, nextKey, [], bytes "Qux"⟩ :: tail)) ∧
    GoMap.has [(bytes "A", bytes "Foo"), (bytes "z", bytes "Qux")] (bytes "B") = false ∧
    bytes "B" ∈ [bytes "A", bytes "B", bytes "z"] ∧
    ∃ key, key ≠ bytes "B" ∧ key ∉ [bytes "A", bytes "B"] ∧
      GoMap.has [(bytes "A", bytes "Foo"), (bytes "z", bytes "Qux")] key = true ∧
      GoMap.get [(bytes "A", bytes "Foo"), (bytes "z", bytes "Qux")] key = bytes "Qux" :=
  ⟨by
      set_option maxRecDepth 100000 in
      decide,
    ⟨by decide, by decide, by decide⟩,
    large_edit_threshold
      (fun _ _ => [⟨DiffEqual, bytes "Foo\n\n"⟩, ⟨DiffDelete, bytes "Bar"⟩,
        ⟨DiffInsert, bytes "Qux"⟩, ⟨DiffEqual, bytes "\n\n"⟩])
      (fun _ _ => 3) (bytes "Foo\n\nQux\n\n") (bytes "p")
      [(bytes "A", bytes "Foo"), (bytes "B", bytes "Bar")] [bytes "A", bytes "B"]
      [⟨DiffEqual, bytes "Foo\n\n"⟩, ⟨DiffEqual, []⟩, ⟨DiffDelete, bytes "Bar"⟩,
        ⟨DiffInsert, bytes "Qux"⟩, ⟨DiffEqual, bytes "\n\n"⟩, ⟨DiffEqual, []⟩]
      [bytes "A"] (bytes "B") []
      ⟨1, [⟨bytes "A", [], bytes "B", bytes "Foo", bytes "Foo"⟩], [], []⟩
      ⟨DiffEqual, []⟩ 3
      ⟨[(bytes "A", bytes "Foo"), (bytes "z", bytes "Qux")], [bytes "A", bytes "B", bytes "z"]⟩
      (by decide) (by decide) (by decide) (by decide) (by decide)
      (by
        intro d0 h
        simp only [List.get?_cons_zero, Option.some.injEq] at h
        subst h
        decide)
      rfl (by decide) (by decide) (by decide) ⟨by decide, by decide, by decide⟩
      (by decide) (by decide) (by decide) rfl
      (by
        set_option maxRecDepth 100000 in
        decide)⟩

end T9n
